import Mathlib

/-!
Wait-for graph deadlock detector (`deadlock.go`).

A shallow embedding of the wait-for graph engine of `deadlock.go`: the lock
conflict table, the snapshot partition loop, the graph builder, `reduceGraph`
and the kill-set loop of `main`, followed by theorems about them.

Conventions of the embedding.

* `int64` session ids are `Int`; only comparisons are performed on them.
* `sql.NullInt64` and `sql.NullString` are `Option Int` and `Option String`
  (`none` is `Valid = false`).
* A Go `map` is an association list; a `map[*Edge]bool` used as a set is a
  list of edges.  The address of an `Edge` is its `id` field.
* A `*Vertex` is represented by the session id of the vertex it points to;
  the vertices that are alive are the ones stored in `session_map`.
* Go leaves the iteration order of `range` over a map unspecified.  Where the
  order can matter it is a parameter: the keys are visited in the order of a
  rank function supplied by the caller.
* A `panic` is a value of `Failure`.
-/

namespace Deadlock

/-- The `LockableObject` struct; every field is nullable. -/
structure LockableObject where
  gp_segment_id : Option Int
  locktype : Option String
  database : Option Int
  relation : Option Int
  page : Option Int
  tuple : Option Int
  virtualxid : Option String
  transactionid : Option Int
  classid : Option Int
  objid : Option Int
  objsubid : Option Int
deriving DecidableEq

/-- The `Edge` struct.  `id` is the address of the edge ("the address of edge
can be used as edge id in a graph"); `from_` and `to_` are the session ids of
the vertices the two pointers refer to. -/
structure Edge where
  id : Nat
  from_ : Int
  to_ : Int
  fromlock : String
  tolock : String
  obj : LockableObject
deriving DecidableEq

/-- The `Vertex` struct. -/
structure Vertex where
  id : Nat
  mppsessionid : Int
  edges_in : List Edge
  edges_out : List Edge
deriving DecidableEq

/-- The `Graph` struct: `session_map` maps a session id to its vertex. -/
structure Graph where
  session_map : List (Int × Vertex)
deriving DecidableEq

/-- The ways in which the program stops with a `panic`, and `loop_bound`, the
one way the embedding can stop that the program cannot: a loop of the model
used up its step bound. -/
inductive Failure where
  | granted_is_null
  | mode_is_null
  | mppsessionid_is_null
  | no_conflict_modes (mode : String)
  | nil_dereference
  | loop_bound
deriving DecidableEq

/-- Keys of the session map, in stored order. -/
def Graph.keys (this : Graph) : List Int :=
  this.session_map.map Prod.fst

/-- Map read `this.session_map[session]`; `none` is the nil pointer. -/
def Graph.lookup (this : Graph) (session : Int) : Option Vertex :=
  this.session_map.lookup session

/-- Map delete `delete(this.session_map, session)`. -/
def Graph.delete (this : Graph) (session : Int) : Graph :=
  ⟨this.session_map.filter (fun p => p.1 != session)⟩

/-- Update through a vertex pointer: the vertex stored for `session`, when
there is one, is replaced by `f` of it.  A pointer to a vertex that has left
the session map reaches nothing the program reads again. -/
def Graph.modify (this : Graph) (session : Int) (f : Vertex → Vertex) : Graph :=
  ⟨this.session_map.map (fun p => if p.1 = session then (p.1, f p.2) else p)⟩

/-- Insertion into a `map[*Edge]bool` used as a set. -/
def setInsert (s : List Edge) (e : Edge) : List Edge :=
  if e ∈ s then s else s ++ [e]

/-- The constructor `NewGraph`. -/
def NewGraph : Graph := ⟨[]⟩

/-- The method `Graph.GetMaxSessionIdVert`. -/
def Graph.GetMaxSessionIdVert (this : Graph) : Option Vertex :=
  let maxsessid := this.keys.foldl (fun maxsessid sessionid =>
    if sessionid > maxsessid then sessionid else maxsessid) (0 : Int)
  this.lookup maxsessid

/-- The method `Graph.AddEdge`. -/
def Graph.AddEdge (this : Graph) (edge : Edge) : Graph :=
  let g1 := this.modify edge.from_ (fun v => { v with edges_out := setInsert v.edges_out edge })
  g1.modify edge.to_ (fun v => { v with edges_in := setInsert v.edges_in edge })

/-- The method `Graph.Empty`. -/
def Graph.Empty (this : Graph) : Bool :=
  decide (this.session_map.length ≤ 0)

/-- The method `Graph.RemoveVert`; `vert` is the vertex the pointer refers to. -/
def Graph.RemoveVert (this : Graph) (vert : Vertex) : Graph :=
  let g1 := this.delete vert.mppsessionid
  let g2 := vert.edges_in.foldl (fun g edge =>
    g.modify edge.from_ (fun v => { v with edges_out := v.edges_out.erase edge })) g1
  vert.edges_out.foldl (fun g edge =>
    g.modify edge.to_ (fun v => { v with edges_in := v.edges_in.erase edge })) g2

/-- The method `Graph.GetOrNewVertex`: the graph after the call and the
vertex returned. -/
def Graph.GetOrNewVertex (this : Graph) (session : Int) : Graph × Vertex :=
  match this.lookup session with
  | some vert => (this, vert)
  | none =>
    let vert : Vertex :=
      { id := this.session_map.length, mppsessionid := session, edges_in := [], edges_out := [] }
    (⟨this.session_map ++ [(session, vert)]⟩, vert)

/-- Visiting order of `range` over a map with the given keys: the keys sorted
by `rank`.  Every order of distinct keys is obtained from some `rank`. -/
def rangeOrder (rank : Int → Nat) (keys : List Int) : List Int :=
  keys.insertionSort (fun a b => rank a ≤ rank b)

/-- The body of the inner loop of `reduceGraph` for the vertex stored under
`session`; the flag is `graph_changed`.  An entry deleted before it is reached
is not produced by `range`. -/
def reduceVisit (st : Graph × Bool) (session : Int) : Graph × Bool :=
  match st.1.lookup session with
  | none => st
  | some vert =>
    if vert.edges_in.length ≤ 0 ∨ vert.edges_out.length ≤ 0 then
      (st.1.RemoveVert vert, true)
    else st

/-- One execution of the inner loop of `reduceGraph`, started with
`graph_changed = false`. -/
def reducePass (rank : Int → Nat) (lockgraph : Graph) : Graph × Bool :=
  (rangeOrder rank lockgraph.keys).foldl reduceVisit (lockgraph, false)

/-- The outer loop of `reduceGraph` with a step bound; `pass` counts the
passes made so far and `sched pass` ranks the keys for the next one. -/
def reduceLoop (sched : Nat → Int → Nat) : Nat → Nat → Graph → Except Failure Graph
  | 0, _, _ => .error .loop_bound
  | fuel + 1, pass, lockgraph =>
    let st := reducePass (sched pass) lockgraph
    if st.2 then reduceLoop sched fuel (pass + 1) st.1 else .ok st.1

/-- The function `reduceGraph`.  Each pass that changes the graph deletes a
vertex, so one pass more than there are vertices is enough. -/
def reduceGraph (sched : Nat → Int → Nat) (lockgraph : Graph) : Except Failure Graph :=
  reduceLoop sched (lockgraph.session_map.length + 1) 0 lockgraph

/-- The kill-set loop of `main` with a step bound; `sessionids` collects the
session id of each vertex removed (the source appends its decimal string,
which `main` below produces with `FormatInt`) and `scheds i` schedules the
`i`-th call of `reduceGraph`.  Reading `vert.mppsessionid` through the nil
pointer is the failure `nil_dereference`. -/
def killLoop (scheds : Nat → Nat → Int → Nat) :
    Nat → Nat → Graph → List Int → Except Failure (List Int × Graph)
  | 0, _, lockgraph, sessionids =>
    if lockgraph.Empty then .ok (sessionids, lockgraph) else .error .loop_bound
  | fuel + 1, i, lockgraph, sessionids =>
    if lockgraph.Empty then .ok (sessionids, lockgraph)
    else
      match lockgraph.GetMaxSessionIdVert with
      | none => .error .nil_dereference
      | some vert =>
        match reduceGraph (scheds i) (lockgraph.RemoveVert vert) with
        | .error f => .error f
        | .ok g => killLoop scheds fuel (i + 1) g (sessionids ++ [vert.mppsessionid])

/-- The kill-set loop of `main`, started with an empty list.  Each iteration
deletes a vertex, so as many iterations as there are vertices are enough. -/
def killSet (scheds : Nat → Nat → Int → Nat) (lockgraph : Graph) :
    Except Failure (List Int × Graph) :=
  killLoop scheds lockgraph.session_map.length 0 lockgraph []

/-- The table `conflict_table`. -/
def conflict_table : List (String × List String) :=
  [("AccessShareLock", ["AccessExclusiveLock"]),
   ("RowShareLock", ["ExclusiveLock", "AccessExclusiveLock"]),
   ("RowExclusiveLock",
     ["ShareLock", "ShareRowExclusiveLock", "ExclusiveLock", "AccessExclusiveLock"]),
   ("ShareUpdateExclusiveLock",
     ["ShareUpdateExclusiveLock", "ShareLock", "ShareRowExclusiveLock", "ExclusiveLock",
      "AccessExclusiveLock"]),
   ("ShareLock",
     ["RowExclusiveLock", "ShareUpdateExclusiveLock", "ShareRowExclusiveLock", "ExclusiveLock",
      "AccessExclusiveLock"]),
   ("ShareRowExclusiveLock",
     ["ShareLock", "RowExclusiveLock", "ShareUpdateExclusiveLock", "ShareRowExclusiveLock",
      "ExclusiveLock", "AccessExclusiveLock"]),
   ("ExclusiveLock",
     ["RowShareLock", "ShareLock", "RowExclusiveLock", "ShareUpdateExclusiveLock",
      "ShareRowExclusiveLock", "ExclusiveLock", "AccessExclusiveLock"]),
   ("AccessExclusiveLock",
     ["AccessShareLock", "RowShareLock", "ShareLock", "RowExclusiveLock",
      "ShareUpdateExclusiveLock", "ShareRowExclusiveLock", "ExclusiveLock",
      "AccessExclusiveLock"])]

/-- One row of `pg_locks` as scanned by `main`: the object columns and the
nullable `mode`, `granted` and `mppsessionid`. -/
structure Row where
  obj : LockableObject
  mode : Option String
  granted : Option Bool
  mppsessionid : Option Int
deriving DecidableEq

/-- The `Lock` struct; `obj` is the object the pointer refers to. -/
structure Lock where
  obj : LockableObject
  mode : String
deriving DecidableEq

/-- Map write `m[k] = v` on an association list: the value of an existing key
is replaced, a new key is added at the end. -/
def assocSet {κ ν : Type} [DecidableEq κ] (m : List (κ × ν)) (k : κ) (v : ν) : List (κ × ν) :=
  if (m.lookup k).isSome then m.map (fun p => if p.1 = k then (k, v) else p) else m ++ [(k, v)]

/-- The type of `granted_table`: object, then mode, then the set of sessions. -/
abbrev GrantedTable := List (LockableObject × List (String × List Int))

/-- The type of `waiter`: session, then its locks in row order. -/
abbrev Waiter := List (Int × List Lock)

/-- The granted branch of the partition loop:
`granted_table[obj][mode][mppsessionid] = true`, the two inner maps being
created when missing. -/
def grantedInsert (granted_table : GrantedTable) (obj : LockableObject) (mode : String)
    (mppsessionid : Int) : GrantedTable :=
  let t1 := if (granted_table.lookup obj).isSome then granted_table
    else assocSet granted_table obj []
  let m := (t1.lookup obj).getD []
  let m1 := if (m.lookup mode).isSome then m else assocSet m mode []
  let ss := (m1.lookup mode).getD []
  let ss1 := if mppsessionid ∈ ss then ss else ss ++ [mppsessionid]
  assocSet t1 obj (assocSet m1 mode ss1)

/-- The waiting branch of the partition loop:
`waiter[mppsessionid] = append(waiter[mppsessionid], lock)`. -/
def waiterAppend (waiter : Waiter) (mppsessionid : Int) (lock : Lock) : Waiter :=
  assocSet waiter mppsessionid ((waiter.lookup mppsessionid).getD [] ++ [lock])

/-- The body of the partition loop of `main` for one scanned row. -/
def scanRow (st : GrantedTable × Waiter) (row : Row) : Except Failure (GrantedTable × Waiter) :=
  match row.granted with
  | none => .error .granted_is_null
  | some granted =>
    match row.mode with
    | none => .error .mode_is_null
    | some mode =>
      match row.mppsessionid with
      | none => .error .mppsessionid_is_null
      | some mppsessionid =>
        if granted then .ok (grantedInsert st.1 row.obj mode mppsessionid, st.2)
        else .ok (st.1, waiterAppend st.2 mppsessionid ⟨row.obj, mode⟩)

/-- The partition loop of `main`: `granted_table` and `waiter` after all rows. -/
def partitionRows (rows : List Row) : Except Failure (GrantedTable × Waiter) :=
  rows.foldlM scanRow ([], [])

/-- The keys of `granted_table[obj][mode]`; a missing map reads as empty. -/
def holders (granted_table : GrantedTable) (obj : LockableObject) (mode : String) : List Int :=
  (((granted_table.lookup obj).getD []).lookup mode).getD []

/-- The body of the innermost loop of the graph builder for one holder
`tomppsess`; the state is the graph and the next free edge address. -/
def addEdge (mppsessionid : Int) (lock : Lock) (conflict_mode : String) (st : Graph × Nat)
    (tomppsess : Int) : Graph × Nat :=
  if tomppsess = mppsessionid then st
  else
    let r1 := st.1.GetOrNewVertex mppsessionid
    let r2 := r1.1.GetOrNewVertex tomppsess
    let lockedge : Edge :=
      { id := st.2, from_ := r1.2.mppsessionid, to_ := r2.2.mppsessionid,
        fromlock := lock.mode, tolock := conflict_mode, obj := lock.obj }
    (r2.1.AddEdge lockedge, st.2 + 1)

/-- The loop over `granted_table[*lock.obj][conflict_mode]`, visited in the
order of `rankG`. -/
def addConflictMode (rankG : Int → Nat) (granted_table : GrantedTable) (mppsessionid : Int)
    (lock : Lock) (st : Graph × Nat) (conflict_mode : String) : Graph × Nat :=
  (rangeOrder rankG (holders granted_table lock.obj conflict_mode)).foldl
    (addEdge mppsessionid lock conflict_mode) st

/-- The body of the loop over the locks of one waiting session. -/
def addLock (rankG : Int → Nat) (granted_table : GrantedTable) (mppsessionid : Int)
    (st : Graph × Nat) (lock : Lock) : Except Failure (Graph × Nat) :=
  match conflict_table.lookup lock.mode with
  | none => .error (.no_conflict_modes lock.mode)
  | some conflict_modes =>
    .ok (conflict_modes.foldl (addConflictMode rankG granted_table mppsessionid lock) st)

/-- The body of the loop over `waiter` for one session. -/
def addWaiter (rankG : Int → Nat) (granted_table : GrantedTable) (waiter : Waiter)
    (st : Graph × Nat) (mppsessionid : Int) : Except Failure (Graph × Nat) :=
  ((waiter.lookup mppsessionid).getD []).foldlM (addLock rankG granted_table mppsessionid) st

/-- The graph builder loop of `main`: `waiter` is visited in the order of
`rankW`, each set of holders in the order of `rankG`. -/
def buildGraph (rankW rankG : Int → Nat) (granted_table : GrantedTable) (waiter : Waiter) :
    Except Failure Graph :=
  match (rangeOrder rankW (waiter.map Prod.fst)).foldlM
      (addWaiter rankG granted_table waiter) (NewGraph, 0) with
  | .error f => .error f
  | .ok st => .ok st.1

/-- The wait-for graph `main` builds from a snapshot. -/
def graphOfRows (rankW rankG : Int → Nat) (rows : List Row) : Except Failure Graph :=
  match partitionRows rows with
  | .error f => .error f
  | .ok pw => buildGraph rankW rankG pw.1 pw.2

/-- `strconv.FormatInt(i, 10)`. -/
def FormatInt (i : Int) : String := toString i

/-- One step of `LockableObject.String`:
`if field.Valid { desc = append(desc, fmt.Sprintf(format, value)) }`. -/
def appendValid {α : Type} (desc : List String) (field : Option α) (sprintf : α → String) :
    List String :=
  match field with
  | some value => desc ++ [sprintf value]
  | none => desc

/-- The slice `desc` that `LockableObject.String` joins; `%d` prints an
`int64` in decimal and `%s` prints a string as it is. -/
def LockableObject.desc (this : LockableObject) : List String :=
  let desc : List String := []
  let desc := appendValid desc this.gp_segment_id (fun v => "seg:" ++ FormatInt v)
  let desc := appendValid desc this.locktype (fun v => "type:" ++ v)
  let desc := appendValid desc this.database (fun v => "db:" ++ FormatInt v)
  let desc := appendValid desc this.relation (fun v => "rel:" ++ FormatInt v)
  let desc := appendValid desc this.page (fun v => "page:" ++ FormatInt v)
  let desc := appendValid desc this.tuple (fun v => "tuple:" ++ FormatInt v)
  let desc := appendValid desc this.virtualxid (fun v => "virtualxid:" ++ v)
  let desc := appendValid desc this.transactionid (fun v => "xid:" ++ FormatInt v)
  let desc := appendValid desc this.classid (fun v => "classid:" ++ FormatInt v)
  let desc := appendValid desc this.objid (fun v => "objid:" ++ FormatInt v)
  let desc := appendValid desc this.objsubid (fun v => "objsubid:" ++ FormatInt v)
  desc

/-- The character of the decimal digit `d`: `'0'` is character 48 and the ten
digits follow one another. -/
def decimalDigit (d : Nat) : Char :=
  Char.ofNat (48 + d)

/-- The decimal numeral of a natural number: `"0"` for zero, otherwise the
characters of its base-ten digits, most significant first, without leading
zeros. -/
def decimalNat (n : Nat) : String :=
  if n = 0 then "0" else String.mk ((Nat.digits 10 n).reverse.map decimalDigit)

/-- The decimal numeral of an integer: that of its absolute value, after a
minus sign when the integer is negative. -/
def decimalInt (i : Int) : String :=
  if i < 0 then "-" ++ decimalNat i.natAbs else decimalNat i.natAbs

/-- The fields of a lockable object in the order of the specification, each
with its label and, when the field is present, the text of its value: the
decimal numeral for an integer field, the string itself for a string field. -/
def LockableObject.fields (o : LockableObject) : List (String × Option String) :=
  [("seg", o.gp_segment_id.map decimalInt), ("type", o.locktype),
   ("db", o.database.map decimalInt), ("rel", o.relation.map decimalInt),
   ("page", o.page.map decimalInt), ("tuple", o.tuple.map decimalInt),
   ("virtualxid", o.virtualxid), ("xid", o.transactionid.map decimalInt),
   ("classid", o.classid.map decimalInt), ("objid", o.objid.map decimalInt),
   ("objsubid", o.objsubid.map decimalInt)]

/-- The entries the specification asks for: `label:value` for each present
field, in order, and nothing for an absent field. -/
def LockableObject.entries (o : LockableObject) : List String :=
  o.fields.filterMap (fun f => f.2.map (fun v => f.1 ++ ":" ++ v))

/-- The method `LockableObject.String`: `strings.Join(desc, ";")`. -/
def LockableObject.String (this : LockableObject) : String :=
  String.intercalate ";" this.desc

/-- What a run of `main` that does not panic reports: "No deadlock" (exit
status 0), or the reduced graph whose edges are printed together with the
session ids of the cancel statement (exit status 1). -/
inductive Outcome where
  | no_deadlock
  | deadlock (lockgraph : Graph) (sessionids : List String)
deriving DecidableEq

/-- The function `main` from the scanned rows on. -/
def main (rankW rankG : Int → Nat) (sched : Nat → Int → Nat) (scheds : Nat → Nat → Int → Nat)
    (rows : List Row) : Except Failure Outcome :=
  match graphOfRows rankW rankG rows with
  | .error f => .error f
  | .ok lockgraph =>
    match reduceGraph sched lockgraph with
    | .error f => .error f
    | .ok reduced =>
      if reduced.Empty then .ok .no_deadlock
      else
        match killSet scheds reduced with
        | .error f => .error f
        | .ok r => .ok (.deadlock reduced (r.1.map FormatInt))

/-- Well-formed wait-for graph: the keys of the session map are distinct,
every vertex is stored under its own session id, its two edge sets hold no
edge twice, and the two adjacency views agree: an edge in the outgoing set
of a vertex starts there and is in the incoming set of the vertex it ends at,
and the other way round. -/
def Graph.WF (g : Graph) : Prop :=
  g.keys.Nodup ∧
  ∀ p ∈ g.session_map,
    p.2.mppsessionid = p.1 ∧ p.2.edges_in.Nodup ∧ p.2.edges_out.Nodup ∧
    (∀ e ∈ p.2.edges_out, e.from_ = p.1 ∧ ∃ q ∈ g.session_map, q.1 = e.to_ ∧ e ∈ q.2.edges_in) ∧
    (∀ e ∈ p.2.edges_in, e.to_ = p.1 ∧ ∃ q ∈ g.session_map, q.1 = e.from_ ∧ e ∈ q.2.edges_out)

instance (g : Graph) : Decidable g.WF := by
  unfold Graph.WF; infer_instance

/-- The edge `e` is in the graph: some vertex of the session map has it in
its outgoing set. -/
def Graph.hasE (g : Graph) (e : Edge) : Prop :=
  ∃ p ∈ g.session_map, e ∈ p.2.edges_out

/-- Session `a` waits for session `b`: an edge of the graph goes from `a` to `b`. -/
def Graph.step (g : Graph) (a b : Int) : Prop :=
  ∃ e, g.hasE e ∧ e.from_ = a ∧ e.to_ = b

/-- Session `s` lies on a directed cycle: a walk of at least one edge leads
from `s` back to `s`. -/
def Graph.onCycle (g : Graph) (s : Int) : Prop :=
  Relation.TransGen g.step s s

/-- The graph has no directed cycle. -/
def Graph.acyclic (g : Graph) : Prop :=
  ∀ s, ¬ g.onCycle s

/-- What `RemoveVert vert` leaves of a vertex stored under `k`. -/
def stripVert (vert : Vertex) (k : Int) (v : Vertex) : Vertex :=
  { v with
    edges_out := v.edges_out.diff (vert.edges_in.filter (fun e => k = e.from_))
    edges_in := v.edges_in.diff (vert.edges_out.filter (fun e => k = e.to_)) }

/-- A set `S` of sessions that block one another in `g`: every member has an
edge of `g` coming in from a member and an edge of `g` going out to a member. -/
def Graph.closed (g : Graph) (S : Int → Prop) : Prop :=
  ∀ s, S s → (∃ e, g.hasE e ∧ e.to_ = s ∧ S e.from_) ∧ (∃ e, g.hasE e ∧ e.from_ = s ∧ S e.to_)

/-- The graph `g` is what pruning has left of `g0`: it is well formed, its
vertices are vertices of `g0`, its edges are the edges of `g0` between its
vertices, and no member of a set of sessions blocking one another in `g0` is
missing. -/
def Graph.Pruned (g0 g : Graph) : Prop :=
  g.WF ∧ (∀ k, k ∈ g.keys → k ∈ g0.keys) ∧
  (∀ e, g.hasE e ↔ g0.hasE e ∧ e.from_ ∈ g.keys ∧ e.to_ ∈ g.keys) ∧
  ∀ S, g0.closed S → ∀ s, S s → s ∈ g.keys

/-- Every vertex of the session map has an incoming and an outgoing edge. -/
def Graph.stable (g : Graph) : Prop :=
  ∀ p ∈ g.session_map, 1 ≤ p.2.edges_in.length ∧ 1 ≤ p.2.edges_out.length

instance (g : Graph) : Decidable g.stable := by
  unfold Graph.stable; infer_instance

/-- Session `s` lies on a directed walk that leads from a session on a
directed cycle to a session on a directed cycle (the walk may have no edge, so
every session on a cycle is one of these). -/
def Graph.betweenCycles (g : Graph) (s : Int) : Prop :=
  ∃ c d, g.onCycle c ∧ g.onCycle d ∧
    Relation.ReflTransGen g.step c s ∧ Relation.ReflTransGen g.step s d

/-- What `AddEdge e` makes of a vertex stored under `k`. -/
def addTo (e : Edge) (k : Int) (v : Vertex) : Vertex :=
  { v with
    edges_out := if k = e.from_ then setInsert v.edges_out e else v.edges_out
    edges_in := if k = e.to_ then setInsert v.edges_in e else v.edges_in }

/-- All edges of the graph: the outgoing sets of the vertices of the session
map, one after the other. -/
def Graph.edges (g : Graph) : List Edge :=
  g.session_map.flatMap (fun p => p.2.edges_out)

/-- What an edge says: waiter, holder, requested mode, held mode, object. -/
abbrev Label := Int × Int × String × String × LockableObject

/-- The label of an edge. -/
def Edge.label (e : Edge) : Label :=
  (e.from_, e.to_, e.fromlock, e.tolock, e.obj)

/-- No edge of the graph, in either adjacency view, starts and ends at the
same session. -/
def Graph.noSelfLoop (g : Graph) : Prop :=
  ∀ p ∈ g.session_map, (∀ e ∈ p.2.edges_in, e.from_ ≠ e.to_) ∧ (∀ e ∈ p.2.edges_out, e.from_ ≠ e.to_)

/-- The sessions that have at least one granted row for `(obj, mode)`, each
listed once. -/
def grantedSessions (rows : List Row) (obj : LockableObject) (mode : String) : List Int :=
  (rows.filterMap (fun r =>
    if r.granted = some true ∧ r.obj = obj ∧ r.mode = some mode then r.mppsessionid
    else none)).dedup

/-- The modes listed in `conflict_table` for `mode`. -/
def conflictModes (mode : String) : List String :=
  (conflict_table.lookup mode).getD []

/-- The labels the specification asks for on account of one row: none for a
granted row; for a waiting row `(O, M, S)` one label `(S, T, M, CM, O)` for
each mode `CM` listed for `M` and each session `T ≠ S` with a granted row
`(O, CM)`. -/
def expectedOfRow (rows : List Row) (r : Row) : List Label :=
  match r.granted, r.mode, r.mppsessionid with
  | some false, some M, some S =>
    (conflictModes M).flatMap (fun CM =>
      ((grantedSessions rows r.obj CM).filter (fun T => T ≠ S)).map
        (fun T => (S, T, M, CM, r.obj)))
  | _, _, _ => []

/-- The labels the specification asks for on account of a snapshot, one list
entry per edge wanted. -/
def expectedEdges (rows : List Row) : List Label :=
  rows.flatMap (expectedOfRow rows)

/-- A row carries mode, granted flag and session id. -/
def Row.complete (r : Row) : Prop :=
  r.mode.isSome ∧ r.granted.isSome ∧ r.mppsessionid.isSome

instance (r : Row) : Decidable r.complete := by
  unfold Row.complete; infer_instance

/-- A row is a waiting row: its granted flag is false. -/
def Row.waiting (r : Row) : Prop :=
  r.granted = some false

instance (r : Row) : Decidable r.waiting := by
  unfold Row.waiting; infer_instance

/-- The row has a mode and that mode has an entry in `conflict_table`. -/
def Row.modeKnown (r : Row) : Prop :=
  (r.mode.bind (fun m => conflict_table.lookup m)).isSome = true

instance (r : Row) : Decidable r.modeKnown := by
  unfold Row.modeKnown; infer_instance

/-- The graphs the run can hold after the builder has made `g`: `g` itself
and whatever `RemoveVert` and `reduceGraph` make of such a graph. -/
inductive Graph.Derived (g : Graph) : Graph → Prop where
  | start : Graph.Derived g g
  | removeVert {g1 : Graph} (vert : Vertex) : Graph.Derived g g1 →
      Graph.Derived g (g1.RemoveVert vert)
  | reduce {g1 g2 : Graph} (sched : Nat → Int → Nat) : Graph.Derived g g1 →
      reduceGraph sched g1 = .ok g2 → Graph.Derived g g2

/-- The labels of the edges the innermost builder loop creates for the
holders `hs`, in creation order. -/
def holderLabels (S : Int) (lock : Lock) (cm : String) (hs : List Int) : List Label :=
  (hs.filter (fun T => T ≠ S)).map (fun T => (S, T, lock.mode, cm, lock.obj))

/-- The labels of the edges the builder creates for one lock of session `S`. -/
def lockLabels (rankG : Int → Nat) (gt : GrantedTable) (S : Int) (lock : Lock) : List Label :=
  (conflictModes lock.mode).flatMap (fun cm =>
    holderLabels S lock cm (rangeOrder rankG (holders gt lock.obj cm)))

/-- The labels of the edges the builder creates for session `S`. -/
def waiterLabels (rankG : Int → Nat) (gt : GrantedTable) (w : Waiter) (S : Int) : List Label :=
  ((w.lookup S).getD []).flatMap (lockLabels rankG gt S)

/-- The labels of the edges the builder creates, in creation order. -/
def builderLabels (rankW rankG : Int → Nat) (gt : GrantedTable) (w : Waiter) : List Label :=
  (rangeOrder rankW (w.map Prod.fst)).flatMap (waiterLabels rankG gt w)

/-- The state of the builder after creating edges labelled `L`: the graph is
well formed and free of self-loops, the addresses in use are below the next
free one, the labels of its edges are those of `L`, and every vertex is an
endpoint of an edge. -/
def Built (st : Graph × Nat) (L : List Label) : Prop :=
  st.1.WF ∧ st.1.noSelfLoop ∧ (∀ e ∈ st.1.edges, e.id < st.2) ∧
  (st.1.edges.map Edge.label).Perm L ∧
  (∀ k ∈ st.1.keys, ∃ e ∈ st.1.edges, e.from_ = k ∨ e.to_ = k) ∧
  (st.1.edges.map Edge.id).Nodup

/-- The locks session `s` waits for according to the rows, in row order. -/
def waitingLocks (rows : List Row) (s : Int) : List Lock :=
  rows.filterMap (fun r =>
    if r.granted = some false ∧ r.mppsessionid = some s then r.mode.map (Lock.mk r.obj)
    else none)

/-- The tables `st` are what the partition loop makes of `rows`: the holders
of `(obj, mode)` are the sessions of the granted rows for it, each once, and
`waiter` has one entry for each session with a waiting row, holding its locks
in row order. -/
def Partitioned (rows : List Row) (st : GrantedTable × Waiter) : Prop :=
  (∀ obj mode s, s ∈ holders st.1 obj mode ↔
    ∃ r ∈ rows, r.granted = some true ∧ r.obj = obj ∧ r.mode = some mode ∧
      r.mppsessionid = some s) ∧
  (∀ obj mode, (holders st.1 obj mode).Nodup) ∧
  (st.2.map Prod.fst).Nodup ∧
  (∀ s, (st.2.lookup s).getD [] = waitingLocks rows s) ∧
  (∀ s, s ∈ st.2.map Prod.fst ↔ waitingLocks rows s ≠ [])

/-- Session `a` waits for session `b` and neither is in `ids`: a step of the
graph that is left when the sessions `ids` and their edges are deleted. -/
def Graph.stepAvoiding (g : Graph) (ids : List Int) (a b : Int) : Prop :=
  g.step a b ∧ a ∉ ids ∧ b ∉ ids

/-- Deleting the sessions `ids` and their edges from `g` leaves no directed
cycle. -/
def Graph.acyclicWithout (g : Graph) (ids : List Int) : Prop :=
  ∀ s, ¬ Relation.TransGen (g.stepAvoiding ids) s s

/-- The vertex `v` with only those edges whose other end is in `K`. -/
def restrictVert (K : List Int) (v : Vertex) : Vertex :=
  { v with
    edges_in := v.edges_in.filter (fun e => e.from_ ∈ K)
    edges_out := v.edges_out.filter (fun e => e.to_ ∈ K) }

/-- The subgraph of `g` induced by the sessions `K`: the vertices stored under
a key in `K`, in their order, each with its edges from and to sessions in `K`,
in their order. -/
def Graph.restrict (g : Graph) (K : List Int) : Graph :=
  ⟨(g.session_map.filter (fun p => p.1 ∈ K)).map (fun p => (p.1, restrictVert K p.2))⟩

/-- The graph `g` is what pruning has left of `g0` and is, as a value, the
subgraph of `g0` induced by its own keys. -/
def Graph.Induced (g0 g : Graph) : Prop :=
  g0.WF ∧ g0.Pruned g ∧ g = g0.restrict g.keys

/-- The numbering of the lock modes used by the specification. -/
def modeName : Nat → String
  | 1 => "AccessShareLock"
  | 2 => "RowShareLock"
  | 3 => "RowExclusiveLock"
  | 4 => "ShareUpdateExclusiveLock"
  | 5 => "ShareLock"
  | 6 => "ShareRowExclusiveLock"
  | 7 => "ExclusiveLock"
  | 8 => "AccessExclusiveLock"
  | _ => ""

/-- The table-level lock conflict matrix of the database engine as the
specification states it, by mode number. -/
def engineConflicts : Nat → List Nat
  | 1 => [8]
  | 2 => [7, 8]
  | 3 => [5, 6, 7, 8]
  | 4 => [4, 5, 6, 7, 8]
  | 5 => [3, 4, 6, 7, 8]
  | 6 => [3, 4, 5, 6, 7, 8]
  | 7 => [2, 3, 4, 5, 6, 7, 8]
  | 8 => [1, 2, 3, 4, 5, 6, 7, 8]
  | _ => []

/-- The graph states of an analysis run: `NewGraph`; `GetOrNewVertex`;
`AddEdge` of an edge between two vertices of the graph (the builder takes both
from `GetOrNewVertex`); `RemoveVert` of a vertex of the graph (the callers
take it from the session map); `reduceGraph`. -/
inductive Graph.Reachable : Graph → Prop where
  | newGraph : Graph.Reachable NewGraph
  | getOrNewVertex {g : Graph} (session : Int) : Graph.Reachable g →
      Graph.Reachable (g.GetOrNewVertex session).1
  | addEdge {g : Graph} (e : Edge) : Graph.Reachable g → e.from_ ∈ g.keys → e.to_ ∈ g.keys →
      Graph.Reachable (g.AddEdge e)
  | removeVert {g : Graph} (s : Int) (vert : Vertex) : Graph.Reachable g →
      (s, vert) ∈ g.session_map → Graph.Reachable (g.RemoveVert vert)
  | reduce {g g' : Graph} (sched : Nat → Int → Nat) : Graph.Reachable g →
      reduceGraph sched g = .ok g' → Graph.Reachable g'

/-- A single simple directed cycle over at least two sessions: the graph is
well formed, every vertex has exactly one incoming and one outgoing edge, and
every vertex is reached from every other. -/
def Graph.simpleCycle (g : Graph) : Prop :=
  g.WF ∧ 2 ≤ g.session_map.length ∧
  (∀ p ∈ g.session_map, p.2.edges_in.length = 1 ∧ p.2.edges_out.length = 1) ∧
  ∀ a ∈ g.keys, ∀ b ∈ g.keys, Relation.ReflTransGen g.step a b

/-! ### Sample graphs -/

/-- The lockable object "relation `r`". -/
def relationObj (r : Int) : LockableObject :=
  { gp_segment_id := none, locktype := some "relation", database := none, relation := some r,
    page := none, tuple := none, virtualxid := none, transactionid := none, classid := none,
    objid := none, objsubid := none }

/-- The edge with address `i` from session `a` to session `b`: `a` waits for
an `ExclusiveLock` on relation `r` that `b` holds. -/
def waitEdge (i : Nat) (a b r : Int) : Edge :=
  { id := i, from_ := a, to_ := b, fromlock := "ExclusiveLock", tolock := "ExclusiveLock",
    obj := relationObj r }

/-- The cycle 100 → 200 → 300 → 100. -/
def cycle3 : Graph :=
  ⟨[(100, ⟨0, 100, [waitEdge 2 300 100 3], [waitEdge 0 100 200 1]⟩),
    (200, ⟨1, 200, [waitEdge 0 100 200 1], [waitEdge 1 200 300 2]⟩),
    (300, ⟨2, 300, [waitEdge 1 200 300 2], [waitEdge 2 300 100 3]⟩)]⟩

/-- Two cycles 1 ⇄ 2 and 3 ⇄ 4 joined by the path 2 → 5 → 3. -/
def bridge : Graph :=
  ⟨[(1, ⟨0, 1, [waitEdge 1 2 1 11], [waitEdge 0 1 2 10]⟩),
    (2, ⟨1, 2, [waitEdge 0 1 2 10], [waitEdge 1 2 1 11, waitEdge 2 2 5 12]⟩),
    (5, ⟨2, 5, [waitEdge 2 2 5 12], [waitEdge 3 5 3 13]⟩),
    (3, ⟨3, 3, [waitEdge 3 5 3 13, waitEdge 5 4 3 15], [waitEdge 4 3 4 14]⟩),
    (4, ⟨4, 4, [waitEdge 4 3 4 14], [waitEdge 5 4 3 15]⟩)]⟩

/-- The single edge 20 → 10. -/
def chain2 : Graph :=
  ⟨[(20, ⟨0, 20, [], [waitEdge 0 20 10 500]⟩),
    (10, ⟨1, 10, [waitEdge 0 20 10 500], []⟩)]⟩

/-- The cycle -1 ⇄ -2 between two sessions with negative ids. -/
def negPair : Graph :=
  ⟨[(-1, ⟨0, -1, [waitEdge 1 (-2) (-1) 500], [waitEdge 0 (-1) (-2) 600]⟩),
    (-2, ⟨1, -2, [waitEdge 0 (-1) (-2) 600], [waitEdge 1 (-2) (-1) 500]⟩)]⟩

/-- The two cycles 1 ⇄ 2 and 1 ⇄ 3 through session 1. -/
def star : Graph :=
  ⟨[(1, ⟨0, 1, [waitEdge 2 2 1 11, waitEdge 3 3 1 13], [waitEdge 0 1 2 10, waitEdge 1 1 3 12]⟩),
    (2, ⟨1, 2, [waitEdge 0 1 2 10], [waitEdge 2 2 1 11]⟩),
    (3, ⟨2, 3, [waitEdge 1 1 3 12], [waitEdge 3 3 1 13]⟩)]⟩

/-- The graph after `GetOrNewVertex(10)`, `GetOrNewVertex(20)` and `AddEdge`
of an edge from 10 to 20 on the new graph. -/
def firstEdgeGraph : Graph :=
  ((NewGraph.GetOrNewVertex 10).1.GetOrNewVertex 20).1.AddEdge (waitEdge 0 10 20 500)

/-! ### Sample snapshots -/

/-- A row for relation `r`. -/
def lockRow (r : Int) (mode : String) (granted : Bool) (session : Int) : Row :=
  { obj := relationObj r, mode := some mode, granted := some granted,
    mppsessionid := some session }

/-- Session 10 holds `ShareLock` on relation 500 and waits for
`ShareUpdateExclusiveLock` on relation 600; session 20 holds
`ShareUpdateExclusiveLock` on relation 600 and waits for `ExclusiveLock` on
relation 500. -/
def twoSessionRows : List Row :=
  [lockRow 500 "ShareLock" true 10, lockRow 600 "ShareUpdateExclusiveLock" false 10,
   lockRow 600 "ShareUpdateExclusiveLock" true 20, lockRow 500 "ExclusiveLock" false 20]

/-- Sessions 10 and 20 hold `ShareLock` on relation 500 and session 10 waits
for `ExclusiveLock` on it: session 10 holds and waits for conflicting modes on
the same object. -/
def upgradeRows : List Row :=
  [lockRow 500 "ShareLock" true 10, lockRow 500 "ShareLock" true 20,
   lockRow 500 "ExclusiveLock" false 10]

/-- The graph the builder makes of `upgradeRows`: the single edge 10 → 20. -/
def upgradeGraph : Graph :=
  ⟨[(10, ⟨0, 10, [], [⟨0, 10, 20, "ExclusiveLock", "ShareLock", relationObj 500⟩]⟩),
    (20, ⟨1, 20, [⟨0, 10, 20, "ExclusiveLock", "ShareLock", relationObj 500⟩], []⟩)]⟩

/-- A granted row whose mode has no entry in `conflict_table`. -/
def unknownGrantedRows : List Row :=
  [lockRow 500 "SIReadLock" true 10]

/-- A waiting row whose mode has no entry in `conflict_table`, followed by a
row whose granted flag is NULL. -/
def unknownThenNullRows : List Row :=
  [lockRow 500 "SIReadLock" false 10,
   { obj := relationObj 500, mode := some "ShareLock", granted := none,
     mppsessionid := some 20 }]

/-- A waiting row whose mode has no entry in `conflict_table`. -/
def unknownWaitingRows : List Row :=
  [lockRow 500 "ShareLock" true 20, lockRow 500 "SIReadLock" false 10]

/-- Session -1 holds `ExclusiveLock` on relation 500 and waits for it on
relation 600; session -2 holds it on relation 600 and waits for it on
relation 500. -/
def negPairRows : List Row :=
  [lockRow 500 "ExclusiveLock" true (-1), lockRow 600 "ExclusiveLock" true (-2),
   lockRow 600 "ExclusiveLock" false (-1), lockRow 500 "ExclusiveLock" false (-2)]

/-- A snapshot of which the builder makes `bridge`: the holder of relation
`r` has `ExclusiveLock` on it and the waiter asks for `ExclusiveLock`. -/
def bridgeRows : List Row :=
  [lockRow 10 "ExclusiveLock" true 2, lockRow 11 "ExclusiveLock" true 1,
   lockRow 12 "ExclusiveLock" true 5, lockRow 13 "ExclusiveLock" true 3,
   lockRow 14 "ExclusiveLock" true 4, lockRow 15 "ExclusiveLock" true 3,
   lockRow 10 "ExclusiveLock" false 1, lockRow 11 "ExclusiveLock" false 2,
   lockRow 12 "ExclusiveLock" false 2, lockRow 13 "ExclusiveLock" false 5,
   lockRow 14 "ExclusiveLock" false 3, lockRow 15 "ExclusiveLock" false 4]

/-- A snapshot of which the builder makes `star`. -/
def starRows : List Row :=
  [lockRow 10 "ExclusiveLock" true 2, lockRow 11 "ExclusiveLock" true 1,
   lockRow 12 "ExclusiveLock" true 3, lockRow 13 "ExclusiveLock" true 1,
   lockRow 10 "ExclusiveLock" false 1, lockRow 11 "ExclusiveLock" false 2,
   lockRow 12 "ExclusiveLock" false 1, lockRow 13 "ExclusiveLock" false 3]

/-- The table `granted_table` after the partition loop on `twoSessionRows`. -/
def twoSessionGranted : GrantedTable :=
  [(relationObj 500, [("ShareLock", [10])]),
   (relationObj 600, [("ShareUpdateExclusiveLock", [20])])]

/-- The table `waiter` after the partition loop on `twoSessionRows`. -/
def twoSessionWaiter : Waiter :=
  [(10, [⟨relationObj 600, "ShareUpdateExclusiveLock"⟩]),
   (20, [⟨relationObj 500, "ExclusiveLock"⟩])]

/-- The graph the builder makes of `twoSessionRows` when it visits the
waiting session 10 first. -/
def twoSessionGraphA : Graph :=
  ⟨[(10, ⟨0, 10, [⟨1, 20, 10, "ExclusiveLock", "ShareLock", relationObj 500⟩],
      [⟨0, 10, 20, "ShareUpdateExclusiveLock", "ShareUpdateExclusiveLock", relationObj 600⟩]⟩),
    (20, ⟨1, 20,
      [⟨0, 10, 20, "ShareUpdateExclusiveLock", "ShareUpdateExclusiveLock", relationObj 600⟩],
      [⟨1, 20, 10, "ExclusiveLock", "ShareLock", relationObj 500⟩]⟩)]⟩

/-- The graph the builder makes of `twoSessionRows` when it visits the
waiting session 20 first. -/
def twoSessionGraphB : Graph :=
  ⟨[(20, ⟨0, 20,
      [⟨1, 10, 20, "ShareUpdateExclusiveLock", "ShareUpdateExclusiveLock", relationObj 600⟩],
      [⟨0, 20, 10, "ExclusiveLock", "ShareLock", relationObj 500⟩]⟩),
    (10, ⟨1, 10, [⟨0, 20, 10, "ExclusiveLock", "ShareLock", relationObj 500⟩],
      [⟨1, 10, 20, "ShareUpdateExclusiveLock", "ShareUpdateExclusiveLock", relationObj 600⟩]⟩)]⟩

/-- The two labels of scenario B: 20 waits for 10 and 10 waits for 20. -/
def twoSessionLabels : List Label :=
  [(20, 10, "ExclusiveLock", "ShareLock", relationObj 500),
   (10, 20, "ShareUpdateExclusiveLock", "ShareUpdateExclusiveLock", relationObj 600)]

/-! ## The session map as an association list -/

theorem lookup_modify (g : Graph) (s : Int) (f : Vertex → Vertex) (k : Int) :
    (g.modify s f).lookup k = if k = s then (g.lookup k).map f else g.lookup k := by
  obtain ⟨l⟩ := g
  simp only [Graph.modify, Graph.lookup]
  induction l with
  | nil => simp
  | cons p l ih =>
    obtain ⟨a, v⟩ := p
    by_cases hk : k = a
    · subst hk
      by_cases hs : k = s
      · simp [List.lookup_cons, hs]
      · simp [List.lookup_cons, hs]
    · have hb : (k == a) = false := by simpa using hk
      by_cases has : a = s
      · simp only [has, List.map_cons, if_true]
        rw [List.lookup_cons, List.lookup_cons]
        have hb2 : (k == s) = false := by simpa [has] using hk
        simp only [hb2]
        simpa [has] using ih
      · simp only [List.map_cons, has, if_false]
        rw [List.lookup_cons, List.lookup_cons]
        simp only [hb]
        exact ih

theorem lookup_delete (g : Graph) (s k : Int) :
    (g.delete s).lookup k = if k = s then none else g.lookup k := by
  obtain ⟨l⟩ := g
  simp only [Graph.delete, Graph.lookup]
  induction l with
  | nil => simp
  | cons p l ih =>
    obtain ⟨a, v⟩ := p
    by_cases has : a = s
    · subst has
      simp only [List.filter_cons, bne_self_eq_false, Bool.false_eq_true, if_false]
      rw [ih, List.lookup_cons]
      by_cases hk : k = a
      · simp [hk]
      · have hb : (k == a) = false := by simpa using hk
        simp [hb, hk]
    · have hne : (a != s) = true := by simpa using has
      simp only [List.filter_cons, hne, if_true]
      rw [List.lookup_cons, List.lookup_cons, ih]
      by_cases hk : k = a
      · subst hk; simp [has]
      · have hb : (k == a) = false := by simpa using hk
        simp [hb]

theorem keys_modify (g : Graph) (s : Int) (f : Vertex → Vertex) :
    (g.modify s f).keys = g.keys := by
  obtain ⟨l⟩ := g
  simp only [Graph.modify, Graph.keys, List.map_map]
  apply List.map_congr_left
  intro p _
  by_cases h : p.1 = s <;> simp [h]

theorem keys_delete (g : Graph) (s : Int) :
    (g.delete s).keys = g.keys.filter (fun k => k != s) := by
  obtain ⟨l⟩ := g
  simp only [Graph.delete, Graph.keys]
  rw [List.filter_map]
  rfl

theorem mem_keys_iff_lookup (g : Graph) (k : Int) :
    k ∈ g.keys ↔ ∃ v, g.lookup k = some v := by
  obtain ⟨l⟩ := g
  simp only [Graph.keys, Graph.lookup]
  induction l with
  | nil => simp
  | cons p l ih =>
    obtain ⟨a, v⟩ := p
    rw [List.lookup_cons]
    by_cases hk : k = a
    · subst hk; simp
    · have hb : (k == a) = false := by simpa using hk
      simp only [List.map_cons, List.mem_cons, hk, false_or, hb]
      exact ih

theorem lookup_mem (g : Graph) (k : Int) (v : Vertex) (h : g.lookup k = some v) :
    (k, v) ∈ g.session_map := by
  obtain ⟨l⟩ := g
  simp only [Graph.lookup] at h
  simp only
  induction l with
  | nil => simp at h
  | cons p l ih =>
    obtain ⟨a, w⟩ := p
    rw [List.lookup_cons] at h
    by_cases hk : k = a
    · subst hk
      simp at h
      simp [h]
    · have hb : (k == a) = false := by simpa using hk
      simp only [hb] at h
      exact List.mem_cons_of_mem _ (ih h)

theorem mem_lookup (g : Graph) (hnd : g.keys.Nodup) (k : Int) (v : Vertex)
    (h : (k, v) ∈ g.session_map) : g.lookup k = some v := by
  obtain ⟨l⟩ := g
  simp only [Graph.lookup]
  simp only [Graph.keys] at hnd
  simp only at h
  induction l with
  | nil => simp at h
  | cons p l ih =>
    obtain ⟨a, w⟩ := p
    rw [List.lookup_cons]
    simp only [List.map_cons, List.nodup_cons] at hnd
    rcases List.mem_cons.mp h with h1 | h1
    · cases h1; simp
    · have hk : k ≠ a := by
        intro hka
        apply hnd.1
        subst hka
        exact List.mem_map_of_mem Prod.fst h1
      have hb : (k == a) = false := by simpa using hk
      simp only [hb]
      exact ih hnd.2 h1

/-! ## Folds of pointer updates -/

theorem foldl_modify (key : Edge → Int) (upd : Edge → Vertex → Vertex) (es : List Edge)
    (g : Graph) :
    es.foldl (fun g e => g.modify (key e) (upd e)) g =
      ⟨g.session_map.map (fun p =>
        (p.1, es.foldl (fun v e => if p.1 = key e then upd e v else v) p.2))⟩ := by
  induction es generalizing g with
  | nil => simp
  | cons e es ih =>
    rw [List.foldl_cons, ih]
    simp only [Graph.modify, List.map_map, List.foldl_cons]
    congr 1
    apply List.map_congr_left
    intro p _
    by_cases h : p.1 = key e <;> simp [h]

theorem foldl_strip_out (k : Int) (es : List Edge) (v : Vertex) :
    es.foldl (fun v e => if k = e.from_ then { v with edges_out := v.edges_out.erase e } else v) v
      = { v with edges_out := v.edges_out.diff (es.filter (fun e => k = e.from_)) } := by
  induction es generalizing v with
  | nil => simp
  | cons e es ih =>
    rw [List.foldl_cons, ih]
    by_cases h : k = e.from_
    · simp [h, List.filter_cons, List.diff_cons]
    · simp [h, List.filter_cons]

theorem foldl_strip_in (k : Int) (es : List Edge) (v : Vertex) :
    es.foldl (fun v e => if k = e.to_ then { v with edges_in := v.edges_in.erase e } else v) v
      = { v with edges_in := v.edges_in.diff (es.filter (fun e => k = e.to_)) } := by
  induction es generalizing v with
  | nil => simp
  | cons e es ih =>
    rw [List.foldl_cons, ih]
    by_cases h : k = e.to_
    · simp [h, List.filter_cons, List.diff_cons]
    · simp [h, List.filter_cons]

theorem RemoveVert_eq (g : Graph) (vert : Vertex) :
    g.RemoveVert vert =
      ⟨(g.session_map.filter (fun p => p.1 != vert.mppsessionid)).map
        (fun p => (p.1, stripVert vert p.1 p.2))⟩ := by
  unfold Graph.RemoveVert
  simp only
  rw [foldl_modify, foldl_modify]
  simp only [Graph.delete, List.map_map]
  congr 1
  apply List.map_congr_left
  intro p _
  simp only [Function.comp, foldl_strip_out, foldl_strip_in, stripVert]

theorem lookup_mapVal (l : List (Int × Vertex)) (F : Int → Vertex → Vertex) (k : Int) :
    (l.map (fun p => (p.1, F p.1 p.2))).lookup k = (l.lookup k).map (F k) := by
  induction l with
  | nil => simp
  | cons p l ih =>
    obtain ⟨a, v⟩ := p
    rw [List.map_cons, List.lookup_cons, List.lookup_cons]
    by_cases hk : k = a
    · subst hk; simp
    · have hb : (k == a) = false := by simpa using hk
      simp only [hb]
      exact ih

theorem lookup_RemoveVert (g : Graph) (vert : Vertex) (k : Int) :
    (g.RemoveVert vert).lookup k =
      if k = vert.mppsessionid then none else (g.lookup k).map (stripVert vert k) := by
  rw [RemoveVert_eq]
  have h := lookup_delete g vert.mppsessionid k
  simp only [Graph.lookup, Graph.delete] at h ⊢
  rw [lookup_mapVal, h]
  by_cases hk : k = vert.mppsessionid <;> simp [hk]

theorem keys_RemoveVert (g : Graph) (vert : Vertex) :
    (g.RemoveVert vert).keys = g.keys.filter (fun k => k != vert.mppsessionid) := by
  rw [RemoveVert_eq, ← keys_delete]
  simp [Graph.keys, Graph.delete, List.map_map, Function.comp]

theorem mem_RemoveVert (g : Graph) (vert : Vertex) (k : Int) (v' : Vertex) :
    (k, v') ∈ (g.RemoveVert vert).session_map ↔
      k ≠ vert.mppsessionid ∧ ∃ v, (k, v) ∈ g.session_map ∧ v' = stripVert vert k v := by
  rw [RemoveVert_eq]
  simp only [List.mem_map, List.mem_filter, Prod.mk.injEq, Prod.exists]
  constructor
  · rintro ⟨a, v, ⟨hm, hne⟩, rfl, rfl⟩
    exact ⟨by simpa using hne, v, hm, rfl⟩
  · rintro ⟨hne, v, hm, rfl⟩
    exact ⟨k, v, ⟨hm, by simpa using hne⟩, rfl, rfl⟩

/-! ## Well-formed graphs -/

theorem Graph.WF.unique {g : Graph} (h : g.WF) {k : Int} {v w : Vertex}
    (hv : (k, v) ∈ g.session_map) (hw : (k, w) ∈ g.session_map) : v = w := by
  have h1 := mem_lookup g h.1 k v hv
  have h2 := mem_lookup g h.1 k w hw
  rw [h1] at h2
  exact Option.some.inj h2

theorem Graph.WF.sessionid {g : Graph} (h : g.WF) {k : Int} {v : Vertex}
    (hv : (k, v) ∈ g.session_map) : v.mppsessionid = k :=
  (h.2 _ hv).1

theorem Graph.WF.out_from {g : Graph} (h : g.WF) {k : Int} {v : Vertex} {e : Edge}
    (hv : (k, v) ∈ g.session_map) (he : e ∈ v.edges_out) : e.from_ = k :=
  ((h.2 _ hv).2.2.2.1 e he).1

theorem Graph.WF.out_in {g : Graph} (h : g.WF) {k : Int} {v : Vertex} {e : Edge}
    (hv : (k, v) ∈ g.session_map) (he : e ∈ v.edges_out) :
    ∃ w, (e.to_, w) ∈ g.session_map ∧ e ∈ w.edges_in := by
  obtain ⟨⟨a, w⟩, hq, hqa, hqe⟩ := ((h.2 _ hv).2.2.2.1 e he).2
  simp only at hqa hqe
  subst hqa
  exact ⟨w, hq, hqe⟩

theorem Graph.WF.in_to {g : Graph} (h : g.WF) {k : Int} {v : Vertex} {e : Edge}
    (hv : (k, v) ∈ g.session_map) (he : e ∈ v.edges_in) : e.to_ = k :=
  ((h.2 _ hv).2.2.2.2 e he).1

theorem Graph.WF.in_out {g : Graph} (h : g.WF) {k : Int} {v : Vertex} {e : Edge}
    (hv : (k, v) ∈ g.session_map) (he : e ∈ v.edges_in) :
    ∃ w, (e.from_, w) ∈ g.session_map ∧ e ∈ w.edges_out := by
  obtain ⟨⟨a, w⟩, hq, hqa, hqe⟩ := ((h.2 _ hv).2.2.2.2 e he).2
  simp only at hqa hqe
  subst hqa
  exact ⟨w, hq, hqe⟩

theorem mem_strip_out {g : Graph} (h : g.WF) {s k : Int} {vert v : Vertex}
    (hs : (s, vert) ∈ g.session_map) (hv : (k, v) ∈ g.session_map) (e : Edge) :
    e ∈ (stripVert vert k v).edges_out ↔ e ∈ v.edges_out ∧ e.to_ ≠ s := by
  simp only [stripVert]
  rw [List.Nodup.mem_diff_iff (h.2 _ hv).2.2.1]
  constructor
  · rintro ⟨he, hn⟩
    refine ⟨he, fun hto => hn ?_⟩
    obtain ⟨w, hw, hew⟩ := h.out_in hv he
    rw [hto] at hw
    have := h.unique hw hs
    subst this
    simp [List.mem_filter, hew, h.out_from hv he]
  · rintro ⟨he, hn⟩
    refine ⟨he, fun hm => hn ?_⟩
    exact h.in_to hs (List.mem_filter.mp hm).1

theorem mem_strip_in {g : Graph} (h : g.WF) {s k : Int} {vert v : Vertex}
    (hs : (s, vert) ∈ g.session_map) (hv : (k, v) ∈ g.session_map) (e : Edge) :
    e ∈ (stripVert vert k v).edges_in ↔ e ∈ v.edges_in ∧ e.from_ ≠ s := by
  simp only [stripVert]
  rw [List.Nodup.mem_diff_iff (h.2 _ hv).2.1]
  constructor
  · rintro ⟨he, hn⟩
    refine ⟨he, fun hto => hn ?_⟩
    obtain ⟨w, hw, hew⟩ := h.in_out hv he
    rw [hto] at hw
    have := h.unique hw hs
    subst this
    simp [List.mem_filter, hew, h.in_to hv he]
  · rintro ⟨he, hn⟩
    refine ⟨he, fun hm => hn ?_⟩
    exact h.out_from hs (List.mem_filter.mp hm).1

theorem WF_RemoveVert {g : Graph} (h : g.WF) {s : Int} {vert : Vertex}
    (hs : (s, vert) ∈ g.session_map) : (g.RemoveVert vert).WF := by
  have hsid : vert.mppsessionid = s := h.sessionid hs
  refine ⟨?_, ?_⟩
  · rw [keys_RemoveVert]
    exact h.1.filter _
  · rintro ⟨k, v'⟩ hp
    obtain ⟨hk, v, hv, rfl⟩ := (mem_RemoveVert g vert k _).mp hp
    rw [hsid] at hk
    refine ⟨?_, ?_, ?_, ?_, ?_⟩
    · show v.mppsessionid = k
      exact h.sessionid hv
    · exact (h.2 _ hv).2.1.diff
    · exact (h.2 _ hv).2.2.1.diff
    · intro e he
      obtain ⟨he1, he2⟩ := (mem_strip_out h hs hv e).mp he
      refine ⟨h.out_from hv he1, ?_⟩
      obtain ⟨w, hw, hew⟩ := h.out_in hv he1
      refine ⟨(e.to_, stripVert vert e.to_ w), ?_, rfl, ?_⟩
      · exact (mem_RemoveVert g vert _ _).mpr ⟨by rw [hsid]; exact he2, w, hw, rfl⟩
      · exact (mem_strip_in h hs hw e).mpr ⟨hew, by rw [h.out_from hv he1]; exact hk⟩
    · intro e he
      obtain ⟨he1, he2⟩ := (mem_strip_in h hs hv e).mp he
      refine ⟨h.in_to hv he1, ?_⟩
      obtain ⟨w, hw, hew⟩ := h.in_out hv he1
      refine ⟨(e.from_, stripVert vert e.from_ w), ?_, rfl, ?_⟩
      · exact (mem_RemoveVert g vert _ _).mpr ⟨by rw [hsid]; exact he2, w, hw, rfl⟩
      · exact (mem_strip_out h hs hw e).mpr ⟨hew, by rw [h.in_to hv he1]; exact hk⟩

theorem hasE_RemoveVert {g : Graph} (h : g.WF) {s : Int} {vert : Vertex}
    (hs : (s, vert) ∈ g.session_map) (e : Edge) :
    (g.RemoveVert vert).hasE e ↔ g.hasE e ∧ e.from_ ≠ s ∧ e.to_ ≠ s := by
  have hsid : vert.mppsessionid = s := h.sessionid hs
  constructor
  · rintro ⟨⟨k, v'⟩, hp, he⟩
    obtain ⟨hk, v, hv, rfl⟩ := (mem_RemoveVert g vert k _).mp hp
    obtain ⟨he1, he2⟩ := (mem_strip_out h hs hv e).mp he
    refine ⟨⟨(k, v), hv, he1⟩, ?_, he2⟩
    rw [h.out_from hv he1, ← hsid]
    exact hk
  · rintro ⟨⟨⟨k, v⟩, hv, he⟩, h1, h2⟩
    refine ⟨(k, stripVert vert k v), ?_, ?_⟩
    · refine (mem_RemoveVert g vert _ _).mpr ⟨?_, v, hv, rfl⟩
      rw [hsid, ← h.out_from hv he]
      exact h1
    · exact (mem_strip_out h hs hv e).mpr ⟨he, h2⟩

/-! ## Degrees in a well-formed graph -/

theorem mem_keys_of_mem {g : Graph} {k : Int} {v : Vertex} (h : (k, v) ∈ g.session_map) :
    k ∈ g.keys :=
  List.mem_map_of_mem Prod.fst h

theorem exists_mem_of_mem_keys {g : Graph} {k : Int} (h : k ∈ g.keys) :
    ∃ v, (k, v) ∈ g.session_map := by
  obtain ⟨v, hv⟩ := (mem_keys_iff_lookup g k).mp h
  exact ⟨v, lookup_mem g k v hv⟩

theorem Graph.WF.hasE_from {g : Graph} (h : g.WF) {e : Edge} (he : g.hasE e) :
    e.from_ ∈ g.keys := by
  obtain ⟨⟨k, v⟩, hv, hev⟩ := he
  rw [h.out_from hv hev]
  exact mem_keys_of_mem hv

theorem Graph.WF.hasE_to {g : Graph} (h : g.WF) {e : Edge} (he : g.hasE e) :
    e.to_ ∈ g.keys := by
  obtain ⟨⟨k, v⟩, hv, hev⟩ := he
  obtain ⟨w, hw, _⟩ := h.out_in hv hev
  exact mem_keys_of_mem hw

theorem Graph.WF.mem_in_of_hasE {g : Graph} (h : g.WF) {e : Edge} (he : g.hasE e)
    {v : Vertex} (hv : (e.to_, v) ∈ g.session_map) : e ∈ v.edges_in := by
  obtain ⟨⟨k, w⟩, hw, hew⟩ := he
  obtain ⟨w', hw', hew'⟩ := h.out_in hw hew
  rw [h.unique hv hw']
  exact hew'

theorem Graph.WF.mem_out_of_hasE {g : Graph} (h : g.WF) {e : Edge} (he : g.hasE e)
    {v : Vertex} (hv : (e.from_, v) ∈ g.session_map) : e ∈ v.edges_out := by
  obtain ⟨⟨k, w⟩, hw, hew⟩ := he
  have hk := h.out_from hw hew
  rw [hk] at hv
  rw [h.unique hv hw]
  exact hew

theorem Graph.WF.hasE_of_mem_in {g : Graph} (h : g.WF) {k : Int} {v : Vertex} {e : Edge}
    (hv : (k, v) ∈ g.session_map) (he : e ∈ v.edges_in) : g.hasE e := by
  obtain ⟨w, hw, hew⟩ := h.in_out hv he
  exact ⟨_, hw, hew⟩

/-! ## `Pruned` is kept by the removal of a vertex that lacks an edge -/

theorem Pruned_refl {g : Graph} (h : g.WF) : g.Pruned g := by
  refine ⟨h, fun _ hk => hk, ?_, ?_⟩
  · intro e
    exact ⟨fun he => ⟨he, h.hasE_from he, h.hasE_to he⟩, fun he => he.1⟩
  · intro S hS s hs
    obtain ⟨e, he, hes, _⟩ := (hS s hs).1
    rw [← hes]
    exact h.hasE_to he

theorem Pruned_keys_RemoveVert {g : Graph} (h : g.WF) {s : Int} {vert : Vertex}
    (hs : (s, vert) ∈ g.session_map) (k : Int) :
    k ∈ (g.RemoveVert vert).keys ↔ k ∈ g.keys ∧ k ≠ s := by
  rw [keys_RemoveVert, h.sessionid hs]
  simp [List.mem_filter]

theorem Pruned_RemoveVert {g0 g : Graph} (h : g0.Pruned g) {s : Int} {vert : Vertex}
    (hs : (s, vert) ∈ g.session_map)
    (hdeg : vert.edges_in.length ≤ 0 ∨ vert.edges_out.length ≤ 0) :
    g0.Pruned (g.RemoveVert vert) := by
  obtain ⟨hwf, hsub, hE, hcl⟩ := h
  refine ⟨WF_RemoveVert hwf hs, ?_, ?_, ?_⟩
  · intro k hk
    exact hsub k ((Pruned_keys_RemoveVert hwf hs k).mp hk).1
  · intro e
    rw [hasE_RemoveVert hwf hs, hE, Pruned_keys_RemoveVert hwf hs, Pruned_keys_RemoveVert hwf hs]
    tauto
  · intro S hS x hx
    refine (Pruned_keys_RemoveVert hwf hs x).mpr ⟨hcl S hS x hx, ?_⟩
    rintro rfl
    obtain ⟨⟨e1, he1, hto, hS1⟩, ⟨e2, he2, hfrom, hS2⟩⟩ := hS x hx
    have hk := mem_keys_of_mem hs
    rcases hdeg with hd | hd
    · have hge : g.hasE e1 := (hE e1).mpr ⟨he1, hcl S hS _ hS1, by rw [hto]; exact hk⟩
      have hm : e1 ∈ vert.edges_in := hwf.mem_in_of_hasE hge (by rw [hto]; exact hs)
      have := List.length_pos_of_mem hm
      omega
    · have hge : g.hasE e2 := (hE e2).mpr ⟨he2, by rw [hfrom]; exact hk, hcl S hS _ hS2⟩
      have hm : e2 ∈ vert.edges_out := hwf.mem_out_of_hasE hge (by rw [hfrom]; exact hs)
      have := List.length_pos_of_mem hm
      omega

/-! ## One pass of `reduceGraph` -/

theorem reduceVisit_Pruned {g0 : Graph} (st : Graph × Bool) (s : Int) (h : g0.Pruned st.1) :
    g0.Pruned (reduceVisit st s).1 := by
  unfold reduceVisit
  cases hl : st.1.lookup s with
  | none => exact h
  | some vert =>
    simp only
    split
    · next hdeg => exact Pruned_RemoveVert h (lookup_mem _ _ _ hl) hdeg
    · exact h

theorem foldl_reduceVisit_Pruned {g0 : Graph} (order : List Int) (st : Graph × Bool)
    (h : g0.Pruned st.1) : g0.Pruned (order.foldl reduceVisit st).1 := by
  induction order generalizing st with
  | nil => exact h
  | cons s order ih => exact ih _ (reduceVisit_Pruned st s h)

theorem reduceVisit_flag_mono (st : Graph × Bool) (s : Int) (h : st.2 = true) :
    (reduceVisit st s).2 = true := by
  unfold reduceVisit
  cases st.1.lookup s with
  | none => exact h
  | some vert =>
    simp only
    split
    · rfl
    · exact h

theorem foldl_reduceVisit_flag_mono (order : List Int) (st : Graph × Bool) (h : st.2 = true) :
    (order.foldl reduceVisit st).2 = true := by
  induction order generalizing st with
  | nil => exact h
  | cons s order ih => exact ih _ (reduceVisit_flag_mono st s h)

/-- A pass that ends with `graph_changed = false` removed nothing, and every
vertex it visited had an incoming and an outgoing edge. -/
theorem foldl_reduceVisit_unchanged (order : List Int) (st : Graph × Bool)
    (h : (order.foldl reduceVisit st).2 = false) :
    order.foldl reduceVisit st = st ∧
      ∀ s ∈ order, ∀ v, st.1.lookup s = some v →
        1 ≤ v.edges_in.length ∧ 1 ≤ v.edges_out.length := by
  induction order generalizing st with
  | nil => exact ⟨rfl, by simp⟩
  | cons s order ih =>
    rw [List.foldl_cons] at h ⊢
    have hstep : reduceVisit st s = st ∧
        ∀ v, st.1.lookup s = some v → 1 ≤ v.edges_in.length ∧ 1 ≤ v.edges_out.length := by
      unfold reduceVisit
      cases hl : st.1.lookup s with
      | none => exact ⟨rfl, by simp⟩
      | some vert =>
        simp only
        split
        · next hdeg =>
          exfalso
          have h1 : (reduceVisit st s).2 = true := by
            unfold reduceVisit
            rw [hl]
            simp only
            rw [if_pos hdeg]
          have := foldl_reduceVisit_flag_mono order _ h1
          rw [this] at h
          exact Bool.noConfusion h
        · next hdeg =>
          refine ⟨rfl, ?_⟩
          intro v hv
          cases hv
          omega
    rw [hstep.1] at h ⊢
    obtain ⟨h1, h2⟩ := ih st h
    refine ⟨h1, ?_⟩
    intro x hx v hv
    rcases List.mem_cons.mp hx with rfl | hx
    · exact hstep.2 v hv
    · exact h2 x hx v hv

theorem reduceVisit_length {g0 : Graph} (st : Graph × Bool) (s : Int) (h : g0.Pruned st.1) :
    (reduceVisit st s).1.keys.length ≤ st.1.keys.length ∧
      ((reduceVisit st s).2 = true → st.2 = false →
        (reduceVisit st s).1.keys.length < st.1.keys.length) := by
  unfold reduceVisit
  cases hl : st.1.lookup s with
  | none =>
    refine ⟨le_refl _, ?_⟩
    intro h1 h2
    simp only at h1
    rw [h1] at h2
    exact Bool.noConfusion h2
  | some vert =>
    simp only
    split
    · have hm := lookup_mem _ _ _ hl
      have hlt : (st.1.RemoveVert vert).keys.length < st.1.keys.length := by
        rw [keys_RemoveVert, h.1.sessionid hm]
        apply List.length_filter_lt_length_iff_exists.mpr
        exact ⟨s, mem_keys_of_mem hm, by simp⟩
      exact ⟨le_of_lt hlt, fun _ _ => hlt⟩
    · refine ⟨le_refl _, ?_⟩
      intro h1 h2
      rw [h1] at h2
      exact Bool.noConfusion h2

theorem foldl_reduceVisit_length {g0 : Graph} (order : List Int) (st : Graph × Bool)
    (h : g0.Pruned st.1) :
    (order.foldl reduceVisit st).1.keys.length ≤ st.1.keys.length ∧
      ((order.foldl reduceVisit st).2 = true → st.2 = false →
        (order.foldl reduceVisit st).1.keys.length < st.1.keys.length) := by
  induction order generalizing st with
  | nil =>
    refine ⟨le_refl _, ?_⟩
    intro h1 h2
    simp only [List.foldl_nil] at h1
    rw [h1] at h2
    exact Bool.noConfusion h2
  | cons s order ih =>
    rw [List.foldl_cons]
    obtain ⟨a1, a2⟩ := reduceVisit_length st s h
    obtain ⟨b1, b2⟩ := ih (reduceVisit st s) (reduceVisit_Pruned st s h)
    refine ⟨le_trans b1 a1, ?_⟩
    intro h1 h2
    cases hf : (reduceVisit st s).2 with
    | true => exact lt_of_le_of_lt b1 (a2 hf h2)
    | false => exact lt_of_lt_of_le (b2 h1 hf) a1

theorem mem_rangeOrder (rank : Int → Nat) (keys : List Int) (k : Int) :
    k ∈ rangeOrder rank keys ↔ k ∈ keys :=
  (List.perm_insertionSort _ keys).mem_iff

theorem keys_length (g : Graph) : g.keys.length = g.session_map.length := by
  simp [Graph.keys]

/-- A pass over a graph in which every vertex has an incoming and an outgoing
edge changes nothing. -/
theorem reducePass_stable (rank : Int → Nat) (g : Graph) (h : g.stable) :
    reducePass rank g = (g, false) := by
  unfold reducePass
  generalize rangeOrder rank g.keys = order
  induction order with
  | nil => rfl
  | cons s order ih =>
    rw [List.foldl_cons]
    have : reduceVisit (g, false) s = (g, false) := by
      unfold reduceVisit
      cases hl : (g, false).1.lookup s with
      | none => rfl
      | some vert =>
        simp only
        have := h _ (lookup_mem _ _ _ hl)
        simp only at this
        rw [if_neg (by omega)]
    rw [this]
    exact ih

/-! ## The loop of `reduceGraph` -/

theorem reduceLoop_spec {g0 : Graph} (sched : Nat → Int → Nat) (fuel pass : Nat) (g : Graph)
    (h : g0.Pruned g) (hf : g.keys.length < fuel) :
    ∃ g', reduceLoop sched fuel pass g = .ok g' ∧ g0.Pruned g' ∧ g'.stable := by
  induction fuel generalizing pass g with
  | zero => omega
  | succ fuel ih =>
    unfold reduceLoop
    simp only
    have hP : g0.Pruned (reducePass (sched pass) g).1 :=
      foldl_reduceVisit_Pruned _ (g, false) h
    have hL := foldl_reduceVisit_length (rangeOrder (sched pass) g.keys) (g, false) h
    cases hc : (reducePass (sched pass) g).2 with
    | true =>
      simp only [if_true]
      apply ih _ _ hP
      have := hL.2 hc rfl
      simp only [reducePass] at this ⊢
      omega
    | false =>
      simp only [Bool.false_eq_true, if_false]
      refine ⟨_, rfl, hP, ?_⟩
      obtain ⟨e1, e2⟩ := foldl_reduceVisit_unchanged (rangeOrder (sched pass) g.keys) (g, false) hc
      have e3 : (reducePass (sched pass) g).1 = g := by
        unfold reducePass
        rw [e1]
      rw [e3]
      rintro ⟨k, v⟩ hp
      exact e2 k ((mem_rangeOrder _ _ _).mpr (mem_keys_of_mem hp)) v (mem_lookup g h.1.1 k v hp)

theorem reduceGraph_spec (sched : Nat → Int → Nat) (g : Graph) (h : g.WF) :
    ∃ g', reduceGraph sched g = .ok g' ∧ g.Pruned g' ∧ g'.stable := by
  unfold reduceGraph
  apply reduceLoop_spec sched _ 0 g (Pruned_refl h)
  rw [keys_length]
  omega

theorem reduceGraph_stable (sched : Nat → Int → Nat) (g : Graph) (h : g.stable) :
    reduceGraph sched g = .ok g := by
  unfold reduceGraph reduceLoop
  simp only [reducePass_stable _ g h, Bool.false_eq_true, if_false]

/-! ## Walks and cycles -/

/-- In a finite set in which every element has a successor, every element
leads to an element that leads back to itself. -/
theorem exists_cycle_of_succ (R : Int → Int → Prop) (ks : List Int)
    (h : ∀ a ∈ ks, ∃ b ∈ ks, R a b) (a : Int) (ha : a ∈ ks) :
    ∃ c, c ∈ ks ∧ Relation.ReflTransGen R a c ∧ Relation.TransGen R c c := by
  have h' : ∀ x : {x // x ∈ ks}, ∃ y : {x // x ∈ ks}, R x.1 y.1 := by
    rintro ⟨x, hx⟩
    obtain ⟨y, hy, hxy⟩ := h x hx
    exact ⟨⟨y, hy⟩, hxy⟩
  choose f hf using h'
  have hwalk : ∀ n (x : {x // x ∈ ks}), Relation.ReflTransGen R x.1 (f^[n] x).1 := by
    intro n
    induction n with
    | zero => intro x; exact Relation.ReflTransGen.refl
    | succ n ih =>
      intro x
      rw [Function.iterate_succ_apply']
      exact Relation.ReflTransGen.tail (ih x) (hf _)
  have hwalk1 : ∀ n (x : {x // x ∈ ks}), Relation.TransGen R x.1 (f^[n + 1] x).1 := by
    intro n x
    rw [Function.iterate_succ_apply']
    exact Relation.TransGen.tail' (hwalk n x) (hf _)
  obtain ⟨i, j, hij, heq⟩ :=
    Finite.exists_ne_map_eq_of_infinite (fun n : ℕ => f^[n] ⟨a, ha⟩)
  have key : ∀ i j : ℕ, i < j → f^[i] ⟨a, ha⟩ = f^[j] ⟨a, ha⟩ →
      ∃ c, c ∈ ks ∧ Relation.ReflTransGen R a c ∧ Relation.TransGen R c c := by
    intro i j hlt heq
    refine ⟨(f^[i] ⟨a, ha⟩).1, (f^[i] ⟨a, ha⟩).2, hwalk i ⟨a, ha⟩, ?_⟩
    have h1 := hwalk1 (j - i - 1) (f^[i] ⟨a, ha⟩)
    rw [← Function.iterate_add_apply] at h1
    have h2 : j - i - 1 + 1 + i = j := by omega
    rw [h2, ← heq] at h1
    exact h1
  rcases Nat.lt_or_gt_of_ne hij with hlt | hgt
  · exact key i j hlt heq
  · exact key j i hgt heq.symm

theorem onCycle_closed (g : Graph) : g.closed g.onCycle := by
  intro s hs
  constructor
  · obtain ⟨b, hsb, e, he, hfrom, hto⟩ := Relation.TransGen.tail'_iff.mp hs
    refine ⟨e, he, hto, ?_⟩
    rw [hfrom]
    exact Relation.TransGen.head' ⟨e, he, hfrom, hto⟩ hsb
  · obtain ⟨b, ⟨e, he, hfrom, hto⟩, hbs⟩ := Relation.TransGen.head'_iff.mp hs
    refine ⟨e, he, hfrom, ?_⟩
    rw [hto]
    exact Relation.TransGen.tail' hbs ⟨e, he, hfrom, hto⟩

theorem onCycle_betweenCycles {g : Graph} {s : Int} (h : g.onCycle s) : g.betweenCycles s :=
  ⟨s, s, h, h, Relation.ReflTransGen.refl, Relation.ReflTransGen.refl⟩

theorem betweenCycles_closed (g : Graph) : g.closed g.betweenCycles := by
  rintro s ⟨c, d, hc, hd, hcs, hsd⟩
  constructor
  · rcases Relation.ReflTransGen.cases_tail hcs with heq | ⟨b, hcb, e, he, hfrom, hto⟩
    · subst heq
      obtain ⟨e, he, hto, hon⟩ := (onCycle_closed g s hc).1
      exact ⟨e, he, hto, onCycle_betweenCycles hon⟩
    · refine ⟨e, he, hto, c, d, hc, hd, ?_, ?_⟩
      · rw [hfrom]; exact hcb
      · rw [hfrom]
        exact Relation.ReflTransGen.head ⟨e, he, hfrom, hto⟩ hsd
  · rcases Relation.ReflTransGen.cases_head hsd with heq | ⟨b, ⟨e, he, hfrom, hto⟩, hbd⟩
    · subst heq
      obtain ⟨e, he, hfrom, hon⟩ := (onCycle_closed g s hd).2
      exact ⟨e, he, hfrom, onCycle_betweenCycles hon⟩
    · refine ⟨e, he, hfrom, c, d, hc, hd, ?_, ?_⟩
      · rw [hto]
        exact Relation.ReflTransGen.tail hcs ⟨e, he, hfrom, hto⟩
      · rw [hto]; exact hbd

theorem Graph.Pruned.step_mono {g0 g : Graph} (h : g0.Pruned g) (a b : Int) (hs : g.step a b) :
    g0.step a b := by
  obtain ⟨e, he, hfrom, hto⟩ := hs
  exact ⟨e, ((h.2.2.1 e).mp he).1, hfrom, hto⟩

theorem stable_succ {g : Graph} (hwf : g.WF) (hst : g.stable) :
    ∀ a ∈ g.keys, ∃ b ∈ g.keys, g.step a b := by
  intro a ha
  obtain ⟨v, hv⟩ := exists_mem_of_mem_keys ha
  have h1 := (hst _ hv).2
  obtain ⟨e, he⟩ := List.exists_mem_of_length_pos (show 0 < v.edges_out.length by simpa using h1)
  have hE : g.hasE e := ⟨_, hv, he⟩
  exact ⟨e.to_, hwf.hasE_to hE, e, hE, hwf.out_from hv he, rfl⟩

theorem stable_pred {g : Graph} (hwf : g.WF) (hst : g.stable) :
    ∀ a ∈ g.keys, ∃ b ∈ g.keys, Function.swap g.step a b := by
  intro a ha
  obtain ⟨v, hv⟩ := exists_mem_of_mem_keys ha
  have h1 := (hst _ hv).1
  obtain ⟨e, he⟩ := List.exists_mem_of_length_pos (show 0 < v.edges_in.length by simpa using h1)
  have hE : g.hasE e := hwf.hasE_of_mem_in hv he
  exact ⟨e.from_, hwf.hasE_from hE, e, hE, rfl, hwf.in_to hv he⟩

/-- Every vertex of a graph in which all vertices have an incoming and an
outgoing edge is reached from a cycle and reaches a cycle. -/
theorem stable_betweenCycles {g : Graph} (hwf : g.WF) (hst : g.stable) (s : Int)
    (hs : s ∈ g.keys) : g.betweenCycles s := by
  obtain ⟨d, _, hsd, hd⟩ := exists_cycle_of_succ g.step g.keys (stable_succ hwf hst) s hs
  obtain ⟨c, _, hsc, hc⟩ :=
    exists_cycle_of_succ (Function.swap g.step) g.keys (stable_pred hwf hst) s hs
  exact ⟨c, d, Relation.transGen_swap.mp hc, hd, Relation.reflTransGen_swap.mp hsc, hsd⟩

theorem Graph.Pruned.betweenCycles_mono {g0 g : Graph} (h : g0.Pruned g) (s : Int)
    (hs : g.betweenCycles s) : g0.betweenCycles s := by
  obtain ⟨c, d, hc, hd, hcs, hsd⟩ := hs
  exact ⟨c, d, Relation.TransGen.mono h.step_mono hc, Relation.TransGen.mono h.step_mono hd,
    Relation.ReflTransGen.mono h.step_mono hcs, Relation.ReflTransGen.mono h.step_mono hsd⟩

/-- The vertices left by pruning down to a graph in which every vertex has an
incoming and an outgoing edge are the ones between two cycles. -/
theorem Graph.Pruned.keys_iff {g0 g : Graph} (h : g0.Pruned g) (hst : g.stable) (s : Int) :
    s ∈ g.keys ↔ g0.betweenCycles s :=
  ⟨fun hs => h.betweenCycles_mono s (stable_betweenCycles h.1 hst s hs),
   fun hs => h.2.2.2 _ (betweenCycles_closed g0) s hs⟩

theorem Empty_iff_keys (g : Graph) : g.Empty = true ↔ g.keys = [] := by
  obtain ⟨l⟩ := g
  cases l <;> simp [Graph.Empty, Graph.keys]

theorem Graph.Pruned.empty_iff {g0 g : Graph} (h : g0.Pruned g) (hst : g.stable) :
    g.Empty = true ↔ g0.acyclic := by
  rw [Empty_iff_keys]
  constructor
  · intro hk s hs
    have := (h.keys_iff hst s).mpr (onCycle_betweenCycles hs)
    rw [hk] at this
    exact List.not_mem_nil _ this
  · intro hac
    apply List.eq_nil_iff_forall_not_mem.mpr
    intro s hs
    obtain ⟨c, _, hc, _⟩ := (h.keys_iff hst s).mp hs
    exact hac c hc

/-! ## Every visiting order is a `rangeOrder` -/

theorem pairwise_indexOf_lt (l : List Int) (h : l.Nodup) :
    l.Pairwise (fun a b => l.indexOf a < l.indexOf b) := by
  have hmap : l.map (fun a => l.indexOf a) = List.range l.length := by
    apply List.ext_getElem
    · simp
    · intro i h1 h2
      simp only [List.getElem_map, List.getElem_range]
      exact List.indexOf_getElem h i _
  have := List.sorted_lt_range l.length
  rw [← hmap] at this
  exact List.pairwise_map.mp this

/-- Every arrangement `l` of distinct keys is the visiting order given by
some rank function. -/
theorem rangeOrder_surjective (keys l : List Int) (hp : l.Perm keys) (hnd : keys.Nodup) :
    ∃ rank, rangeOrder rank keys = l := by
  have hl : l.Nodup := hp.nodup_iff.mpr hnd
  refine ⟨fun k => l.indexOf k, ?_⟩
  unfold rangeOrder
  haveI : IsTotal Int (fun a b => l.indexOf a ≤ l.indexOf b) := ⟨fun a b => le_total _ _⟩
  haveI : IsTrans Int (fun a b => l.indexOf a ≤ l.indexOf b) := ⟨fun a b c => le_trans⟩
  haveI : IsAntisymm Int (fun a b => l.indexOf a < l.indexOf b) :=
    ⟨fun a b h1 h2 => absurd h1 (by omega)⟩
  have hs := List.sorted_insertionSort (fun a b => l.indexOf a ≤ l.indexOf b) keys
  have hperm := List.perm_insertionSort (fun a b => l.indexOf a ≤ l.indexOf b) keys
  have hsnd : (List.insertionSort (fun a b => l.indexOf a ≤ l.indexOf b) keys).Nodup :=
    hperm.nodup_iff.mpr hnd
  have hstrict : (List.insertionSort (fun a b => l.indexOf a ≤ l.indexOf b) keys).Pairwise
      (fun a b => l.indexOf a < l.indexOf b) := by
    have h2 := List.Pairwise.and hs hsnd
    refine List.Pairwise.imp_of_mem ?_ h2
    intro a b ha hb hab
    have ha' : a ∈ l := hp.mem_iff.mpr (hperm.mem_iff.mp ha)
    have hb' : b ∈ l := hp.mem_iff.mpr (hperm.mem_iff.mp hb)
    have hne : l.indexOf a ≠ l.indexOf b := fun h => hab.2 ((List.indexOf_inj ha' hb').mp h)
    have := hab.1
    omega
  exact List.eq_of_perm_of_sorted (hperm.trans hp.symm) hstrict (pairwise_indexOf_lt l hl)

/-- C1: for every well-formed wait-for graph, `reduceGraph` returns, and the
graph it leaves is empty (`Graph.Empty` is true) if and only if the graph
before reduction has no directed cycle; every vertex on a directed cycle
survives, and an acyclic graph is pruned to the empty session map. -/
theorem reduceGraph_empty_iff_acyclic (sched : Nat → Int → Nat) (g : Graph) (h : g.WF) :
    ∃ g', reduceGraph sched g = .ok g' ∧ (g'.Empty = true ↔ g.acyclic) ∧
      (∀ s, g.onCycle s → s ∈ g'.keys) ∧ (g.acyclic → g'.session_map = []) := by
  obtain ⟨g', hr, hP, hst⟩ := reduceGraph_spec sched g h
  refine ⟨g', hr, hP.empty_iff hst, ?_, ?_⟩
  · intro s hs
    exact (hP.keys_iff hst s).mpr (onCycle_betweenCycles hs)
  · intro hac
    have := (hP.empty_iff hst).mpr hac
    rw [Empty_iff_keys] at this
    simpa [Graph.keys] using this

theorem reduceGraph_empty_iff_acyclic_witness :
    chain2.WF ∧ ∃ g', reduceGraph (fun _ _ => 0) chain2 = .ok g' ∧
      (g'.Empty = true ↔ chain2.acyclic) ∧
      (∀ s, chain2.onCycle s → s ∈ g'.keys) ∧ (chain2.acyclic → g'.session_map = []) :=
  ⟨by decide, reduceGraph_empty_iff_acyclic (fun _ _ => 0) chain2 (by decide)⟩

/-- C2: for every well-formed wait-for graph, `reduceGraph` returns, and every
vertex still in the session map has at least one incoming and at least one
outgoing edge. -/
theorem reduceGraph_degrees (sched : Nat → Int → Nat) (g : Graph) (h : g.WF) :
    ∃ g', reduceGraph sched g = .ok g' ∧
      ∀ p ∈ g'.session_map, p.2.edges_in.length ≥ 1 ∧ p.2.edges_out.length ≥ 1 := by
  obtain ⟨g', hr, _, hst⟩ := reduceGraph_spec sched g h
  exact ⟨g', hr, hst⟩

theorem reduceGraph_degrees_witness :
    bridge.WF ∧ ∃ g', reduceGraph (fun _ _ => 0) bridge = .ok g' ∧
      ∀ p ∈ g'.session_map, p.2.edges_in.length ≥ 1 ∧ p.2.edges_out.length ≥ 1 :=
  ⟨by decide, reduceGraph_degrees (fun _ _ => 0) bridge (by decide)⟩

theorem bridge_step (a b : Int) (h : bridge.step a b) :
    (a = 1 ∧ b = 2) ∨ (a = 2 ∧ b = 1) ∨ (a = 2 ∧ b = 5) ∨ (a = 5 ∧ b = 3) ∨
      (a = 3 ∧ b = 4) ∨ (a = 4 ∧ b = 3) := by
  obtain ⟨e, ⟨p, hp, he⟩, rfl, rfl⟩ := h
  simp only [bridge, List.mem_cons, List.mem_singleton, List.not_mem_nil, or_false] at hp
  rcases hp with rfl | rfl | rfl | rfl | rfl <;>
    simp only [List.mem_cons, List.mem_singleton, List.not_mem_nil, or_false] at he
  · subst he; simp [waitEdge]
  · rcases he with rfl | rfl <;> simp [waitEdge]
  · subst he; simp [waitEdge]
  · subst he; simp [waitEdge]
  · subst he; simp [waitEdge]

theorem bridge_reach (x : Int) (h : Relation.TransGen bridge.step 5 x) : x = 3 ∨ x = 4 := by
  induction h with
  | single h1 =>
    have := bridge_step _ _ h1
    omega
  | tail _ h2 ih =>
    have := bridge_step _ _ h2
    omega

/-- C6, refuted as stated: in the graph with the cycles 1 ⇄ 2 and 3 ⇄ 4 joined
by the path 2 → 5 → 3, which the builder makes of the snapshot `bridgeRows`,
`reduceGraph` removes nothing, so session 5 survives, yet session 5 lies on no
directed cycle. -/
theorem reduceGraph_keeps_vertex_off_cycles :
    graphOfRows (fun _ => 0) (fun _ => 0) bridgeRows = .ok bridge ∧
    bridge.WF ∧ reduceGraph (fun _ _ => 0) bridge = .ok bridge ∧ 5 ∈ bridge.keys ∧
      ¬ bridge.onCycle 5 := by
  refine ⟨rfl, by decide, rfl, by decide, ?_⟩
  intro h
  have := bridge_reach 5 h
  omega

/-- C6, amended: for every well-formed wait-for graph, `reduceGraph` returns,
a vertex survives if and only if it lies on a directed walk from a vertex on
a directed cycle to a vertex on a directed cycle of the input graph, and the
edges that survive are the edges of the input graph between surviving
vertices. -/
theorem reduceGraph_survivors (sched : Nat → Int → Nat) (g : Graph) (h : g.WF) :
    ∃ g', reduceGraph sched g = .ok g' ∧ (∀ s, s ∈ g'.keys ↔ g.betweenCycles s) ∧
      ∀ e, g'.hasE e ↔ g.hasE e ∧ e.from_ ∈ g'.keys ∧ e.to_ ∈ g'.keys := by
  obtain ⟨g', hr, hP, hst⟩ := reduceGraph_spec sched g h
  exact ⟨g', hr, hP.keys_iff hst, hP.2.2.1⟩

theorem reduceGraph_survivors_witness :
    bridge.WF ∧ ∃ g', reduceGraph (fun _ _ => 0) bridge = .ok g' ∧
      (∀ s, s ∈ g'.keys ↔ bridge.betweenCycles s) ∧
      ∀ e, g'.hasE e ↔ bridge.hasE e ∧ e.from_ ∈ g'.keys ∧ e.to_ ∈ g'.keys :=
  ⟨by decide, reduceGraph_survivors (fun _ _ => 0) bridge (by decide)⟩

/-- C7: `reduceGraph` is idempotent: for every well-formed wait-for graph,
`reduceGraph` returns a graph on which `reduceGraph`, whatever order it visits
the vertices in, returns that same graph. -/
theorem reduceGraph_idempotent (sched sched' : Nat → Int → Nat) (g : Graph) (h : g.WF) :
    ∃ g', reduceGraph sched g = .ok g' ∧ reduceGraph sched' g' = .ok g' := by
  obtain ⟨g', hr, _, hst⟩ := reduceGraph_spec sched g h
  exact ⟨g', hr, reduceGraph_stable sched' g' hst⟩

theorem reduceGraph_idempotent_witness :
    cycle3.WF ∧ ∃ g', reduceGraph (fun _ _ => 0) cycle3 = .ok g' ∧
      reduceGraph (fun _ k => k.toNat) g' = .ok g' :=
  ⟨by decide, reduceGraph_idempotent (fun _ _ => 0) (fun _ k => k.toNat) cycle3 (by decide)⟩

/-! ## `GetOrNewVertex` and `AddEdge` -/

theorem hasE_iff_mem_edges (g : Graph) (e : Edge) : g.hasE e ↔ e ∈ g.edges := by
  simp only [Graph.hasE, Graph.edges, List.mem_flatMap]

theorem lookup_eq_none_iff (g : Graph) (s : Int) : g.lookup s = none ↔ s ∉ g.keys := by
  rw [mem_keys_iff_lookup]
  cases g.lookup s <;> simp

theorem GetOrNewVertex_spec (g : Graph) (s : Int) (h : g.WF) :
    (g.GetOrNewVertex s).1.WF ∧ (g.GetOrNewVertex s).2.mppsessionid = s ∧
      (g.GetOrNewVertex s).1.edges = g.edges ∧
      (∀ k, k ∈ (g.GetOrNewVertex s).1.keys ↔ k ∈ g.keys ∨ k = s) ∧
      (g.noSelfLoop → (g.GetOrNewVertex s).1.noSelfLoop) := by
  unfold Graph.GetOrNewVertex
  cases hl : g.lookup s with
  | some vert =>
    have hm := lookup_mem g s vert hl
    refine ⟨h, h.sessionid hm, rfl, ?_, fun hn => hn⟩
    intro k
    constructor
    · exact Or.inl
    · rintro (hk | rfl)
      · exact hk
      · exact mem_keys_of_mem hm
  | none =>
    have hs : s ∉ g.keys := (lookup_eq_none_iff g s).mp hl
    refine ⟨⟨?_, ?_⟩, rfl, ?_, ?_, ?_⟩
    · simp only [Graph.keys, List.map_append, List.map_cons, List.map_nil]
      rw [List.nodup_append]
      refine ⟨h.1, List.nodup_singleton _, ?_⟩
      intro a ha hb
      rw [List.mem_singleton] at hb
      subst hb
      exact hs ha
    · intro p hp
      rcases List.mem_append.mp hp with hp | hp
      · obtain ⟨h1, h2, h3, h4, h5⟩ := h.2 p hp
        refine ⟨h1, h2, h3, ?_, ?_⟩
        · intro e he
          obtain ⟨a, q, hq, hb⟩ := h4 e he
          exact ⟨a, q, List.mem_append_left _ hq, hb⟩
        · intro e he
          obtain ⟨a, q, hq, hb⟩ := h5 e he
          exact ⟨a, q, List.mem_append_left _ hq, hb⟩
      · rw [List.mem_singleton] at hp
        subst hp
        simp
    · simp [Graph.edges, List.flatMap_append]
    · intro k
      simp [Graph.keys]
    · intro hn p hp
      rcases List.mem_append.mp hp with hp | hp
      · exact hn p hp
      · rw [List.mem_singleton] at hp
        subst hp
        simp

theorem AddEdge_eq (g : Graph) (e : Edge) :
    g.AddEdge e = ⟨g.session_map.map (fun p => (p.1, addTo e p.1 p.2))⟩ := by
  unfold Graph.AddEdge Graph.modify
  simp only [List.map_map]
  congr 1
  apply List.map_congr_left
  intro p _
  obtain ⟨a, v⟩ := p
  simp only [Function.comp, addTo]
  split_ifs <;> simp_all

theorem mem_AddEdge (g : Graph) (e : Edge) (k : Int) (v' : Vertex) :
    (k, v') ∈ (g.AddEdge e).session_map ↔ ∃ v, (k, v) ∈ g.session_map ∧ v' = addTo e k v := by
  rw [AddEdge_eq]
  simp only [List.mem_map, Prod.mk.injEq, Prod.exists]
  constructor
  · rintro ⟨a, v, hm, rfl, rfl⟩
    exact ⟨v, hm, rfl⟩
  · rintro ⟨v, hm, rfl⟩
    exact ⟨k, v, hm, rfl, rfl⟩

theorem keys_AddEdge (g : Graph) (e : Edge) : (g.AddEdge e).keys = g.keys := by
  rw [AddEdge_eq]
  simp [Graph.keys, List.map_map, Function.comp]

theorem mem_setInsert (s : List Edge) (e x : Edge) : x ∈ setInsert s e ↔ x ∈ s ∨ x = e := by
  unfold setInsert
  split
  · next h =>
    constructor
    · exact Or.inl
    · rintro (hx | rfl)
      · exact hx
      · exact h
  · simp

theorem nodup_setInsert (s : List Edge) (e : Edge) (h : s.Nodup) : (setInsert s e).Nodup := by
  unfold setInsert
  split
  · exact h
  · next hn =>
    rw [List.nodup_append]
    refine ⟨h, List.nodup_singleton _, ?_⟩
    intro a ha hb
    rw [List.mem_singleton] at hb
    subst hb
    exact hn ha

theorem mem_addTo_out (e : Edge) (k : Int) (v : Vertex) (x : Edge) :
    x ∈ (addTo e k v).edges_out ↔ x ∈ v.edges_out ∨ (x = e ∧ k = e.from_) := by
  simp only [addTo]
  split
  · next h => rw [mem_setInsert]; simp [h]
  · next h => simp [h]

theorem mem_addTo_in (e : Edge) (k : Int) (v : Vertex) (x : Edge) :
    x ∈ (addTo e k v).edges_in ↔ x ∈ v.edges_in ∨ (x = e ∧ k = e.to_) := by
  simp only [addTo]
  split
  · next h => rw [mem_setInsert]; simp [h]
  · next h => simp [h]

theorem WF_AddEdge {g : Graph} (h : g.WF) (e : Edge) (hf : e.from_ ∈ g.keys)
    (ht : e.to_ ∈ g.keys) : (g.AddEdge e).WF := by
  refine ⟨by rw [keys_AddEdge]; exact h.1, ?_⟩
  rintro ⟨k, v'⟩ hp
  obtain ⟨v, hv, rfl⟩ := (mem_AddEdge g e k _).mp hp
  obtain ⟨h1, h2, h3, _, _⟩ := h.2 _ hv
  refine ⟨h1, ?_, ?_, ?_, ?_⟩
  · simp only [addTo]
    split
    · exact nodup_setInsert _ _ h2
    · exact h2
  · simp only [addTo]
    split
    · exact nodup_setInsert _ _ h3
    · exact h3
  · intro x hx
    rcases (mem_addTo_out e k v x).mp hx with hx | ⟨rfl, hk⟩
    · refine ⟨h.out_from hv hx, ?_⟩
      obtain ⟨w, hw, hxw⟩ := h.out_in hv hx
      exact ⟨(x.to_, addTo e x.to_ w), (mem_AddEdge g e _ _).mpr ⟨w, hw, rfl⟩, rfl,
        (mem_addTo_in e _ w x).mpr (Or.inl hxw)⟩
    · refine ⟨hk.symm, ?_⟩
      obtain ⟨w, hw⟩ := exists_mem_of_mem_keys ht
      exact ⟨(x.to_, addTo x x.to_ w), (mem_AddEdge g x _ _).mpr ⟨w, hw, rfl⟩, rfl,
        (mem_addTo_in x _ w x).mpr (Or.inr ⟨rfl, rfl⟩)⟩
  · intro x hx
    rcases (mem_addTo_in e k v x).mp hx with hx | ⟨rfl, hk⟩
    · refine ⟨h.in_to hv hx, ?_⟩
      obtain ⟨w, hw, hxw⟩ := h.in_out hv hx
      exact ⟨(x.from_, addTo e x.from_ w), (mem_AddEdge g e _ _).mpr ⟨w, hw, rfl⟩, rfl,
        (mem_addTo_out e _ w x).mpr (Or.inl hxw)⟩
    · refine ⟨hk.symm, ?_⟩
      obtain ⟨w, hw⟩ := exists_mem_of_mem_keys hf
      exact ⟨(x.from_, addTo x x.from_ w), (mem_AddEdge g x _ _).mpr ⟨w, hw, rfl⟩, rfl,
        (mem_addTo_out x _ w x).mpr (Or.inr ⟨rfl, rfl⟩)⟩

theorem noSelfLoop_AddEdge {g : Graph} (h : g.noSelfLoop) (e : Edge) (he : e.from_ ≠ e.to_) :
    (g.AddEdge e).noSelfLoop := by
  rintro ⟨k, v'⟩ hp
  obtain ⟨v, hv, rfl⟩ := (mem_AddEdge g e k _).mp hp
  constructor
  · intro x hx
    rcases (mem_addTo_in e k v x).mp hx with hx | ⟨rfl, _⟩
    · exact (h _ hv).1 x hx
    · exact he
  · intro x hx
    rcases (mem_addTo_out e k v x).mp hx with hx | ⟨rfl, _⟩
    · exact (h _ hv).2 x hx
    · exact he

theorem flatMap_addTo_out_of_ne (e : Edge) (l : List (Int × Vertex))
    (h : ∀ p ∈ l, p.1 ≠ e.from_) :
    l.flatMap (fun p => (addTo e p.1 p.2).edges_out) = l.flatMap (fun p => p.2.edges_out) := by
  induction l with
  | nil => rfl
  | cons p l ih =>
    simp only [List.flatMap_cons]
    rw [ih (fun q hq => h q (List.mem_cons_of_mem _ hq))]
    have : (addTo e p.1 p.2).edges_out = p.2.edges_out := by
      simp [addTo, h p (List.mem_cons_self _ _)]
    rw [this]

/-- Adding an edge that is not yet in the graph adds it to the list of edges. -/
theorem flatMap_addTo_out_perm (e : Edge) (l : List (Int × Vertex))
    (hnd : (l.map Prod.fst).Nodup) (hf : e.from_ ∈ l.map Prod.fst)
    (hfresh : ∀ p ∈ l, e ∉ p.2.edges_out) :
    (l.flatMap (fun p => (addTo e p.1 p.2).edges_out)).Perm
      (e :: l.flatMap (fun p => p.2.edges_out)) := by
  induction l with
  | nil => simp at hf
  | cons p l ih =>
    simp only [List.map_cons, List.nodup_cons] at hnd
    simp only [List.flatMap_cons]
    by_cases hp : p.1 = e.from_
    · have hrest : ∀ q ∈ l, q.1 ≠ e.from_ := by
        intro q hq ha
        apply hnd.1
        rw [hp, ← ha]
        exact List.mem_map_of_mem Prod.fst hq
      rw [flatMap_addTo_out_of_ne e l hrest]
      have : (addTo e p.1 p.2).edges_out = p.2.edges_out ++ [e] := by
        simp [addTo, hp, setInsert, hfresh p (List.mem_cons_self _ _)]
      rw [this, List.append_assoc]
      exact List.perm_middle
    · have : (addTo e p.1 p.2).edges_out = p.2.edges_out := by
        simp [addTo, hp]
      rw [this]
      have hf' : e.from_ ∈ l.map Prod.fst := by
        rcases List.mem_cons.mp hf with h1 | h1
        · exact absurd h1.symm hp
        · exact h1
      have := ih hnd.2 hf' (fun q hq => hfresh q (List.mem_cons_of_mem _ hq))
      exact (List.Perm.append_left _ this).trans List.perm_middle

theorem edges_AddEdge_perm {g : Graph} (h : g.WF) (e : Edge) (hf : e.from_ ∈ g.keys)
    (hfresh : e ∉ g.edges) : (g.AddEdge e).edges.Perm (e :: g.edges) := by
  rw [AddEdge_eq]
  simp only [Graph.edges, List.flatMap_map]
  apply flatMap_addTo_out_perm e g.session_map h.1 hf
  intro p hp he
  exact hfresh ((hasE_iff_mem_edges g e).mp ⟨p, hp, he⟩)

/-! ## The builder loops -/

theorem Built_addEdge (S : Int) (lock : Lock) (cm : String) (st : Graph × Nat) (T : Int)
    (L : List Label) (h : Built st L) (hne : T ≠ S) :
    Built (addEdge S lock cm st T) (L ++ [(S, T, lock.mode, cm, lock.obj)]) := by
  obtain ⟨hwf, hns, hid, hlab, hend, hnd⟩ := h
  unfold addEdge
  rw [if_neg hne]
  simp only
  obtain ⟨w1, s1, e1, k1, n1⟩ := GetOrNewVertex_spec st.1 S hwf
  obtain ⟨w2, s2, e2, k2, n2⟩ := GetOrNewVertex_spec (st.1.GetOrNewVertex S).1 T w1
  rw [s1, s2]
  generalize hg2 : ((st.1.GetOrNewVertex S).1.GetOrNewVertex T).1 = g2 at *
  have he : (⟨st.2, S, T, lock.mode, cm, lock.obj⟩ : Edge) =
      { id := st.2, from_ := S, to_ := T, fromlock := lock.mode, tolock := cm,
        obj := lock.obj } := rfl
  rw [← he]
  generalize hee : (⟨st.2, S, T, lock.mode, cm, lock.obj⟩ : Edge) = e
  have hid_e : e.id = st.2 := by rw [← hee]
  have hfrom_e : e.from_ = S := by rw [← hee]
  have hto_e : e.to_ = T := by rw [← hee]
  have hlab_e : e.label = (S, T, lock.mode, cm, lock.obj) := by rw [← hee]; rfl
  have hfk : e.from_ ∈ g2.keys := by
    rw [hfrom_e]; exact (k2 S).mpr (Or.inl ((k1 S).mpr (Or.inr rfl)))
  have htk : e.to_ ∈ g2.keys := by
    rw [hto_e]; exact (k2 T).mpr (Or.inr rfl)
  have hedges : g2.edges = st.1.edges := e2.trans e1
  have hfresh : e ∉ g2.edges := by
    rw [hedges]
    intro hm
    have := hid e hm
    omega
  have hperm := edges_AddEdge_perm w2 e hfk hfresh
  refine ⟨WF_AddEdge w2 e hfk htk,
    noSelfLoop_AddEdge (n2 (n1 hns)) e (by rw [hfrom_e, hto_e]; exact Ne.symm hne), ?_, ?_, ?_,
    ?_⟩
  · intro x hx
    rcases List.mem_cons.mp (hperm.mem_iff.mp hx) with rfl | hx
    · show x.id < st.2 + 1
      omega
    · rw [hedges] at hx
      exact Nat.lt_succ_of_lt (hid x hx)
  · have h1 := hperm.map Edge.label
    rw [List.map_cons, hedges, hlab_e] at h1
    refine h1.trans ?_
    refine (List.Perm.cons _ hlab).trans ?_
    exact (List.perm_append_singleton _ _).symm
  · intro k hk
    rw [keys_AddEdge] at hk
    rcases (k2 k).mp hk with hk | rfl
    · rcases (k1 k).mp hk with hk | rfl
      · obtain ⟨x, hx, hxk⟩ := hend k hk
        refine ⟨x, hperm.mem_iff.mpr (List.mem_cons_of_mem _ ?_), hxk⟩
        rw [hedges]
        exact hx
      · exact ⟨e, hperm.mem_iff.mpr (List.mem_cons_self _ _), Or.inl hfrom_e⟩
    · exact ⟨e, hperm.mem_iff.mpr (List.mem_cons_self _ _), Or.inr hto_e⟩
  · rw [(hperm.map Edge.id).nodup_iff, List.map_cons, List.nodup_cons, hedges]
    refine ⟨?_, hnd⟩
    intro hm
    obtain ⟨x, hx, hxid⟩ := List.mem_map.mp hm
    have := hid x hx
    omega

theorem Built_foldl_addEdge (S : Int) (lock : Lock) (cm : String) (hs : List Int)
    (st : Graph × Nat) (L : List Label) (h : Built st L) :
    Built (hs.foldl (addEdge S lock cm) st) (L ++ holderLabels S lock cm hs) := by
  induction hs generalizing st L with
  | nil => simpa [holderLabels] using h
  | cons T hs ih =>
    rw [List.foldl_cons]
    by_cases hT : T = S
    · have h1 : addEdge S lock cm st T = st := by
        unfold addEdge
        rw [if_pos hT]
      have h2 : holderLabels S lock cm (T :: hs) = holderLabels S lock cm hs := by
        simp [holderLabels, List.filter_cons, hT]
      rw [h1, h2]
      exact ih st L h
    · have h2 : holderLabels S lock cm (T :: hs) =
          (S, T, lock.mode, cm, lock.obj) :: holderLabels S lock cm hs := by
        simp [holderLabels, List.filter_cons, hT]
      have := ih _ _ (Built_addEdge S lock cm st T L h hT)
      rw [h2]
      simpa using this

theorem Built_foldl_addConflictMode (rankG : Int → Nat) (gt : GrantedTable) (S : Int)
    (lock : Lock) (cms : List String) (st : Graph × Nat) (L : List Label) (h : Built st L) :
    Built (cms.foldl (addConflictMode rankG gt S lock) st)
      (L ++ cms.flatMap (fun cm =>
        holderLabels S lock cm (rangeOrder rankG (holders gt lock.obj cm)))) := by
  induction cms generalizing st L with
  | nil => simpa using h
  | cons cm cms ih =>
    rw [List.foldl_cons, List.flatMap_cons, ← List.append_assoc]
    apply ih
    unfold addConflictMode
    exact Built_foldl_addEdge S lock cm _ st L h

theorem Built_addLock (rankG : Int → Nat) (gt : GrantedTable) (S : Int) (lock : Lock)
    (st : Graph × Nat) (L : List Label) (h : Built st L)
    (hk : (conflict_table.lookup lock.mode).isSome) :
    ∃ st', addLock rankG gt S st lock = .ok st' ∧ Built st' (L ++ lockLabels rankG gt S lock) := by
  unfold addLock lockLabels conflictModes
  cases hl : conflict_table.lookup lock.mode with
  | none => rw [hl] at hk; exact absurd hk (by simp)
  | some cms =>
    exact ⟨_, rfl, Built_foldl_addConflictMode rankG gt S lock cms st L h⟩

theorem foldlM_cons_ok {α β : Type} (f : β → α → Except Failure β) (b b' : β) (a : α)
    (l : List α) (h : f b a = .ok b') : (a :: l).foldlM f b = l.foldlM f b' := by
  rw [List.foldlM_cons, h]
  rfl

theorem foldlM_cons_error {α β : Type} (f : β → α → Except Failure β) (b : β) (a : α)
    (l : List α) (e : Failure) (h : f b a = .error e) : (a :: l).foldlM f b = .error e := by
  rw [List.foldlM_cons, h]
  rfl

theorem Built_foldlM_addLock (rankG : Int → Nat) (gt : GrantedTable) (S : Int)
    (locks : List Lock) (st : Graph × Nat) (L : List Label) (h : Built st L)
    (hk : ∀ lock ∈ locks, (conflict_table.lookup lock.mode).isSome) :
    ∃ st', locks.foldlM (addLock rankG gt S) st = .ok st' ∧
      Built st' (L ++ locks.flatMap (lockLabels rankG gt S)) := by
  induction locks generalizing st L with
  | nil => exact ⟨st, rfl, by simpa using h⟩
  | cons lock locks ih =>
    obtain ⟨st1, h1, b1⟩ := Built_addLock rankG gt S lock st L h (hk lock (List.mem_cons_self _ _))
    obtain ⟨st2, h2, b2⟩ := ih st1 _ b1 (fun l hl => hk l (List.mem_cons_of_mem _ hl))
    refine ⟨st2, ?_, ?_⟩
    · rw [foldlM_cons_ok _ _ _ _ _ h1, h2]
    · rw [List.flatMap_cons, ← List.append_assoc]
      exact b2

theorem Built_foldlM_addWaiter (rankG : Int → Nat) (gt : GrantedTable) (w : Waiter)
    (ss : List Int) (st : Graph × Nat) (L : List Label) (h : Built st L)
    (hk : ∀ S ∈ ss, ∀ lock ∈ (w.lookup S).getD [], (conflict_table.lookup lock.mode).isSome) :
    ∃ st', ss.foldlM (addWaiter rankG gt w) st = .ok st' ∧
      Built st' (L ++ ss.flatMap (waiterLabels rankG gt w)) := by
  induction ss generalizing st L with
  | nil => exact ⟨st, rfl, by simpa using h⟩
  | cons S ss ih =>
    obtain ⟨st1, h1, b1⟩ :=
      Built_foldlM_addLock rankG gt S _ st L h (hk S (List.mem_cons_self _ _))
    obtain ⟨st2, h2, b2⟩ := ih st1 _ b1 (fun l hl => hk l (List.mem_cons_of_mem _ hl))
    refine ⟨st2, ?_, ?_⟩
    · rw [foldlM_cons_ok _ _ _ _ _ (by unfold addWaiter; exact h1), h2]
    · rw [List.flatMap_cons, ← List.append_assoc]
      exact b2

theorem Built_init : Built (NewGraph, 0) [] := by
  refine ⟨?_, ?_, ?_, ?_, ?_, ?_⟩
  · exact ⟨List.nodup_nil, by simp [NewGraph]⟩
  · simp [Graph.noSelfLoop, NewGraph]
  · simp [Graph.edges, NewGraph]
  · simp [Graph.edges, NewGraph]
  · simp [Graph.keys, NewGraph]
  · simp [Graph.edges, NewGraph]

theorem buildGraph_spec (rankW rankG : Int → Nat) (gt : GrantedTable) (w : Waiter)
    (hk : ∀ S ∈ w.map Prod.fst, ∀ lock ∈ (w.lookup S).getD [],
      (conflict_table.lookup lock.mode).isSome) :
    ∃ g n, buildGraph rankW rankG gt w = .ok g ∧ Built (g, n) (builderLabels rankW rankG gt w) := by
  obtain ⟨st, h1, b1⟩ := Built_foldlM_addWaiter rankG gt w (rangeOrder rankW (w.map Prod.fst))
    (NewGraph, 0) [] Built_init
    (fun S hS => hk S ((mem_rangeOrder rankW _ S).mp hS))
  refine ⟨st.1, st.2, ?_, ?_⟩
  · unfold buildGraph
    rw [h1]
  · simpa [builderLabels] using b1

/-! ## Association lists -/

theorem lookup_isSome_iff {κ ν : Type} [DecidableEq κ] (m : List (κ × ν)) (k : κ) :
    (m.lookup k).isSome ↔ k ∈ m.map Prod.fst := by
  induction m with
  | nil => simp
  | cons p m ih =>
    obtain ⟨a, v⟩ := p
    rw [List.lookup_cons]
    by_cases hk : k = a
    · subst hk; simp
    · have hb : (k == a) = false := by simpa using hk
      simp only [hb, List.map_cons, List.mem_cons, hk, false_or]
      exact ih

theorem lookup_map_replace {κ ν : Type} [DecidableEq κ] (m : List (κ × ν)) (k k' : κ) (v : ν)
    (h : (m.lookup k).isSome) :
    (m.map (fun p => if p.1 = k then (k, v) else p)).lookup k' =
      if k' = k then some v else m.lookup k' := by
  induction m with
  | nil => simp at h
  | cons p m ih =>
    obtain ⟨a, w⟩ := p
    by_cases ha : a = k
    · subst ha
      simp only [List.map_cons, if_true]
      rw [List.lookup_cons, List.lookup_cons]
      by_cases hk : k' = a
      · subst hk; simp
      · have hb : (k' == a) = false := by simpa using hk
        simp only [hb, hk, if_false]
        by_cases hm : (m.lookup a).isSome
        · simpa [hk] using ih hm
        · have hn : a ∉ m.map Prod.fst := fun hx => hm ((lookup_isSome_iff m a).mpr hx)
          have : m.map (fun p => if p.1 = a then (a, v) else p) = m := by
            conv_rhs => rw [← List.map_id m]
            apply List.map_congr_left
            intro q hq
            have : q.1 ≠ a := fun hqa => hn (hqa ▸ List.mem_map_of_mem Prod.fst hq)
            simp [this]
          rw [this]
    · have hm : (m.lookup k).isSome := by
        rw [List.lookup_cons] at h
        have hb : (k == a) = false := by simpa using Ne.symm ha
        simpa [hb] using h
      simp only [List.map_cons, ha, if_false]
      rw [List.lookup_cons, List.lookup_cons, ih hm]
      by_cases hk : k' = a
      · subst hk; simp [ha]
      · have hb : (k' == a) = false := by simpa using hk
        simp [hb]

theorem lookup_assocSet {κ ν : Type} [DecidableEq κ] (m : List (κ × ν)) (k k' : κ) (v : ν) :
    (assocSet m k v).lookup k' = if k' = k then some v else m.lookup k' := by
  unfold assocSet
  by_cases h : (m.lookup k).isSome
  · rw [if_pos h]
    exact lookup_map_replace m k k' v h
  · rw [if_neg h, List.lookup_append]
    have hn : m.lookup k = none := Option.not_isSome_iff_eq_none.mp h
    by_cases hk : k' = k
    · subst hk
      simp [hn]
    · have hb : (k' == k) = false := by simpa using hk
      simp [hk, List.lookup_cons, hb]

theorem keys_assocSet {κ ν : Type} [DecidableEq κ] (m : List (κ × ν)) (k : κ) (v : ν) :
    (assocSet m k v).map Prod.fst =
      if k ∈ m.map Prod.fst then m.map Prod.fst else m.map Prod.fst ++ [k] := by
  unfold assocSet
  by_cases h : (m.lookup k).isSome
  · rw [if_pos h, if_pos ((lookup_isSome_iff m k).mp h), List.map_map]
    apply List.map_congr_left
    intro p _
    by_cases hp : p.1 = k <;> simp [hp]
  · rw [if_neg h, if_neg (fun hx => h ((lookup_isSome_iff m k).mpr hx))]
    simp

theorem nodup_keys_assocSet {κ ν : Type} [DecidableEq κ] (m : List (κ × ν)) (k : κ) (v : ν)
    (h : (m.map Prod.fst).Nodup) : ((assocSet m k v).map Prod.fst).Nodup := by
  rw [keys_assocSet]
  split
  · exact h
  · next hn =>
    rw [List.nodup_append]
    refine ⟨h, List.nodup_singleton _, ?_⟩
    intro a ha hb
    rw [List.mem_singleton] at hb
    subst hb
    exact hn ha

theorem mem_keys_assocSet {κ ν : Type} [DecidableEq κ] (m : List (κ × ν)) (k k' : κ) (v : ν) :
    k' ∈ (assocSet m k v).map Prod.fst ↔ k' ∈ m.map Prod.fst ∨ k' = k := by
  rw [keys_assocSet]
  split
  · next h =>
    constructor
    · exact Or.inl
    · rintro (hx | rfl)
      · exact hx
      · exact h
  · simp

/-! ## The partition loop -/

theorem holders_grantedInsert (t : GrantedTable) (obj obj' : LockableObject)
    (mode mode' : String) (s : Int) :
    holders (grantedInsert t obj mode s) obj' mode' =
      if obj' = obj ∧ mode' = mode then
        (if s ∈ holders t obj mode then holders t obj mode else holders t obj mode ++ [s])
      else holders t obj' mode' := by
  have ht1 : ∀ o, ((if (t.lookup obj).isSome then t else assocSet t obj []).lookup o).getD [] =
      (t.lookup o).getD [] := by
    intro o
    by_cases h : (t.lookup obj).isSome
    · rw [if_pos h]
    · rw [if_neg h, lookup_assocSet]
      by_cases ho : o = obj
      · subst ho
        have : t.lookup o = none := Option.not_isSome_iff_eq_none.mp h
        simp [this]
      · simp [ho]
  have hm1 : ∀ (m : List (String × List Int)) md,
      ((if (m.lookup mode).isSome then m else assocSet m mode []).lookup md).getD [] =
        (m.lookup md).getD [] := by
    intro m md
    by_cases h : (m.lookup mode).isSome
    · rw [if_pos h]
    · rw [if_neg h, lookup_assocSet]
      by_cases ho : md = mode
      · subst ho
        have : m.lookup md = none := Option.not_isSome_iff_eq_none.mp h
        simp [this]
      · simp [ho]
  unfold holders grantedInsert
  simp only
  rw [lookup_assocSet]
  by_cases ho : obj' = obj
  · subst ho
    simp only [if_true, true_and, Option.getD_some]
    rw [lookup_assocSet]
    by_cases hmd : mode' = mode
    · subst hmd
      simp only [if_true, Option.getD_some]
      rw [hm1, ht1]
    · simp only [hmd, if_false]
      rw [hm1, ht1]
  · simp only [ho, if_false, false_and]
    rw [ht1]

theorem mem_holders_grantedInsert (t : GrantedTable) (obj obj' : LockableObject)
    (mode mode' : String) (s s' : Int) :
    s' ∈ holders (grantedInsert t obj mode s) obj' mode' ↔
      s' ∈ holders t obj' mode' ∨ (obj' = obj ∧ mode' = mode ∧ s' = s) := by
  rw [holders_grantedInsert]
  by_cases h : obj' = obj ∧ mode' = mode
  · obtain ⟨rfl, rfl⟩ := h
    simp only [and_self, if_true, true_and]
    split
    · next hs =>
      constructor
      · exact Or.inl
      · rintro (hx | rfl)
        · exact hx
        · exact hs
    · simp
  · rw [if_neg h]
    constructor
    · exact Or.inl
    · rintro (hx | ⟨h1, h2, _⟩)
      · exact hx
      · exact absurd ⟨h1, h2⟩ h

theorem nodup_holders_grantedInsert (t : GrantedTable) (obj obj' : LockableObject)
    (mode mode' : String) (s : Int) (h : ∀ o m, (holders t o m).Nodup) :
    (holders (grantedInsert t obj mode s) obj' mode').Nodup := by
  rw [holders_grantedInsert]
  split
  · split
    · exact h _ _
    · next hn =>
      rw [List.nodup_append]
      refine ⟨h _ _, List.nodup_singleton _, ?_⟩
      intro a ha hb
      rw [List.mem_singleton] at hb
      subst hb
      exact hn ha
  · exact h _ _

theorem lookup_waiterAppend (w : Waiter) (s s' : Int) (lock : Lock) :
    ((waiterAppend w s lock).lookup s').getD [] =
      if s' = s then (w.lookup s).getD [] ++ [lock] else (w.lookup s').getD [] := by
  unfold waiterAppend
  rw [lookup_assocSet]
  by_cases h : s' = s <;> simp [h]

theorem waitingLocks_append (rows : List Row) (r : Row) (s : Int) :
    waitingLocks (rows ++ [r]) s = waitingLocks rows s ++ waitingLocks [r] s := by
  simp [waitingLocks, List.filterMap_append]

theorem Partitioned_nil : Partitioned [] ([], []) := by
  refine ⟨?_, ?_, ?_, ?_, ?_⟩
  · intro obj mode s
    simp [holders]
  · intro obj mode
    simp [holders]
  · simp
  · intro s
    simp [waitingLocks]
  · intro s
    simp [waitingLocks]

theorem Partitioned_scanRow (rows : List Row) (st : GrantedTable × Waiter) (r : Row)
    (h : Partitioned rows st) (hc : r.complete) :
    ∃ st', scanRow st r = .ok st' ∧ Partitioned (rows ++ [r]) st' := by
  obtain ⟨robj, rmode, rgranted, rsess⟩ := r
  obtain ⟨h1, h2, h3⟩ := hc
  simp only at h1 h2 h3
  obtain ⟨mode, rfl⟩ := Option.isSome_iff_exists.mp h1
  obtain ⟨granted, rfl⟩ := Option.isSome_iff_exists.mp h2
  obtain ⟨sess, rfl⟩ := Option.isSome_iff_exists.mp h3
  obtain ⟨p1, p2, p3, p4, p5⟩ := h
  cases granted with
  | true =>
    refine ⟨(grantedInsert st.1 robj mode sess, st.2), by simp [scanRow], ?_, ?_, p3, ?_, ?_⟩
    · intro obj md s
      rw [mem_holders_grantedInsert, p1]
      simp only [List.mem_append, List.mem_singleton]
      constructor
      · rintro (⟨r, hr, hx⟩ | ⟨rfl, rfl, rfl⟩)
        · exact ⟨r, Or.inl hr, hx⟩
        · exact ⟨_, Or.inr rfl, rfl, rfl, rfl, rfl⟩
      · rintro ⟨r, hr | rfl, hx⟩
        · exact Or.inl ⟨r, hr, hx⟩
        · obtain ⟨_, ho, hm, hs⟩ := hx
          simp only [Option.some.injEq] at hm hs
          exact Or.inr ⟨ho.symm, hm.symm, hs.symm⟩
    · intro obj md
      exact nodup_holders_grantedInsert st.1 robj obj mode md sess p2
    · intro s
      rw [waitingLocks_append, p4]
      simp [waitingLocks]
    · intro s
      rw [waitingLocks_append, p5]
      simp [waitingLocks]
  | false =>
    refine ⟨(st.1, waiterAppend st.2 sess ⟨robj, mode⟩), by simp [scanRow], ?_, p2, ?_, ?_, ?_⟩
    · intro obj md s
      rw [p1]
      simp only [List.mem_append, List.mem_singleton]
      constructor
      · rintro ⟨r, hr, hx⟩
        exact ⟨r, Or.inl hr, hx⟩
      · rintro ⟨r, hr | rfl, hx⟩
        · exact ⟨r, hr, hx⟩
        · simp at hx
    · exact nodup_keys_assocSet _ _ _ p3
    · intro s
      rw [waitingLocks_append, lookup_waiterAppend, p4, p4]
      by_cases hs : s = sess
      · subst hs
        simp [waitingLocks]
      · have : ¬ sess = s := fun hx => hs hx.symm
        simp [waitingLocks, hs, this]
    · intro s
      rw [waitingLocks_append]
      unfold waiterAppend
      rw [mem_keys_assocSet, p5]
      by_cases hs : s = sess
      · subst hs
        simp [waitingLocks]
      · have : ¬ sess = s := fun hx => hs hx.symm
        simp [waitingLocks, hs, this]

theorem Partitioned_foldlM (rs rows : List Row) (st : GrantedTable × Waiter)
    (h : Partitioned rows st) (hc : ∀ r ∈ rs, r.complete) :
    ∃ st', rs.foldlM scanRow st = .ok st' ∧ Partitioned (rows ++ rs) st' := by
  induction rs generalizing rows st with
  | nil => exact ⟨st, rfl, by simpa using h⟩
  | cons r rs ih =>
    obtain ⟨st1, e1, q1⟩ := Partitioned_scanRow rows st r h (hc r (List.mem_cons_self _ _))
    obtain ⟨st2, e2, q2⟩ := ih (rows ++ [r]) st1 q1 (fun x hx => hc x (List.mem_cons_of_mem _ hx))
    refine ⟨st2, ?_, ?_⟩
    · rw [foldlM_cons_ok _ _ _ _ _ e1, e2]
    · simpa using q2

theorem partitionRows_spec (rows : List Row) (hc : ∀ r ∈ rows, r.complete) :
    ∃ st, partitionRows rows = .ok st ∧ Partitioned rows st := by
  obtain ⟨st, e, q⟩ := Partitioned_foldlM rows [] ([], []) Partitioned_nil hc
  exact ⟨st, e, by simpa using q⟩

/-! ## The graph the builder makes of a snapshot -/

theorem flatMap_congr_mem {α β : Type} (l : List α) (f g : α → List β)
    (h : ∀ a ∈ l, f a = g a) : l.flatMap f = l.flatMap g := by
  induction l with
  | nil => rfl
  | cons a l ih =>
    simp only [List.flatMap_cons]
    rw [h a (List.mem_cons_self _ _), ih (fun x hx => h x (List.mem_cons_of_mem _ hx))]

theorem flatMap_single_perm {β : Type} (keys : List Int) (S0 : Int) (A : List β)
    (B : Int → List β) (hnd : keys.Nodup) (hm : S0 ∈ keys) :
    (keys.flatMap (fun S => (if S = S0 then A else []) ++ B S)).Perm (A ++ keys.flatMap B) := by
  induction keys with
  | nil => simp at hm
  | cons k ks ih =>
    rw [List.nodup_cons] at hnd
    simp only [List.flatMap_cons]
    by_cases hk : k = S0
    · subst hk
      have : ks.flatMap (fun S => (if S = k then A else []) ++ B S) = ks.flatMap B := by
        apply flatMap_congr_mem
        intro a ha
        have : a ≠ k := fun h => hnd.1 (h ▸ ha)
        simp [this]
      rw [this]
      simp
    · have hm' : S0 ∈ ks := by
        rcases List.mem_cons.mp hm with h | h
        · exact absurd h.symm hk
        · exact h
      simp only [hk, if_false, List.nil_append]
      exact (List.Perm.append_left _ (ih hnd.2 hm')).trans (List.perm_append_comm_assoc _ _ _)

theorem waitingLocks_cons (r : Row) (rs : List Row) (s : Int) :
    waitingLocks (r :: rs) s = waitingLocks [r] s ++ waitingLocks rs s := by
  simp only [waitingLocks]
  rw [← List.filterMap_append]
  rfl

/-- Grouping the waiting rows by session does not change what they ask for. -/
theorem regroup_perm (G : Int → Lock → List Label) (keys : List Int) (hnd : keys.Nodup)
    (rs : List Row) (hk : ∀ s, waitingLocks rs s ≠ [] → s ∈ keys) :
    (keys.flatMap (fun S => (waitingLocks rs S).flatMap (G S))).Perm
      (rs.flatMap (fun r =>
        match r.granted, r.mode, r.mppsessionid with
        | some false, some M, some S => G S ⟨r.obj, M⟩
        | _, _, _ => [])) := by
  induction rs with
  | nil => simp [waitingLocks]
  | cons r rs ih =>
    have hk' : ∀ s, waitingLocks rs s ≠ [] → s ∈ keys := by
      intro s hs
      apply hk s
      rw [waitingLocks_cons]
      intro h
      exact hs (List.append_eq_nil.mp h).2
    have ih' := ih hk'
    rw [List.flatMap_cons]
    obtain ⟨robj, rmode, rgranted, rsess⟩ := r
    have hskip : (∀ s, waitingLocks [⟨robj, rmode, rgranted, rsess⟩] s = []) →
        (keys.flatMap (fun S =>
          (waitingLocks (⟨robj, rmode, rgranted, rsess⟩ :: rs) S).flatMap (G S))).Perm
          (rs.flatMap (fun r =>
            match r.granted, r.mode, r.mppsessionid with
            | some false, some M, some S => G S ⟨r.obj, M⟩
            | _, _, _ => [])) := by
      intro h0
      have : (fun S => (waitingLocks (⟨robj, rmode, rgranted, rsess⟩ :: rs) S).flatMap (G S)) =
          (fun S => (waitingLocks rs S).flatMap (G S)) := by
        funext S
        rw [waitingLocks_cons, h0]
        rfl
      rw [this]
      exact ih'
    cases rgranted with
    | none => simpa using hskip (by intro s; simp [waitingLocks])
    | some gr =>
      cases gr with
      | true => simpa using hskip (by intro s; simp [waitingLocks])
      | false =>
        cases rmode with
        | none =>
          cases rsess with
          | none => simpa using hskip (by intro s; simp [waitingLocks])
          | some S0 => simpa using hskip (by intro s; simp [waitingLocks])
        | some M =>
          cases rsess with
          | none => simpa using hskip (by intro s; simp [waitingLocks])
          | some S0 =>
            simp only
            have hS0 : S0 ∈ keys := by
              apply hk S0
              simp [waitingLocks]
            have : (fun S => (waitingLocks (⟨robj, some M, some false, some S0⟩ :: rs) S).flatMap
                (G S)) = (fun S => (if S = S0 then G S0 ⟨robj, M⟩ else []) ++
                  (waitingLocks rs S).flatMap (G S)) := by
              funext S
              rw [waitingLocks_cons]
              by_cases hS : S = S0
              · subst hS
                simp [waitingLocks]
              · have : ¬ S0 = S := fun h => hS h.symm
                simp [waitingLocks, hS, this]
            rw [this]
            exact (flatMap_single_perm keys S0 _ _ hnd hS0).trans (List.Perm.append_left _ ih')

theorem mem_grantedSessions (rows : List Row) (obj : LockableObject) (mode : String) (s : Int) :
    s ∈ grantedSessions rows obj mode ↔
      ∃ r ∈ rows, r.granted = some true ∧ r.obj = obj ∧ r.mode = some mode ∧
        r.mppsessionid = some s := by
  unfold grantedSessions
  rw [List.mem_dedup, List.mem_filterMap]
  constructor
  · rintro ⟨r, hr, h⟩
    split at h
    · next hc => exact ⟨r, hr, hc.1, hc.2.1, hc.2.2, h⟩
    · exact absurd h (by simp)
  · rintro ⟨r, hr, h1, h2, h3, h4⟩
    exact ⟨r, hr, by rw [if_pos ⟨h1, h2, h3⟩]; exact h4⟩

theorem holderLabels_perm (S : Int) (lock : Lock) (cm : String) (hs1 hs2 : List Int)
    (h : hs1.Perm hs2) : (holderLabels S lock cm hs1).Perm (holderLabels S lock cm hs2) := by
  unfold holderLabels
  exact (h.filter _).map _

theorem lockLabels_perm (rankG : Int → Nat) (rows : List Row) (st : GrantedTable × Waiter)
    (hp : Partitioned rows st) (S : Int) (lock : Lock) :
    (lockLabels rankG st.1 S lock).Perm
      ((conflictModes lock.mode).flatMap (fun CM =>
        ((grantedSessions rows lock.obj CM).filter (fun T => T ≠ S)).map
          (fun T => (S, T, lock.mode, CM, lock.obj)))) := by
  unfold lockLabels
  apply List.Perm.flatMap_left
  intro cm _
  apply holderLabels_perm
  refine (List.perm_insertionSort _ _).trans ?_
  have hnd : (grantedSessions rows lock.obj cm).Nodup := by
    unfold grantedSessions
    exact List.nodup_dedup _
  apply (List.perm_ext_iff_of_nodup (hp.2.1 _ _) hnd).mpr
  intro s
  rw [hp.1, mem_grantedSessions]

theorem builderLabels_perm (rankW rankG : Int → Nat) (rows : List Row)
    (st : GrantedTable × Waiter) (hp : Partitioned rows st) :
    (builderLabels rankW rankG st.1 st.2).Perm (expectedEdges rows) := by
  unfold builderLabels expectedEdges
  refine (List.Perm.flatMap_right _ (List.perm_insertionSort _ _)).trans ?_
  have h1 : (st.2.map Prod.fst).flatMap (waiterLabels rankG st.1 st.2) =
      (st.2.map Prod.fst).flatMap (fun S =>
        (waitingLocks rows S).flatMap (lockLabels rankG st.1 S)) := by
    apply flatMap_congr_mem
    intro S _
    unfold waiterLabels
    rw [hp.2.2.2.1]
  rw [h1]
  refine (List.Perm.flatMap_left _ (fun S _ => List.Perm.flatMap_left _
    (fun lock _ => lockLabels_perm rankG rows st hp S lock))).trans ?_
  exact regroup_perm _ _ hp.2.2.1 rows (fun s hs => (hp.2.2.2.2 s).mpr hs)

theorem mem_waitingLocks (rows : List Row) (s : Int) (lock : Lock)
    (h : lock ∈ waitingLocks rows s) :
    ∃ r ∈ rows, r.granted = some false ∧ r.mppsessionid = some s ∧ r.mode = some lock.mode ∧
      r.obj = lock.obj := by
  unfold waitingLocks at h
  obtain ⟨r, hr, hx⟩ := List.mem_filterMap.mp h
  split at hx
  · next hc =>
    cases hm : r.mode with
    | none => rw [hm] at hx; simp at hx
    | some m =>
      rw [hm] at hx
      simp only [Option.map_some', Option.some.injEq] at hx
      subst hx
      exact ⟨r, hr, hc.1, hc.2, hm, rfl⟩
  · exact absurd hx (by simp)

theorem graphOfRows_spec (rankW rankG : Int → Nat) (rows : List Row)
    (hc : ∀ r ∈ rows, r.complete) (hk : ∀ r ∈ rows, r.waiting → r.modeKnown) :
    ∃ g n, graphOfRows rankW rankG rows = .ok g ∧ Built (g, n) (expectedEdges rows) := by
  obtain ⟨st, e1, hp⟩ := partitionRows_spec rows hc
  have hknown : ∀ S ∈ st.2.map Prod.fst, ∀ lock ∈ (st.2.lookup S).getD [],
      (conflict_table.lookup lock.mode).isSome := by
    intro S _ lock hl
    rw [hp.2.2.2.1] at hl
    obtain ⟨r, hr, h1, _, h3, _⟩ := mem_waitingLocks rows S lock hl
    have hx := hk r hr h1
    unfold Row.modeKnown at hx
    rw [h3] at hx
    exact hx
  obtain ⟨g, n, e2, hb⟩ := buildGraph_spec rankW rankG st.1 st.2 hknown
  refine ⟨g, n, ?_, ?_⟩
  · unfold graphOfRows
    rw [e1]
    exact e2
  · obtain ⟨b1, b2, b3, b4, b5, b6⟩ := hb
    exact ⟨b1, b2, b3, b4.trans (builderLabels_perm rankW rankG rows st hp), b5, b6⟩

/-! ## When the partition loop and the builder fail -/

theorem scanRow_ok_complete (st st' : GrantedTable × Waiter) (r : Row)
    (h : scanRow st r = .ok st') : r.complete := by
  obtain ⟨robj, rmode, rgranted, rsess⟩ := r
  unfold scanRow at h
  cases rgranted with
  | none => simp at h
  | some gr =>
    cases rmode with
    | none => simp at h
    | some m =>
      cases rsess with
      | none => simp at h
      | some s => simp [Row.complete]

theorem foldlM_scanRow_ok_complete (rs : List Row) (st st' : GrantedTable × Waiter)
    (h : rs.foldlM scanRow st = .ok st') : ∀ r ∈ rs, r.complete := by
  induction rs generalizing st with
  | nil => simp
  | cons r rs ih =>
    cases h1 : scanRow st r with
    | error f =>
      rw [foldlM_cons_error _ _ _ _ _ h1] at h
      cases h
    | ok st1 =>
      rw [foldlM_cons_ok _ _ _ _ _ h1] at h
      intro x hx
      rcases List.mem_cons.mp hx with rfl | hx
      · exact scanRow_ok_complete st st1 x h1
      · exact ih st1 h x hx

theorem foldlM_addLock_cases (rankG : Int → Nat) (gt : GrantedTable) (S : Int)
    (locks : List Lock) (st : Graph × Nat) :
    (∃ st', locks.foldlM (addLock rankG gt S) st = .ok st' ∧
      ∀ lock ∈ locks, (conflict_table.lookup lock.mode).isSome) ∨
    (∃ lock ∈ locks, conflict_table.lookup lock.mode = none ∧
      locks.foldlM (addLock rankG gt S) st = .error (.no_conflict_modes lock.mode)) := by
  induction locks generalizing st with
  | nil => exact Or.inl ⟨st, rfl, by simp⟩
  | cons lock locks ih =>
    cases hl : conflict_table.lookup lock.mode with
    | none =>
      refine Or.inr ⟨lock, List.mem_cons_self _ _, hl, ?_⟩
      apply foldlM_cons_error
      unfold addLock
      rw [hl]
    | some cms =>
      have h1 : addLock rankG gt S st lock =
          .ok (cms.foldl (addConflictMode rankG gt S lock) st) := by
        unfold addLock
        rw [hl]
      rw [foldlM_cons_ok _ _ _ _ _ h1]
      rcases ih (cms.foldl (addConflictMode rankG gt S lock) st) with ⟨st', e, hk⟩ | ⟨l, hm, hn, e⟩
      · refine Or.inl ⟨st', e, ?_⟩
        intro x hx
        rcases List.mem_cons.mp hx with rfl | hx
        · rw [hl]; rfl
        · exact hk x hx
      · exact Or.inr ⟨l, List.mem_cons_of_mem _ hm, hn, e⟩

theorem foldlM_addWaiter_cases (rankG : Int → Nat) (gt : GrantedTable) (w : Waiter)
    (ss : List Int) (st : Graph × Nat) :
    (∃ st', ss.foldlM (addWaiter rankG gt w) st = .ok st' ∧
      ∀ S ∈ ss, ∀ lock ∈ (w.lookup S).getD [], (conflict_table.lookup lock.mode).isSome) ∨
    (∃ S ∈ ss, ∃ lock ∈ (w.lookup S).getD [], conflict_table.lookup lock.mode = none ∧
      ss.foldlM (addWaiter rankG gt w) st = .error (.no_conflict_modes lock.mode)) := by
  induction ss generalizing st with
  | nil => exact Or.inl ⟨st, rfl, by simp⟩
  | cons S ss ih =>
    rcases foldlM_addLock_cases rankG gt S ((w.lookup S).getD []) st with
      ⟨st1, e1, hk1⟩ | ⟨l, hm, hn, e1⟩
    · have h1 : addWaiter rankG gt w st S = .ok st1 := by
        unfold addWaiter
        exact e1
      rw [foldlM_cons_ok _ _ _ _ _ h1]
      rcases ih st1 with ⟨st', e, hk⟩ | ⟨S', hS', l, hm, hn, e⟩
      · refine Or.inl ⟨st', e, ?_⟩
        intro x hx
        rcases List.mem_cons.mp hx with rfl | hx
        · exact hk1
        · exact hk x hx
      · exact Or.inr ⟨S', List.mem_cons_of_mem _ hS', l, hm, hn, e⟩
    · refine Or.inr ⟨S, List.mem_cons_self _ _, l, hm, hn, ?_⟩
      apply foldlM_cons_error
      unfold addWaiter
      exact e1

theorem buildGraph_cases (rankW rankG : Int → Nat) (gt : GrantedTable) (w : Waiter) :
    (∃ g, buildGraph rankW rankG gt w = .ok g ∧
      ∀ S ∈ w.map Prod.fst, ∀ lock ∈ (w.lookup S).getD [],
        (conflict_table.lookup lock.mode).isSome) ∨
    (∃ S ∈ w.map Prod.fst, ∃ lock ∈ (w.lookup S).getD [], conflict_table.lookup lock.mode = none ∧
      buildGraph rankW rankG gt w = .error (.no_conflict_modes lock.mode)) := by
  unfold buildGraph
  rcases foldlM_addWaiter_cases rankG gt w (rangeOrder rankW (w.map Prod.fst)) (NewGraph, 0) with
    ⟨st', e, hk⟩ | ⟨S, hS, l, hm, hn, e⟩
  · refine Or.inl ⟨st'.1, by rw [e], ?_⟩
    intro S hS
    exact hk S ((mem_rangeOrder rankW _ S).mpr hS)
  · exact Or.inr ⟨S, (mem_rangeOrder rankW _ S).mp hS, l, hm, hn, by rw [e]⟩

/-- A graph the builder returns is in the state `Built`. -/
theorem graphOfRows_ok_Built (rankW rankG : Int → Nat) (rows : List Row) (g : Graph)
    (h : graphOfRows rankW rankG rows = .ok g) : ∃ n, Built (g, n) (expectedEdges rows) := by
  unfold graphOfRows at h
  cases hp : partitionRows rows with
  | error f => rw [hp] at h; cases h
  | ok st =>
    rw [hp] at h
    simp only at h
    have hc := foldlM_scanRow_ok_complete rows ([], []) st hp
    obtain ⟨st2, e2, hP⟩ := partitionRows_spec rows hc
    rw [hp] at e2
    cases e2
    rcases buildGraph_cases rankW rankG st.1 st.2 with ⟨g', e, hk⟩ | ⟨S, _, l, _, _, e⟩
    · obtain ⟨g'', n, e3, hb⟩ := buildGraph_spec rankW rankG st.1 st.2 hk
      rw [h] at e3
      cases e3
      obtain ⟨b1, b2, b3, b4, b5, b6⟩ := hb
      exact ⟨n, b1, b2, b3, b4.trans (builderLabels_perm rankW rankG rows st hP), b5, b6⟩
    · rw [e] at h
      cases h

/-! ## Self-loops -/

theorem noSelfLoop_RemoveVert (g : Graph) (vert : Vertex) (h : g.noSelfLoop) :
    (g.RemoveVert vert).noSelfLoop := by
  rintro ⟨k, v'⟩ hp
  obtain ⟨_, v, hv, rfl⟩ := (mem_RemoveVert g vert k _).mp hp
  constructor
  · intro e he
    exact (h _ hv).1 e (List.diff_subset _ _ he)
  · intro e he
    exact (h _ hv).2 e (List.diff_subset _ _ he)

theorem noSelfLoop_foldl_reduceVisit (order : List Int) (st : Graph × Bool)
    (h : st.1.noSelfLoop) : (order.foldl reduceVisit st).1.noSelfLoop := by
  induction order generalizing st with
  | nil => exact h
  | cons s order ih =>
    apply ih
    unfold reduceVisit
    cases st.1.lookup s with
    | none => exact h
    | some vert =>
      simp only
      split
      · exact noSelfLoop_RemoveVert _ _ h
      · exact h

theorem noSelfLoop_reduceLoop (sched : Nat → Int → Nat) (fuel pass : Nat) (g g' : Graph)
    (h : g.noSelfLoop) (hr : reduceLoop sched fuel pass g = .ok g') : g'.noSelfLoop := by
  induction fuel generalizing pass g with
  | zero => unfold reduceLoop at hr; cases hr
  | succ fuel ih =>
    unfold reduceLoop at hr
    simp only at hr
    have hP : (reducePass (sched pass) g).1.noSelfLoop :=
      noSelfLoop_foldl_reduceVisit _ (g, false) h
    split at hr
    · exact ih _ _ hP hr
    · cases hr
      exact hP

theorem noSelfLoop_Derived (g g' : Graph) (h : g.noSelfLoop) (hd : g.Derived g') :
    g'.noSelfLoop := by
  induction hd with
  | start => exact h
  | removeVert vert _ ih => exact noSelfLoop_RemoveVert _ vert ih
  | reduce sched _ hr ih => exact noSelfLoop_reduceLoop sched _ 0 _ _ ih hr

/-! ## Claims about the builder -/

theorem assoc_lookup_mem {κ ν : Type} [DecidableEq κ] (m : List (κ × ν)) (k : κ) (v : ν)
    (h : m.lookup k = some v) : (k, v) ∈ m := by
  induction m with
  | nil => simp at h
  | cons p m ih =>
    obtain ⟨a, w⟩ := p
    rw [List.lookup_cons] at h
    by_cases hk : k = a
    · subst hk
      simp at h
      simp [h]
    · have hb : (k == a) = false := by simpa using hk
      simp only [hb] at h
      exact List.mem_cons_of_mem _ (ih h)

theorem conflictModes_nodup (m : String) : (conflictModes m).Nodup := by
  unfold conflictModes
  cases h : conflict_table.lookup m with
  | none => simp
  | some v =>
    have hall : ∀ p ∈ conflict_table, p.2.Nodup := by decide
    exact hall _ (assoc_lookup_mem conflict_table m v h)

/-- C8: for every snapshot in which all rows carry mode, granted flag and
session id and every waiting row has a mode listed in `conflict_table`, the
builder returns a well-formed graph whose edges, each with an address of its
own, carry exactly the labels the specification asks for, one edge for each
waiting row occurrence `(O, M, S)`, mode `CM` listed for `M` and session
`T ≠ S` with a granted row `(O, CM)`, parallel edges included, and whose
vertices are exactly the endpoints of its edges; no mode is listed twice for
`M` and no session twice for `(O, CM)`. -/
theorem graphOfRows_edges (rankW rankG : Int → Nat) (rows : List Row)
    (hc : ∀ r ∈ rows, r.complete) (hk : ∀ r ∈ rows, r.waiting → r.modeKnown) :
    ∃ g, graphOfRows rankW rankG rows = .ok g ∧ g.WF ∧
      (g.edges.map Edge.label).Perm (expectedEdges rows) ∧
      (g.edges.map Edge.id).Nodup ∧
      (∀ s, s ∈ g.keys ↔ ∃ e ∈ g.edges, e.from_ = s ∨ e.to_ = s) ∧
      (∀ M, (conflictModes M).Nodup) ∧ ∀ O CM, (grantedSessions rows O CM).Nodup := by
  obtain ⟨g, n, e, hwf, _, _, hlab, hend, hnd⟩ := graphOfRows_spec rankW rankG rows hc hk
  refine ⟨g, e, hwf, hlab, hnd, ?_, conflictModes_nodup, fun O CM => List.nodup_dedup _⟩
  intro s
  constructor
  · exact hend s
  · rintro ⟨x, hx, rfl | rfl⟩
    · exact hwf.hasE_from ((hasE_iff_mem_edges g x).mpr hx)
    · exact hwf.hasE_to ((hasE_iff_mem_edges g x).mpr hx)

theorem graphOfRows_edges_witness :
    (∀ r ∈ twoSessionRows, r.complete) ∧ (∀ r ∈ twoSessionRows, r.waiting → r.modeKnown) ∧
    ∃ g, graphOfRows (fun _ => 0) (fun _ => 0) twoSessionRows = .ok g ∧ g.WF ∧
      (g.edges.map Edge.label).Perm (expectedEdges twoSessionRows) ∧
      (g.edges.map Edge.id).Nodup ∧
      (∀ s, s ∈ g.keys ↔ ∃ e ∈ g.edges, e.from_ = s ∨ e.to_ = s) ∧
      (∀ M, (conflictModes M).Nodup) ∧ ∀ O CM, (grantedSessions twoSessionRows O CM).Nodup :=
  ⟨by decide, by decide,
    graphOfRows_edges (fun _ => 0) (fun _ => 0) twoSessionRows (by decide) (by decide)⟩

/-- C9: a graph the builder returns has no self-loop, in either adjacency
view of any vertex and so for every edge `e` of it `e.from_ ≠ e.to_`, and the
same holds of every graph that `RemoveVert` and `reduceGraph` make of it. -/
theorem graphOfRows_noSelfLoop (rankW rankG : Int → Nat) (rows : List Row) (g : Graph)
    (h : graphOfRows rankW rankG rows = .ok g) :
    (∀ e ∈ g.edges, e.from_ ≠ e.to_) ∧ ∀ g', g.Derived g' → g'.noSelfLoop ∧
      ∀ e ∈ g'.edges, e.from_ ≠ e.to_ := by
  obtain ⟨n, _, hns, _⟩ := graphOfRows_ok_Built rankW rankG rows g h
  have key : ∀ g1 : Graph, g1.noSelfLoop → ∀ e ∈ g1.edges, e.from_ ≠ e.to_ := by
    intro g1 h1 e he
    obtain ⟨p, hp, hep⟩ := (hasE_iff_mem_edges g1 e).mpr he
    exact (h1 p hp).2 e hep
  refine ⟨key g hns, ?_⟩
  intro g' hd
  have := noSelfLoop_Derived g g' hns hd
  exact ⟨this, key g' this⟩

theorem graphOfRows_noSelfLoop_witness :
    graphOfRows (fun _ => 0) (fun _ => 0) upgradeRows = .ok upgradeGraph ∧
    (∀ e ∈ upgradeGraph.edges, e.from_ ≠ e.to_) ∧ ∀ g', upgradeGraph.Derived g' →
      g'.noSelfLoop ∧ ∀ e ∈ g'.edges, e.from_ ≠ e.to_ :=
  ⟨rfl, graphOfRows_noSelfLoop (fun _ => 0) (fun _ => 0) upgradeRows upgradeGraph rfl⟩

/-- C10, refuted as stated: a snapshot whose only row is a granted row with
the mode `SIReadLock`, which has no entry in `conflict_table`, is analysed
without failure and reported as "No deadlock"; and a snapshot with a waiting
row of that mode and a row whose granted flag is NULL fails with "granted is
null", not with the unknown-mode failure. -/
theorem main_unknown_mode_not_reported :
    (∃ r ∈ unknownGrantedRows, ¬ r.modeKnown) ∧
    main (fun _ => 0) (fun _ => 0) (fun _ _ => 0) (fun _ _ _ => 0) unknownGrantedRows =
      .ok .no_deadlock ∧
    (∃ r ∈ unknownThenNullRows, ¬ r.modeKnown) ∧
    main (fun _ => 0) (fun _ => 0) (fun _ _ => 0) (fun _ _ _ => 0) unknownThenNullRows =
      .error .granted_is_null :=
  ⟨by decide, rfl, by decide, rfl⟩

/-- C10, amended: for every snapshot in which all rows carry mode, granted
flag and session id and some waiting row has a mode without an entry in
`conflict_table`, `main` stops with the failure "There isn't confilict modes
for `m`", where `m` is the mode of a waiting row and has no entry in
`conflict_table`; no graph, verdict or kill list is returned. -/
theorem main_unknown_waiting_mode (rankW rankG : Int → Nat) (sched : Nat → Int → Nat)
    (scheds : Nat → Nat → Int → Nat) (rows : List Row) (hc : ∀ r ∈ rows, r.complete)
    (hu : ∃ r ∈ rows, r.waiting ∧ ¬ r.modeKnown) :
    ∃ m, main rankW rankG sched scheds rows = .error (.no_conflict_modes m) ∧
      conflict_table.lookup m = none ∧ ∃ r ∈ rows, r.waiting ∧ r.mode = some m := by
  obtain ⟨st, e1, hP⟩ := partitionRows_spec rows hc
  obtain ⟨r, hr, hw, hn⟩ := hu
  obtain ⟨h1, _, h3⟩ := hc r hr
  obtain ⟨m, hm⟩ := Option.isSome_iff_exists.mp h1
  obtain ⟨s, hs⟩ := Option.isSome_iff_exists.mp h3
  have hlock : (⟨r.obj, m⟩ : Lock) ∈ waitingLocks rows s := by
    unfold waitingLocks
    rw [List.mem_filterMap]
    refine ⟨r, hr, ?_⟩
    rw [if_pos ⟨hw, hs⟩, hm]
    rfl
  have hnone : conflict_table.lookup m = none := by
    unfold Row.modeKnown at hn
    rw [hm] at hn
    exact Option.not_isSome_iff_eq_none.mp hn
  have hkey : s ∈ st.2.map Prod.fst := by
    rw [hP.2.2.2.2 s]
    exact List.ne_nil_of_mem hlock
  rcases buildGraph_cases rankW rankG st.1 st.2 with ⟨g, _, hk⟩ | ⟨S, _, l, hl, hln, e⟩
  · exfalso
    have := hk s hkey ⟨r.obj, m⟩ (by rw [hP.2.2.2.1]; exact hlock)
    simp only at this
    rw [hnone] at this
    exact Bool.noConfusion this
  · refine ⟨l.mode, ?_, hln, ?_⟩
    · unfold main graphOfRows
      rw [e1]
      simp only
      rw [e]
    · rw [hP.2.2.2.1] at hl
      obtain ⟨r', hr', g1, _, g3, _⟩ := mem_waitingLocks rows S l hl
      exact ⟨r', hr', g1, g3⟩

theorem main_unknown_waiting_mode_witness :
    (∀ r ∈ unknownWaitingRows, r.complete) ∧
    (∃ r ∈ unknownWaitingRows, r.waiting ∧ ¬ r.modeKnown) ∧
    ∃ m, main (fun _ => 0) (fun _ => 0) (fun _ _ => 0) (fun _ _ _ => 0) unknownWaitingRows =
        .error (.no_conflict_modes m) ∧
      conflict_table.lookup m = none ∧ ∃ r ∈ unknownWaitingRows, r.waiting ∧ r.mode = some m :=
  ⟨by decide, by decide,
    main_unknown_waiting_mode (fun _ => 0) (fun _ => 0) (fun _ _ => 0) (fun _ _ _ => 0)
      unknownWaitingRows (by decide) (by decide)⟩

/-! ## `GetMaxSessionIdVert` -/

theorem foldl_max_spec (l : List Int) (m0 : Int) :
    m0 ≤ l.foldl (fun m s => if s > m then s else m) m0 ∧
    (∀ k ∈ l, k ≤ l.foldl (fun m s => if s > m then s else m) m0) ∧
    (l.foldl (fun m s => if s > m then s else m) m0 = m0 ∨
      l.foldl (fun m s => if s > m then s else m) m0 ∈ l) := by
  induction l generalizing m0 with
  | nil => simp
  | cons a l ih =>
    rw [List.foldl_cons]
    obtain ⟨h1, h2, h3⟩ := ih (if a > m0 then a else m0)
    have hle : m0 ≤ (if a > m0 then a else m0) ∧ a ≤ (if a > m0 then a else m0) := by
      split <;> omega
    refine ⟨le_trans hle.1 h1, ?_, ?_⟩
    · intro k hk
      rcases List.mem_cons.mp hk with rfl | hk
      · exact le_trans hle.2 h1
      · exact h2 k hk
    · rcases h3 with h3 | h3
      · rw [h3]
        by_cases ha : a > m0
        · rw [if_pos ha]
          exact Or.inr (List.mem_cons_self _ _)
        · rw [if_neg ha]
          exact Or.inl rfl
      · exact Or.inr (List.mem_cons_of_mem _ h3)

/-- When some session id is not negative, `GetMaxSessionIdVert` returns the
vertex of the session map with the largest session id. -/
theorem GetMaxSessionIdVert_of_nonneg (g : Graph) (h : g.WF) (hpos : ∃ k ∈ g.keys, 0 ≤ k) :
    ∃ v, g.GetMaxSessionIdVert = some v ∧ (v.mppsessionid, v) ∈ g.session_map ∧
      ∀ k ∈ g.keys, k ≤ v.mppsessionid := by
  obtain ⟨h1, h2, h3⟩ := foldl_max_spec g.keys 0
  have hmem : g.keys.foldl (fun m s => if s > m then s else m) 0 ∈ g.keys := by
    rcases h3 with h3 | h3
    · obtain ⟨k, hk, hk0⟩ := hpos
      have := h2 k hk
      rw [h3] at this ⊢
      have : k = 0 := by omega
      rw [← this]
      exact hk
    · exact h3
  obtain ⟨v, hv⟩ := (mem_keys_iff_lookup g _).mp hmem
  have hm := lookup_mem g _ v hv
  have hid := h.sessionid hm
  refine ⟨v, hv, ?_, ?_⟩
  · rw [hid]; exact hm
  · rw [hid]; exact h2

/-- When every session id is negative, `GetMaxSessionIdVert` returns nil. -/
theorem GetMaxSessionIdVert_of_neg (g : Graph) (hneg : ∀ k ∈ g.keys, k < 0) :
    g.GetMaxSessionIdVert = none := by
  obtain ⟨_, _, h3⟩ := foldl_max_spec g.keys 0
  unfold Graph.GetMaxSessionIdVert
  simp only
  rw [lookup_eq_none_iff]
  intro hm
  rcases h3 with h3 | h3
  · rw [h3] at hm
    have := hneg 0 hm
    omega
  · have := hneg _ h3
    have := (foldl_max_spec g.keys 0).1
    omega

/-! ## The kill-set loop -/

theorem closed_of_no_keys (g : Graph) (hk : g.keys = []) (S : Int → Prop) (hS : g.closed S) :
    ∀ s, ¬ S s := by
  intro s hs
  obtain ⟨e, ⟨p, hp, _⟩, _⟩ := (hS s hs).1
  have := mem_keys_of_mem (show (p.1, p.2) ∈ g.session_map from hp)
  rw [hk] at this
  exact List.not_mem_nil _ this

theorem closed_RemoveVert {g : Graph} (h : g.WF) {s : Int} {vert : Vertex}
    (hs : (s, vert) ∈ g.session_map) (S : Int → Prop) (hS : g.closed S) (hn : ¬ S s) :
    (g.RemoveVert vert).closed S := by
  intro x hx
  obtain ⟨⟨e1, he1, hto, hS1⟩, ⟨e2, he2, hfrom, hS2⟩⟩ := hS x hx
  constructor
  · refine ⟨e1, (hasE_RemoveVert h hs e1).mpr ⟨he1, ?_, ?_⟩, hto, hS1⟩
    · rintro rfl; exact hn hS1
    · rw [hto]; rintro rfl; exact hn hx
  · refine ⟨e2, (hasE_RemoveVert h hs e2).mpr ⟨he2, ?_, ?_⟩, hfrom, hS2⟩
    · rw [hfrom]; rintro rfl; exact hn hx
    · rintro rfl; exact hn hS2

theorem Graph.Pruned.closed_mono {g0 g : Graph} (h : g0.Pruned g) (S : Int → Prop)
    (hS : g0.closed S) : g.closed S := by
  intro x hx
  obtain ⟨⟨e1, he1, hto, hS1⟩, ⟨e2, he2, hfrom, hS2⟩⟩ := hS x hx
  have hk := h.2.2.2 S hS
  constructor
  · exact ⟨e1, (h.2.2.1 e1).mpr ⟨he1, hk _ hS1, by rw [hto]; exact hk _ hx⟩, hto, hS1⟩
  · exact ⟨e2, (h.2.2.1 e2).mpr ⟨he2, by rw [hfrom]; exact hk _ hx, hk _ hS2⟩, hfrom, hS2⟩

theorem Empty_false_iff (g : Graph) : g.Empty = false ↔ g.keys ≠ [] := by
  have := Empty_iff_keys g
  constructor
  · intro h hk
    rw [this.mpr hk] at h
    exact Bool.noConfusion h
  · intro h
    cases he : g.Empty with
    | false => rfl
    | true => exact absurd (this.mp he) h

/-- The kill-set loop on a well-formed graph without negative session ids:
it returns, leaves the graph empty, appends at most one session id per vertex,
each the id of a vertex, in strictly decreasing order, and no set of sessions
blocking one another avoids all of them. -/
theorem killLoop_spec (scheds : Nat → Nat → Int → Nat) (fuel i : Nat) (g : Graph)
    (ids : List Int) (h : g.WF) (hpos : ∀ k ∈ g.keys, 0 ≤ k) (hf : g.keys.length ≤ fuel) :
    ∃ ids' g', killLoop scheds fuel i g ids = .ok (ids ++ ids', g') ∧ g'.Empty = true ∧
      ids'.length ≤ g.keys.length ∧ (∀ s ∈ ids', s ∈ g.keys) ∧
      ids'.Pairwise (fun a b => a > b) ∧
      ∀ S, g.closed S → (∀ s ∈ ids', ¬ S s) → ∀ s, ¬ S s := by
  induction fuel generalizing i g ids with
  | zero =>
    have hk : g.keys = [] := List.length_eq_zero.mp (Nat.le_zero.mp hf)
    have he := (Empty_iff_keys g).mpr hk
    refine ⟨[], g, ?_, he, by simp, by simp, List.Pairwise.nil, ?_⟩
    · unfold killLoop
      rw [if_pos he]
      simp
    · intro S hS _
      exact closed_of_no_keys g hk S hS
  | succ fuel ih =>
    cases he : g.Empty with
    | true =>
      have hk := (Empty_iff_keys g).mp he
      refine ⟨[], g, ?_, he, by simp, by simp, List.Pairwise.nil, ?_⟩
      · unfold killLoop
        rw [if_pos he]
        simp
      · intro S hS _
        exact closed_of_no_keys g hk S hS
    | false =>
      have hne := (Empty_false_iff g).mp he
      obtain ⟨k0, hk0⟩ := List.exists_mem_of_ne_nil _ hne
      obtain ⟨v, hv, hvm, hmax⟩ := GetMaxSessionIdVert_of_nonneg g h ⟨k0, hk0, hpos k0 hk0⟩
      have hwf1 := WF_RemoveVert h hvm
      obtain ⟨g1, hr, hP, _⟩ := reduceGraph_spec (scheds i) (g.RemoveVert v) hwf1
      have hsub : ∀ k, k ∈ g1.keys → k ∈ g.keys ∧ k ≠ v.mppsessionid := by
        intro k hk
        exact (Pruned_keys_RemoveVert h hvm k).mp (hP.2.1 k hk)
      have hlen : g1.keys.length < g.keys.length := by
        have h1 : g1.keys.length ≤ (g.RemoveVert v).keys.length := by
          apply List.Subperm.length_le
          exact List.subperm_of_subset hP.1.1 (fun k hk => hP.2.1 k hk)
        have h2 : (g.RemoveVert v).keys.length < g.keys.length := by
          rw [keys_RemoveVert]
          apply List.length_filter_lt_length_iff_exists.mpr
          exact ⟨v.mppsessionid, mem_keys_of_mem hvm, by simp⟩
        omega
      obtain ⟨ids1, g', e, hemp, hl, hmem, hsorted, hcl⟩ :=
        ih (i + 1) g1 (ids ++ [v.mppsessionid]) hP.1 (fun k hk => hpos k (hsub k hk).1)
          (by omega)
      refine ⟨v.mppsessionid :: ids1, g', ?_, hemp, ?_, ?_, ?_, ?_⟩
      · unfold killLoop
        rw [he]
        simp only [Bool.false_eq_true, if_false]
        rw [hv]
        simp only
        rw [hr]
        simp only
        rw [e]
        simp
      · simp only [List.length_cons]
        omega
      · intro s hs
        rcases List.mem_cons.mp hs with rfl | hs
        · exact mem_keys_of_mem hvm
        · exact (hsub s (hmem s hs)).1
      · rw [List.pairwise_cons]
        refine ⟨?_, hsorted⟩
        intro s hs
        have h1 := hsub s (hmem s hs)
        have h2 := hmax s h1.1
        have h3 := h1.2
        omega
      · intro S hS havoid
        have hnv : ¬ S v.mppsessionid := havoid _ (List.mem_cons_self _ _)
        have hc1 := closed_RemoveVert h hvm S hS hnv
        have hc2 := hP.closed_mono S hc1
        exact hcl S hc2 (fun s hs => havoid s (List.mem_cons_of_mem _ hs))

theorem killSet_spec (scheds : Nat → Nat → Int → Nat) (g : Graph) (h : g.WF)
    (hpos : ∀ k ∈ g.keys, 0 ≤ k) :
    ∃ ids g', killSet scheds g = .ok (ids, g') ∧ g'.Empty = true ∧
      ids.length ≤ g.keys.length ∧ (∀ s ∈ ids, s ∈ g.keys) ∧
      ids.Pairwise (fun a b => a > b) ∧
      ∀ S, g.closed S → (∀ s ∈ ids, ¬ S s) → ∀ s, ¬ S s := by
  obtain ⟨ids, g', e, r⟩ := killLoop_spec scheds g.session_map.length 0 g [] h hpos
    (by rw [keys_length])
  exact ⟨ids, g', by unfold killSet; simpa using e, r⟩

/-! ## Claims about the kill-set loop -/

theorem transGen_closed (g : Graph) (R : Int → Int → Prop) (hR : ∀ a b, R a b → g.step a b) :
    g.closed (fun x => Relation.TransGen R x x) := by
  intro s hs
  constructor
  · obtain ⟨b, hsb, hbs⟩ := Relation.TransGen.tail'_iff.mp hs
    obtain ⟨e, he, hfrom, hto⟩ := hR _ _ hbs
    refine ⟨e, he, hto, ?_⟩
    rw [hfrom]
    exact Relation.TransGen.head' hbs hsb
  · obtain ⟨b, hsb, hbs⟩ := Relation.TransGen.head'_iff.mp hs
    obtain ⟨e, he, hfrom, hto⟩ := hR _ _ hsb
    refine ⟨e, he, hfrom, ?_⟩
    rw [hto]
    exact Relation.TransGen.tail' hbs hsb

/-- On a well-formed wait-for graph without negative session ids, reduction
followed by the kill-set loop returns a list of at most as many session ids as
the reduced graph has vertices, strictly decreasing, all of them vertices of
the reduced graph, leaves the graph empty, and deleting the listed sessions
from the graph before reduction leaves no directed cycle. -/
theorem killSet_sufficient_of_nonneg (sched : Nat → Int → Nat) (scheds : Nat → Nat → Int → Nat)
    (g0 : Graph) (h : g0.WF) (hpos : ∀ k ∈ g0.keys, 0 ≤ k) :
    ∃ g ids g', reduceGraph sched g0 = .ok g ∧ killSet scheds g = .ok (ids, g') ∧
      g'.Empty = true ∧ ids.length ≤ g.keys.length ∧ (∀ s ∈ ids, s ∈ g.keys) ∧
      ids.Pairwise (fun a b => a > b) ∧ g0.acyclicWithout ids := by
  obtain ⟨g, hr, hP, _⟩ := reduceGraph_spec sched g0 h
  obtain ⟨ids, g', hk, hemp, hlen, hmem, hsorted, hcl⟩ :=
    killSet_spec scheds g hP.1 (fun k hk => hpos k (hP.2.1 k hk))
  refine ⟨g, ids, g', hr, hk, hemp, hlen, hmem, hsorted, ?_⟩
  intro s hs
  have hc0 := transGen_closed g0 (g0.stepAvoiding ids) (fun a b hab => hab.1)
  have hc := hP.closed_mono _ hc0
  refine hcl _ hc ?_ s hs
  intro x hx hcyc
  obtain ⟨b, hxb, _⟩ := Relation.TransGen.head'_iff.mp hcyc
  exact hxb.2.1 hx

theorem killSet_sufficient_of_nonneg_witness :
    bridge.WF ∧ (∀ k ∈ bridge.keys, 0 ≤ k) ∧
    ∃ g ids g', reduceGraph (fun _ _ => 0) bridge = .ok g ∧
      killSet (fun _ _ _ => 0) g = .ok (ids, g') ∧
      g'.Empty = true ∧ ids.length ≤ g.keys.length ∧ (∀ s ∈ ids, s ∈ g.keys) ∧
      ids.Pairwise (fun a b => a > b) ∧ bridge.acyclicWithout ids :=
  ⟨by decide, by decide,
    killSet_sufficient_of_nonneg (fun _ _ => 0) (fun _ _ _ => 0) bridge (by decide) (by decide)⟩

/-- C3, the code at the failing input: for the snapshot in which sessions -1
and -2 wait for each other, the builder returns the cycle -1 ⇄ -2 and `main`
stops with a nil dereference in the kill-set loop; no list of session ids is
produced. -/
theorem main_negPairRows_nil_dereference :
    graphOfRows (fun _ => 0) (fun _ => 0) negPairRows = .ok negPair ∧
    ¬ negPair.acyclic ∧
    main (fun _ => 0) (fun _ => 0) (fun _ _ => 0) (fun _ _ _ => 0) negPairRows =
      .error .nil_dereference := by
  refine ⟨rfl, ?_, rfl⟩
  intro h
  apply h (-1)
  have h1 : negPair.step (-1) (-2) :=
    ⟨waitEdge 0 (-1) (-2) 600, ⟨_, List.mem_cons_self _ _, List.mem_cons_self _ _⟩, rfl, rfl⟩
  have h2 : negPair.step (-2) (-1) :=
    ⟨waitEdge 1 (-2) (-1) 500,
      ⟨_, List.mem_cons_of_mem _ (List.mem_cons_self _ _), List.mem_cons_self _ _⟩, rfl, rfl⟩
  exact Relation.TransGen.tail (Relation.TransGen.single h1) h2

/-- C4, the code at the failing input: the graph -1 ⇄ -2 is well formed,
reduced and not empty, and the kill-set loop on it stops in its first
iteration with a nil dereference, whatever the step bound and the schedule;
it does not end with an empty graph. -/
theorem killLoop_negPair_nil_dereference :
    negPair.WF ∧ negPair.stable ∧ negPair.Empty = false ∧
    (∀ scheds, killSet scheds negPair = .error .nil_dereference) ∧
    ∀ scheds fuel i ids, killLoop scheds (fuel + 1) i negPair ids = .error .nil_dereference :=
  ⟨by decide, by decide, by decide, fun _ => rfl, fun _ _ _ _ => rfl⟩

/-- C5, the code at the failing input: the graph -1 ⇄ -2 is well formed and
not empty, its largest session id is -1, and `GetMaxSessionIdVert` returns
nil. -/
theorem GetMaxSessionIdVert_negPair_nil :
    negPair.WF ∧ negPair.Empty = false ∧ (∀ k ∈ negPair.keys, k ≤ -1) ∧ -1 ∈ negPair.keys ∧
    negPair.GetMaxSessionIdVert = none :=
  ⟨by decide, by decide, by decide, by decide, by decide⟩

/-! ## The reduced graph as an induced subgraph -/

theorem restrict_congr (g : Graph) (K K' : List Int) (h : ∀ k, k ∈ K ↔ k ∈ K') :
    g.restrict K = g.restrict K' := by
  have hdec : ∀ k : Int, decide (k ∈ K) = decide (k ∈ K') := by
    intro k
    exact decide_eq_decide.mpr (h k)
  unfold Graph.restrict
  have h1 : g.session_map.filter (fun p => decide (p.1 ∈ K)) =
      g.session_map.filter (fun p => decide (p.1 ∈ K')) :=
    List.filter_congr (fun p _ => hdec p.1)
  rw [h1]
  congr 1
  apply List.map_congr_left
  intro p _
  have h2 : restrictVert K p.2 = restrictVert K' p.2 := by
    unfold restrictVert
    have e1 : p.2.edges_in.filter (fun e => decide (e.from_ ∈ K)) =
        p.2.edges_in.filter (fun e => decide (e.from_ ∈ K')) :=
      List.filter_congr (fun e _ => hdec e.from_)
    have e2 : p.2.edges_out.filter (fun e => decide (e.to_ ∈ K)) =
        p.2.edges_out.filter (fun e => decide (e.to_ ∈ K')) :=
      List.filter_congr (fun e _ => hdec e.to_)
    rw [e1, e2]
  rw [h2]

theorem restrict_self (g : Graph) (h : g.WF) : g.restrict g.keys = g := by
  obtain ⟨l⟩ := g
  unfold Graph.restrict
  congr 1
  have h1 : l.filter (fun p => decide (p.1 ∈ (Graph.mk l).keys)) = l := by
    rw [List.filter_eq_self]
    intro p hp
    simpa using mem_keys_of_mem (g := Graph.mk l) (show (p.1, p.2) ∈ l from hp)
  show (List.filter (fun p => decide (p.1 ∈ (Graph.mk l).keys)) l).map _ = l
  rw [h1]
  conv_rhs => rw [← List.map_id l]
  apply List.map_congr_left
  rintro ⟨k, v⟩ hp
  show (k, restrictVert (Graph.mk l).keys v) = (k, v)
  congr 1
  unfold restrictVert
  have e1 : v.edges_in.filter (fun e => decide (e.from_ ∈ (Graph.mk l).keys)) = v.edges_in := by
    rw [List.filter_eq_self]
    intro e he
    obtain ⟨w, hw, _⟩ := h.in_out hp he
    simpa using mem_keys_of_mem hw
  have e2 : v.edges_out.filter (fun e => decide (e.to_ ∈ (Graph.mk l).keys)) = v.edges_out := by
    rw [List.filter_eq_self]
    intro e he
    obtain ⟨w, hw, _⟩ := h.out_in hp he
    simpa using mem_keys_of_mem hw
  rw [e1, e2]

theorem Induced_refl (g : Graph) (h : g.WF) : g.Induced g :=
  ⟨h, Pruned_refl h, (restrict_self g h).symm⟩

theorem stripVert_restrictVert {g : Graph} (hwf : g.WF) {s : Int}
    {vert : Vertex} (hs : (s, vert) ∈ g.session_map) {k : Int} {v0 : Vertex}
    (hv : (k, restrictVert g.keys v0) ∈ g.session_map) :
    stripVert vert k (restrictVert g.keys v0) = restrictVert (g.RemoveVert vert).keys v0 := by
  have hout := mem_strip_out hwf hs hv
  have hin := mem_strip_in hwf hs hv
  have hnd_out : (restrictVert g.keys v0).edges_out.Nodup := (hwf.2 _ hv).2.2.1
  have hnd_in : (restrictVert g.keys v0).edges_in.Nodup := (hwf.2 _ hv).2.1
  have hkeys : ∀ x, decide (x ∈ (g.RemoveVert vert).keys) = (decide (x ≠ s) && decide (x ∈ g.keys)) := by
    intro x
    rw [← Bool.decide_and, decide_eq_decide, Pruned_keys_RemoveVert hwf hs x, and_comm]
  have eo : (stripVert vert k (restrictVert g.keys v0)).edges_out =
      (restrictVert (g.RemoveVert vert).keys v0).edges_out := by
    show (restrictVert g.keys v0).edges_out.diff _ = _
    rw [List.Nodup.diff_eq_filter hnd_out]
    show List.filter _ (v0.edges_out.filter _) = v0.edges_out.filter _
    rw [List.filter_filter]
    apply List.filter_congr
    intro e he
    rw [hkeys]
    by_cases hK : e.to_ ∈ g.keys
    · have hmem : e ∈ (restrictVert g.keys v0).edges_out := by
        show e ∈ v0.edges_out.filter _
        exact List.mem_filter.mpr ⟨he, by simpa using hK⟩
      have h1 := hout e
      have h2 : e ∈ (stripVert vert k (restrictVert g.keys v0)).edges_out ↔
          e ∈ (restrictVert g.keys v0).edges_out ∧
            e ∉ vert.edges_in.filter (fun e => decide (k = e.from_)) :=
        List.Nodup.mem_diff_iff hnd_out
      have hiff : e ∉ vert.edges_in.filter (fun e => decide (k = e.from_)) ↔ e.to_ ≠ s :=
        ⟨fun hx => (h1.mp (h2.mpr ⟨hmem, hx⟩)).2, fun hx => (h2.mp (h1.mpr ⟨hmem, hx⟩)).2⟩
      have hd : decide (e ∉ vert.edges_in.filter (fun e => decide (k = e.from_))) =
          decide (e.to_ ≠ s) := decide_eq_decide.mpr hiff
      simp only [hd]
    · simp [hK]
  have ei : (stripVert vert k (restrictVert g.keys v0)).edges_in =
      (restrictVert (g.RemoveVert vert).keys v0).edges_in := by
    show (restrictVert g.keys v0).edges_in.diff _ = _
    rw [List.Nodup.diff_eq_filter hnd_in]
    show List.filter _ (v0.edges_in.filter _) = v0.edges_in.filter _
    rw [List.filter_filter]
    apply List.filter_congr
    intro e he
    rw [hkeys]
    by_cases hK : e.from_ ∈ g.keys
    · have hmem : e ∈ (restrictVert g.keys v0).edges_in := by
        show e ∈ v0.edges_in.filter _
        exact List.mem_filter.mpr ⟨he, by simpa using hK⟩
      have h1 := hin e
      have h2 : e ∈ (stripVert vert k (restrictVert g.keys v0)).edges_in ↔
          e ∈ (restrictVert g.keys v0).edges_in ∧
            e ∉ vert.edges_out.filter (fun e => decide (k = e.to_)) :=
        List.Nodup.mem_diff_iff hnd_in
      have hiff : e ∉ vert.edges_out.filter (fun e => decide (k = e.to_)) ↔ e.from_ ≠ s :=
        ⟨fun hx => (h1.mp (h2.mpr ⟨hmem, hx⟩)).2, fun hx => (h2.mp (h1.mpr ⟨hmem, hx⟩)).2⟩
      have hd : decide (e ∉ vert.edges_out.filter (fun e => decide (k = e.to_))) =
          decide (e.from_ ≠ s) := decide_eq_decide.mpr hiff
      simp only [hd]
    · simp [hK]
  have hid : (stripVert vert k (restrictVert g.keys v0)).id =
      (restrictVert (g.RemoveVert vert).keys v0).id := rfl
  have hmp : (stripVert vert k (restrictVert g.keys v0)).mppsessionid =
      (restrictVert (g.RemoveVert vert).keys v0).mppsessionid := rfl
  cases hx : stripVert vert k (restrictVert g.keys v0)
  cases hy : restrictVert (g.RemoveVert vert).keys v0
  rw [hx, hy] at eo ei hid hmp
  simp only at eo ei hid hmp
  rw [eo, ei, hid, hmp]

theorem Induced_RemoveVert {g0 g : Graph} (h : g0.Induced g) {s : Int} {vert : Vertex}
    (hs : (s, vert) ∈ g.session_map)
    (hdeg : vert.edges_in.length ≤ 0 ∨ vert.edges_out.length ≤ 0) :
    g0.Induced (g.RemoveVert vert) := by
  obtain ⟨h0, hP, hR⟩ := h
  refine ⟨h0, Pruned_RemoveVert hP hs hdeg, ?_⟩
  have hwf := hP.1
  have hsid : vert.mppsessionid = s := hwf.sessionid hs
  have hsm : g.session_map =
      (g0.session_map.filter (fun p => decide (p.1 ∈ g.keys))).map
        (fun p => (p.1, restrictVert g.keys p.2)) := congrArg Graph.session_map hR
  have hkeys : ∀ x, decide (x ∈ (g.RemoveVert vert).keys) =
      (decide (x ≠ s) && decide (x ∈ g.keys)) := by
    intro x
    rw [← Bool.decide_and, decide_eq_decide, Pruned_keys_RemoveVert hwf hs x, and_comm]
  have hfilter : (g0.session_map.filter (fun p => decide (p.1 ∈ g.keys))).filter
      (fun p => p.1 != vert.mppsessionid) =
      g0.session_map.filter (fun p => decide (p.1 ∈ (g.RemoveVert vert).keys)) := by
    rw [List.filter_filter]
    apply List.filter_congr
    intro p _
    rw [hkeys, hsid]
    by_cases hp : p.1 = s <;> simp [hp]
  have hlhs : g.RemoveVert vert =
      ⟨((g0.session_map.filter (fun p => decide (p.1 ∈ g.keys))).filter
        (fun p => p.1 != vert.mppsessionid)).map
        (fun p => (p.1, stripVert vert p.1 (restrictVert g.keys p.2)))⟩ := by
    rw [RemoveVert_eq]
    congr 1
    conv_lhs => rw [hsm]
    rw [List.filter_map, List.map_map]
    rfl
  refine hlhs.trans ?_
  unfold Graph.restrict
  congr 1
  rw [hfilter]
  apply List.map_congr_left
  intro p hp
  have hp' := List.mem_filter.mp hp
  have hpK : p.1 ∈ g.keys := by
    have := hp'.2
    rw [hkeys] at this
    simp only [Bool.and_eq_true, decide_eq_true_eq] at this
    exact this.2
  have hv : (p.1, restrictVert g.keys p.2) ∈ g.session_map := by
    rw [hsm]
    exact List.mem_map.mpr ⟨p, List.mem_filter.mpr ⟨hp'.1, by simpa using hpK⟩, rfl⟩
  rw [stripVert_restrictVert hwf hs hv]

/-! ## Invariants of `reduceGraph` -/

theorem reduceLoop_invariant (I : Graph → Prop)
    (hI : ∀ g s vert, I g → g.lookup s = some vert →
      (vert.edges_in.length ≤ 0 ∨ vert.edges_out.length ≤ 0) → I (g.RemoveVert vert))
    (sched : Nat → Int → Nat) (fuel pass : Nat) (g g' : Graph) (h : I g)
    (hr : reduceLoop sched fuel pass g = .ok g') : I g' := by
  have hvisit : ∀ (st : Graph × Bool) (s : Int), I st.1 → I (reduceVisit st s).1 := by
    intro st s hst
    unfold reduceVisit
    cases hl : st.1.lookup s with
    | none => exact hst
    | some vert =>
      simp only
      split
      · next hdeg => exact hI _ s vert hst hl hdeg
      · exact hst
  have hfold : ∀ (order : List Int) (st : Graph × Bool), I st.1 →
      I (order.foldl reduceVisit st).1 := by
    intro order
    induction order with
    | nil => intro st hst; exact hst
    | cons s order ih => intro st hst; exact ih _ (hvisit st s hst)
  induction fuel generalizing pass g with
  | zero => unfold reduceLoop at hr; cases hr
  | succ fuel ih =>
    unfold reduceLoop at hr
    simp only at hr
    have hP : I (reducePass (sched pass) g).1 := hfold _ (g, false) h
    split at hr
    · exact ih _ _ hP hr
    · cases hr
      exact hP

theorem reduceGraph_Induced (sched : Nat → Int → Nat) (g g' : Graph) (h : g.WF)
    (hr : reduceGraph sched g = .ok g') : g.Induced g' ∧ g'.stable := by
  obtain ⟨g1, e1, _, hst⟩ := reduceGraph_spec sched g h
  rw [hr] at e1
  cases e1
  refine ⟨?_, hst⟩
  apply reduceLoop_invariant (fun x => g.Induced x) _ sched _ 0 g g' (Induced_refl g h) hr
  intro x s vert hx hl hdeg
  exact Induced_RemoveVert hx (lookup_mem _ _ _ hl) hdeg

/-- The result of `reduceGraph` does not depend on the visiting orders. -/
theorem reduceGraph_order_irrelevant (sched sched' : Nat → Int → Nat) (g : Graph) (h : g.WF) :
    reduceGraph sched g = reduceGraph sched' g := by
  obtain ⟨g1, e1, _, _⟩ := reduceGraph_spec sched g h
  obtain ⟨g2, e2, _, _⟩ := reduceGraph_spec sched' g h
  obtain ⟨⟨_, hP1, hR1⟩, hs1⟩ := reduceGraph_Induced sched g g1 h e1
  obtain ⟨⟨_, hP2, hR2⟩, hs2⟩ := reduceGraph_Induced sched' g g2 h e2
  rw [e1, e2]
  congr 1
  rw [hR1, hR2]
  apply restrict_congr
  intro k
  rw [hP1.keys_iff hs1, hP2.keys_iff hs2]

/-! ## Visiting orders do not matter -/

theorem killLoop_sched_irrelevant (scheds scheds' : Nat → Nat → Int → Nat) (fuel i i' : Nat)
    (g : Graph) (ids : List Int) (h : g.WF) :
    killLoop scheds fuel i g ids = killLoop scheds' fuel i' g ids := by
  induction fuel generalizing i i' g ids with
  | zero => unfold killLoop; rfl
  | succ fuel ih =>
    unfold killLoop
    cases g.Empty with
    | true => rfl
    | false =>
      simp only [Bool.false_eq_true, if_false]
      cases hv : g.GetMaxSessionIdVert with
      | none => rfl
      | some v =>
        simp only
        have hm : ∃ k, (k, v) ∈ g.session_map := ⟨_, lookup_mem g _ v hv⟩
        obtain ⟨k, hk⟩ := hm
        have hwf := WF_RemoveVert h hk
        rw [reduceGraph_order_irrelevant (scheds i) (scheds' i') _ hwf]
        cases hr : reduceGraph (scheds' i') (g.RemoveVert v) with
        | error f => rfl
        | ok g1 =>
          simp only
          exact ih _ _ g1 _ (reduceGraph_Induced _ _ g1 hwf hr).1.2.1.1

theorem killSet_sched_irrelevant (scheds scheds' : Nat → Nat → Int → Nat) (g : Graph)
    (h : g.WF) : killSet scheds g = killSet scheds' g :=
  killLoop_sched_irrelevant scheds scheds' _ 0 0 g [] h

theorem rangeOrder_pair (rank : Int → Nat) (a b : Int) :
    rangeOrder rank [a, b] = [a, b] ∨ rangeOrder rank [a, b] = [b, a] := by
  unfold rangeOrder
  by_cases h : rank a ≤ rank b
  · left; simp [List.insertionSort, List.orderedInsert, h]
  · right; simp [List.insertionSort, List.orderedInsert, h]

/-- C19: for every well-formed wait-for graph there is one graph that
`reduceGraph` returns whatever order the vertices are visited in; it is the
subgraph induced by its vertices, every vertex of it has an incoming and an
outgoing edge, its vertices form a set of sessions blocking one another in the
input graph, and every such set is contained in it. -/
theorem reduceGraph_order_independent (g : Graph) (h : g.WF) :
    ∃ g', (∀ sched, reduceGraph sched g = .ok g') ∧
      (∀ k ∈ g'.keys, k ∈ g.keys) ∧
      (∀ e, g'.hasE e ↔ g.hasE e ∧ e.from_ ∈ g'.keys ∧ e.to_ ∈ g'.keys) ∧
      g' = g.restrict g'.keys ∧
      (∀ p ∈ g'.session_map, 1 ≤ p.2.edges_in.length ∧ 1 ≤ p.2.edges_out.length) ∧
      g.closed (fun s => s ∈ g'.keys) ∧
      ∀ S, g.closed S → ∀ s, S s → s ∈ g'.keys := by
  obtain ⟨g', hr, _, _⟩ := reduceGraph_spec (fun _ _ => 0) g h
  obtain ⟨⟨_, hP, hR⟩, hst⟩ := reduceGraph_Induced _ g g' h hr
  refine ⟨g', ?_, hP.2.1, hP.2.2.1, hR, hst, ?_, hP.2.2.2⟩
  · intro sched
    rw [reduceGraph_order_irrelevant sched (fun _ _ => 0) g h]
    exact hr
  · intro s hs
    obtain ⟨b, hb, e1, he1, hf1, ht1⟩ := stable_pred hP.1 hst s hs
    obtain ⟨c, hc, e2, he2, hf2, ht2⟩ := stable_succ hP.1 hst s hs
    refine ⟨⟨e1, ((hP.2.2.1 e1).mp he1).1, ht1, ?_⟩, ⟨e2, ((hP.2.2.1 e2).mp he2).1, hf2, ?_⟩⟩
    · show e1.from_ ∈ g'.keys
      rw [hf1]; exact hb
    · show e2.to_ ∈ g'.keys
      rw [ht2]; exact hc

theorem reduceGraph_order_independent_witness :
    bridge.WF ∧ ∃ g', (∀ sched, reduceGraph sched bridge = .ok g') ∧
      (∀ k ∈ g'.keys, k ∈ bridge.keys) ∧
      (∀ e, g'.hasE e ↔ bridge.hasE e ∧ e.from_ ∈ g'.keys ∧ e.to_ ∈ g'.keys) ∧
      g' = bridge.restrict g'.keys ∧
      (∀ p ∈ g'.session_map, 1 ≤ p.2.edges_in.length ∧ 1 ≤ p.2.edges_out.length) ∧
      bridge.closed (fun s => s ∈ g'.keys) ∧
      ∀ S, bridge.closed S → ∀ s, S s → s ∈ g'.keys :=
  ⟨by decide, reduceGraph_order_independent bridge (by decide)⟩

theorem graphOfRows_twoSessionRows (rankW rankG : Int → Nat) :
    graphOfRows rankW rankG twoSessionRows = .ok twoSessionGraphA ∨
    graphOfRows rankW rankG twoSessionRows = .ok twoSessionGraphB := by
  have hp : partitionRows twoSessionRows = .ok (twoSessionGranted, twoSessionWaiter) := rfl
  have hg : graphOfRows rankW rankG twoSessionRows =
      buildGraph rankW rankG twoSessionGranted twoSessionWaiter := by
    unfold graphOfRows
    rw [hp]
  have hk : twoSessionWaiter.map Prod.fst = [10, 20] := rfl
  rw [hg]
  unfold buildGraph
  rw [hk]
  rcases rangeOrder_pair rankW 10 20 with ho | ho
  · left; rw [ho]; rfl
  · right; rw [ho]; rfl

/-- C14: for the four-row snapshot of scenario B, whatever the iteration
orders, the builder returns a graph with exactly the two edges 20 → 10 and
10 → 20, `reduceGraph` returns that graph unchanged, the kill-set loop returns
exactly the list `[20]` and the empty graph, and `main` reports a deadlock
with the kill list `["20"]`. -/
theorem main_twoSessionRows (rankW rankG : Int → Nat) (sched : Nat → Int → Nat)
    (scheds : Nat → Nat → Int → Nat) :
    ∃ g, graphOfRows rankW rankG twoSessionRows = .ok g ∧
      (g.edges.map Edge.label).Perm twoSessionLabels ∧
      reduceGraph sched g = .ok g ∧
      killSet scheds g = .ok ([20], NewGraph) ∧ NewGraph.Empty = true ∧
      main rankW rankG sched scheds twoSessionRows = .ok (.deadlock g ["20"]) := by
  have key : ∀ g : Graph, graphOfRows rankW rankG twoSessionRows = .ok g → g.WF → g.stable →
      g.Empty = false → (g.edges.map Edge.label).Perm twoSessionLabels →
      killSet (fun _ _ _ => 0) g = .ok ([20], NewGraph) →
      ∃ g, graphOfRows rankW rankG twoSessionRows = .ok g ∧
        (g.edges.map Edge.label).Perm twoSessionLabels ∧
        reduceGraph sched g = .ok g ∧
        killSet scheds g = .ok ([20], NewGraph) ∧ NewGraph.Empty = true ∧
        main rankW rankG sched scheds twoSessionRows = .ok (.deadlock g ["20"]) := by
    intro g hg hwf hst hne hperm hkill
    have hr := reduceGraph_stable sched g hst
    have hk : killSet scheds g = .ok ([20], NewGraph) := by
      rw [killSet_sched_irrelevant scheds (fun _ _ _ => 0) g hwf]
      exact hkill
    refine ⟨g, hg, hperm, hr, hk, rfl, ?_⟩
    unfold main
    rw [hg]
    simp only
    rw [hr]
    simp only
    rw [hne]
    simp only [Bool.false_eq_true, if_false]
    rw [hk]
    rfl
  rcases graphOfRows_twoSessionRows rankW rankG with h | h
  · exact key twoSessionGraphA h (by decide) (by decide) (by decide) (by decide) rfl
  · exact key twoSessionGraphB h (by decide) (by decide) (by decide) (by decide) rfl

theorem star_step (a b : Int) (h : star.step a b) : a = 1 ∨ b = 1 := by
  obtain ⟨e, ⟨p, hp, he⟩, rfl, rfl⟩ := h
  simp only [star, List.mem_cons, List.mem_singleton, List.not_mem_nil, or_false] at hp
  rcases hp with rfl | rfl | rfl <;>
    simp only [List.mem_cons, List.mem_singleton, List.not_mem_nil, or_false] at he
  · rcases he with rfl | rfl <;> simp [waitEdge]
  · subst he; simp [waitEdge]
  · subst he; simp [waitEdge]

/-- C16: the kill-set loop does not compute a smallest set: the graph with the
edges 1 → 2, 2 → 1, 1 → 3, 3 → 1, which the builder makes of the snapshot
`starRows`, is well formed and reduced, the loop returns the list `[3, 2]` on
it whatever the visiting orders, and deleting session 1 alone already leaves
no directed cycle. -/
theorem killSet_not_minimum :
    graphOfRows (fun _ => 0) (fun _ => 0) starRows = .ok star ∧ star.WF ∧
    (∀ sched, reduceGraph sched star = .ok star) ∧
    (∀ scheds, killSet scheds star = .ok ([3, 2], NewGraph)) ∧
    star.acyclicWithout [1] ∧ [1].length < [3, 2].length := by
  refine ⟨rfl, by decide, ?_, ?_, ?_, by decide⟩
  · intro sched
    exact reduceGraph_stable sched star (by decide)
  · intro scheds
    rw [killSet_sched_irrelevant scheds (fun _ _ _ => 0) star (by decide)]
    rfl
  · intro s hs
    obtain ⟨b, ⟨hstep, ha, hb⟩, _⟩ := Relation.TransGen.head'_iff.mp hs
    rcases star_step _ _ hstep with h1 | h1
    · exact ha (by simp [h1])
    · exact hb (by simp [h1])

/-! ## The partition loop -/

theorem scanRow_error_kind (st : GrantedTable × Waiter) (r : Row) (f : Failure)
    (h : scanRow st r = .error f) :
    f = .granted_is_null ∨ f = .mode_is_null ∨ f = .mppsessionid_is_null := by
  obtain ⟨robj, rmode, rgranted, rsess⟩ := r
  unfold scanRow at h
  cases rgranted with
  | none => simp only at h; cases h; exact Or.inl rfl
  | some gr =>
    cases rmode with
    | none => simp only at h; cases h; exact Or.inr (Or.inl rfl)
    | some m =>
      cases rsess with
      | none => simp only at h; cases h; exact Or.inr (Or.inr rfl)
      | some s =>
        simp only at h
        split at h <;> cases h

theorem foldlM_scanRow_error_kind (rs : List Row) (st : GrantedTable × Waiter) (f : Failure)
    (h : rs.foldlM scanRow st = .error f) :
    f = .granted_is_null ∨ f = .mode_is_null ∨ f = .mppsessionid_is_null := by
  induction rs generalizing st with
  | nil => cases h
  | cons r rs ih =>
    cases h1 : scanRow st r with
    | error f1 =>
      rw [foldlM_cons_error _ _ _ _ _ h1] at h
      cases h
      exact scanRow_error_kind st r _ h1
    | ok st1 =>
      rw [foldlM_cons_ok _ _ _ _ _ h1] at h
      exact ih st1 h

/-- C11: the partition loop fails if and only if some row lacks mode, granted
flag or session id, and then with one of the three failures "granted is
null", "mode is null", "mppsessionid is null"; a row that carries the three
is scanned without failure whatever its object fields are; and when no row
lacks any of the three, the loop returns tables in which the holders of an
object and mode are the sessions of the granted rows for it and the list of a
session holds one lock for each of its waiting rows, in row order. -/
theorem partitionRows_fails_iff (rows : List Row) :
    ((∃ f, partitionRows rows = .error f) ↔ ∃ r ∈ rows, ¬ r.complete) ∧
    (∀ f, partitionRows rows = .error f →
      f = .granted_is_null ∨ f = .mode_is_null ∨ f = .mppsessionid_is_null) ∧
    (∀ st obj mode granted s, ∃ st', scanRow st ⟨obj, some mode, some granted, some s⟩ = .ok st') ∧
    ((∀ r ∈ rows, r.complete) → ∃ st, partitionRows rows = .ok st ∧ Partitioned rows st) := by
  refine ⟨⟨?_, ?_⟩, ?_, ?_, partitionRows_spec rows⟩
  · rintro ⟨f, hf⟩
    by_contra hn
    have hc : ∀ r ∈ rows, r.complete := by
      intro r hr
      by_contra hx
      exact hn ⟨r, hr, hx⟩
    obtain ⟨st, e, _⟩ := partitionRows_spec rows hc
    rw [hf] at e
    cases e
  · rintro ⟨r, hr, hx⟩
    cases hp : partitionRows rows with
    | error f => exact ⟨f, rfl⟩
    | ok st => exact absurd (foldlM_scanRow_ok_complete rows ([], []) st hp r hr) hx
  · intro f hf
    exact foldlM_scanRow_error_kind rows ([], []) f hf
  · intro st obj mode granted s
    cases granted with
    | true => exact ⟨_, rfl⟩
    | false => exact ⟨_, rfl⟩

/-! ## The conflict table -/

theorem conflict_table_matrix_aux :
    conflict_table.map Prod.fst = (List.range' 1 8).map modeName ∧
    ∀ i ∈ List.range' 1 8,
      (conflict_table.lookup (modeName i)).isSome = true ∧
      (conflictModes (modeName i)).Nodup ∧
      (∀ m ∈ conflictModes (modeName i), m ∈ (engineConflicts i).map modeName) ∧
      (∀ m ∈ (engineConflicts i).map modeName, m ∈ conflictModes (modeName i)) := by
  decide

/-- C12: the keys of `conflict_table` are exactly the eight lock modes in the
numbering of the specification, each once, and for each mode its list names,
without repetition, exactly the modes of the engine's conflict matrix as the
specification states it. -/
theorem conflict_table_matrix :
    conflict_table.map Prod.fst = (List.range' 1 8).map modeName ∧
    (conflict_table.map Prod.fst).Nodup ∧
    ∀ i ∈ List.range' 1 8,
      (∃ l, conflict_table.lookup (modeName i) = some l ∧ l.Nodup ∧
        ∀ m : String, m ∈ l ↔ ∃ j ∈ engineConflicts i, m = modeName j) := by
  obtain ⟨hkeys, hrows⟩ := conflict_table_matrix_aux
  refine ⟨hkeys, ?_, ?_⟩
  · rw [hkeys]
    decide
  · intro i hi
    obtain ⟨h1, h2, h3, h4⟩ := hrows i hi
    obtain ⟨l, hl⟩ := Option.isSome_iff_exists.mp h1
    have hcm : conflictModes (modeName i) = l := by
      unfold conflictModes
      rw [hl]
      rfl
    rw [hcm] at h2 h3 h4
    refine ⟨l, hl, h2, ?_⟩
    intro m
    constructor
    · intro hm
      obtain ⟨j, hj, rfl⟩ := List.mem_map.mp (h3 m hm)
      exact ⟨j, hj, rfl⟩
    · rintro ⟨j, hj, rfl⟩
      exact h4 _ (List.mem_map.mpr ⟨j, hj, rfl⟩)

theorem engineConflicts_symm :
    ∀ i ∈ List.range' 1 8, ∀ j ∈ engineConflicts i, j ∈ List.range' 1 8 ∧ i ∈ engineConflicts j := by
  decide

theorem conflictModes_symm_aux (A B : String) (h : B ∈ conflictModes A) :
    A ∈ conflictModes B := by
  obtain ⟨hkeys, hrows⟩ := conflict_table_matrix_aux
  have hA : A ∈ conflict_table.map Prod.fst := by
    unfold conflictModes at h
    cases hl : conflict_table.lookup A with
    | none => rw [hl] at h; simp at h
    | some l => exact List.mem_map.mpr ⟨(A, l), assoc_lookup_mem conflict_table A l hl, rfl⟩
  rw [hkeys] at hA
  obtain ⟨i, hi, rfl⟩ := List.mem_map.mp hA
  obtain ⟨j, hj, rfl⟩ := List.mem_map.mp ((hrows i hi).2.2.1 B h)
  obtain ⟨hj8, hij⟩ := engineConflicts_symm i hi j hj
  exact (hrows j hj8).2.2.2 _ (List.mem_map.mpr ⟨i, hij, rfl⟩)

/-- C13, refuted as stated: there are no two keys `A` and `B` of
`conflict_table` such that `B` is listed for `A` but `A` is not listed for
`B`. -/
theorem conflict_table_no_asymmetric_pair :
    ¬ ∃ A B, A ∈ conflict_table.map Prod.fst ∧ B ∈ conflict_table.map Prod.fst ∧
      B ∈ conflictModes A ∧ A ∉ conflictModes B := by
  rintro ⟨A, B, _, _, h1, h2⟩
  exact h2 (conflictModes_symm_aux A B h1)

/-- C13, amended: the conflict relation of `conflict_table` is symmetric:
for all modes `A` and `B`, `B` is listed for `A` if and only if `A` is listed
for `B`. -/
theorem conflict_table_symmetric (A B : String) :
    B ∈ conflictModes A ↔ A ∈ conflictModes B :=
  ⟨conflictModes_symm_aux A B, conflictModes_symm_aux B A⟩

/-! ## `LockableObject.String` -/

theorem appendValid_eq {α : Type} (desc : List String) (field : Option α)
    (sprintf : α → String) :
    appendValid desc field sprintf = desc ++ (field.map sprintf).toList := by
  cases field <;> simp [appendValid]

theorem filterMap_cons_toList {α β : Type} (g : α → Option β) (a : α) (l : List α) :
    (a :: l).filterMap g = (g a).toList ++ l.filterMap g := by
  rw [List.filterMap_cons]
  cases g a <;> rfl

/-! ### `FormatInt` prints the decimal numeral -/

theorem digitChar_eq_decimalDigit : ∀ d < 10, Nat.digitChar d = decimalDigit d := by
  decide

theorem toDigitsCore_eq_digits (fuel n : Nat) (ds : List Char) (hf : n < fuel) (hn : 0 < n) :
    Nat.toDigitsCore 10 fuel n ds = (Nat.digits 10 n).reverse.map Nat.digitChar ++ ds := by
  induction fuel generalizing n ds with
  | zero => omega
  | succ fuel ih =>
    rw [Nat.digits_def' (by decide) hn]
    unfold Nat.toDigitsCore
    simp only
    by_cases h0 : n / 10 = 0
    · rw [if_pos h0, h0, Nat.digits_zero]
      rfl
    · rw [if_neg h0]
      have hlt : n / 10 < fuel := by omega
      rw [ih (n / 10) _ hlt (by omega)]
      simp

theorem toString_nat_eq_decimalNat (n : Nat) : toString n = decimalNat n := by
  show String.mk (Nat.toDigits 10 n) = decimalNat n
  unfold decimalNat
  by_cases h0 : n = 0
  · subst h0
    rfl
  · rw [if_neg h0]
    congr 1
    unfold Nat.toDigits
    rw [toDigitsCore_eq_digits (n + 1) n [] (by omega) (by omega), List.append_nil]
    apply List.map_congr_left
    intro d hd
    exact digitChar_eq_decimalDigit d (Nat.digits_lt_base (by decide) (List.mem_reverse.mp hd))

/-- The model of `strconv.FormatInt(i, 10)` and of `%d` prints the decimal
numeral of `i`. -/
theorem FormatInt_eq_decimalInt (i : Int) : FormatInt i = decimalInt i := by
  unfold FormatInt decimalInt
  cases i with
  | ofNat m =>
    have hnn : ¬ (Int.ofNat m < 0) := by
      have : (0 : Int) ≤ Int.ofNat m := Int.ofNat_nonneg m
      omega
    rw [if_neg hnn]
    exact toString_nat_eq_decimalNat m
  | negSucc m =>
    rw [if_pos (Int.negSucc_lt_zero m)]
    show "-" ++ toString (m + 1) = "-" ++ decimalNat (m + 1)
    rw [toString_nat_eq_decimalNat]

theorem desc_eq_entries (o : LockableObject) : o.desc = o.entries := by
  unfold LockableObject.desc LockableObject.entries LockableObject.fields
  simp only [appendValid_eq, filterMap_cons_toList, List.filterMap_nil, Option.map_map,
    List.append_assoc, List.nil_append, List.append_nil, FormatInt_eq_decimalInt]
  rfl

theorem length_filterMap_present (l : List (String × Option String)) :
    (l.filterMap (fun f => f.2.map (fun v => f.1 ++ ":" ++ v))).length =
      (l.filter (fun f => f.2.isSome)).length := by
  induction l with
  | nil => rfl
  | cons p l ih =>
    obtain ⟨a, x⟩ := p
    cases x with
    | none => simpa [List.filterMap_cons, List.filter_cons] using ih
    | some v => simpa [List.filterMap_cons, List.filter_cons] using ih

theorem filterMap_absent (l : List (String × Option String)) (h : ∀ f ∈ l, f.2 = none) :
    l.filterMap (fun f => f.2.map (fun v => f.1 ++ ":" ++ v)) = [] := by
  induction l with
  | nil => rfl
  | cons p l ih =>
    have h1 := h p (List.mem_cons_self _ _)
    rw [List.filterMap_cons, h1]
    exact ih (fun f hf => h f (List.mem_cons_of_mem _ hf))

/-- C17: `String()` returns the entries of the present fields joined by ";":
the slice it joins holds, in the fixed order seg, type, db, rel, page, tuple,
virtualxid, xid, classid, objid, objsubid, the entry `label:value` of each
present field and nothing for an absent one, the value of an integer field
being its decimal numeral (the digits `'0'` to `'9'`, most significant first,
after a minus sign when negative) and the value of a string field the string
itself; there are as many entries as present fields, and the result is the
empty string when every field is absent.  For relation 500 of type
"relation" the result is `type:relation;rel:500`. -/
theorem LockableObject_String_entries (o : LockableObject) :
    o.String = String.intercalate ";" o.entries ∧ o.desc = o.entries ∧
    o.fields =
      [("seg", o.gp_segment_id.map decimalInt), ("type", o.locktype),
        ("db", o.database.map decimalInt), ("rel", o.relation.map decimalInt),
        ("page", o.page.map decimalInt), ("tuple", o.tuple.map decimalInt),
        ("virtualxid", o.virtualxid), ("xid", o.transactionid.map decimalInt),
        ("classid", o.classid.map decimalInt), ("objid", o.objid.map decimalInt),
        ("objsubid", o.objsubid.map decimalInt)] ∧
    o.fields.map (fun f => f.2.isSome) =
      [o.gp_segment_id.isSome, o.locktype.isSome, o.database.isSome, o.relation.isSome,
        o.page.isSome, o.tuple.isSome, o.virtualxid.isSome, o.transactionid.isSome,
        o.classid.isSome, o.objid.isSome, o.objsubid.isSome] ∧
    o.desc.length = (o.fields.filter (fun f => f.2.isSome)).length ∧
    ((∀ f ∈ o.fields, f.2 = none) → o.String = "") ∧
    (∀ i : Int, FormatInt i = decimalInt i) ∧
    (List.range 10).map decimalDigit = ['0', '1', '2', '3', '4', '5', '6', '7', '8', '9'] ∧
    (∀ n : Nat, n ≠ 0 → Nat.ofDigits 10 (Nat.digits 10 n) = n ∧
      decimalNat n = String.mk ((Nat.digits 10 n).reverse.map decimalDigit)) ∧
    decimalNat 0 = "0" ∧
    (∀ i : Int, 0 ≤ i → decimalInt i = decimalNat i.natAbs) ∧
    (∀ i : Int, i < 0 → decimalInt i = "-" ++ decimalNat i.natAbs) ∧
    FormatInt 500 = "500" ∧ FormatInt (-7) = "-7" ∧
    (relationObj 500).String = "type:relation;rel:500" := by
  have h1 := desc_eq_entries o
  refine ⟨?_, h1, rfl, ?_, ?_, ?_, FormatInt_eq_decimalInt, by decide, ?_, rfl, ?_, ?_,
    by decide, by decide, by decide⟩
  · unfold LockableObject.String
    rw [h1]
  · simp [LockableObject.fields]
  · rw [h1]
    exact length_filterMap_present o.fields
  · intro h
    unfold LockableObject.String
    rw [h1]
    unfold LockableObject.entries
    rw [filterMap_absent o.fields h]
    rfl
  · intro n hn
    refine ⟨Nat.ofDigits_digits 10 n, ?_⟩
    unfold decimalNat
    rw [if_neg hn]
  · intro i hi
    unfold decimalInt
    rw [if_neg (by omega)]
  · intro i hi
    unfold decimalInt
    rw [if_pos hi]

/-! ## Consistency of the two adjacency views -/

theorem Reachable_WF (g : Graph) (h : g.Reachable) : g.WF := by
  induction h with
  | newGraph => exact Built_init.1
  | getOrNewVertex session _ ih => exact (GetOrNewVertex_spec _ session ih).1
  | addEdge e _ hf ht ih => exact WF_AddEdge ih e hf ht
  | removeVert s vert _ hm ih => exact WF_RemoveVert ih hm
  | reduce sched _ hr ih => exact (reduceGraph_Induced sched _ _ ih hr).1.2.1.1

theorem Reachable_addEdge (S : Int) (lock : Lock) (cm : String) (st : Graph × Nat) (T : Int)
    (h : st.1.Reachable) : (addEdge S lock cm st T).1.Reachable := by
  unfold addEdge
  split
  · exact h
  · have hwf := Reachable_WF _ h
    obtain ⟨w1, s1, _, k1, _⟩ := GetOrNewVertex_spec st.1 S hwf
    obtain ⟨_, s2, _, k2, _⟩ := GetOrNewVertex_spec (st.1.GetOrNewVertex S).1 T w1
    apply Graph.Reachable.addEdge _ (Graph.Reachable.getOrNewVertex T
      (Graph.Reachable.getOrNewVertex S h))
    · show (st.1.GetOrNewVertex S).2.mppsessionid ∈ _
      rw [s1]
      exact (k2 S).mpr (Or.inl ((k1 S).mpr (Or.inr rfl)))
    · show ((st.1.GetOrNewVertex S).1.GetOrNewVertex T).2.mppsessionid ∈ _
      rw [s2]
      exact (k2 T).mpr (Or.inr rfl)

theorem foldl_invariant {α β : Type} (f : β → α → β) (I : β → Prop)
    (hI : ∀ b a, I b → I (f b a)) (l : List α) (b : β) (h : I b) : I (l.foldl f b) := by
  induction l generalizing b with
  | nil => exact h
  | cons a l ih => exact ih _ (hI b a h)

theorem foldlM_invariant {α β : Type} (f : β → α → Except Failure β) (I : β → Prop)
    (hI : ∀ b a b', I b → f b a = .ok b' → I b') (l : List α) (b b' : β) (h : I b)
    (hr : l.foldlM f b = .ok b') : I b' := by
  induction l generalizing b with
  | nil => cases hr; exact h
  | cons a l ih =>
    cases h1 : f b a with
    | error e =>
      rw [foldlM_cons_error _ _ _ _ _ h1] at hr
      cases hr
    | ok b1 =>
      rw [foldlM_cons_ok _ _ _ _ _ h1] at hr
      exact ih b1 (hI b a b1 h h1) hr

/-- Every graph the builder returns is a graph state of an analysis run. -/
theorem graphOfRows_Reachable (rankW rankG : Int → Nat) (rows : List Row) (g : Graph)
    (h : graphOfRows rankW rankG rows = .ok g) : g.Reachable := by
  unfold graphOfRows at h
  cases hp : partitionRows rows with
  | error f => rw [hp] at h; cases h
  | ok pw =>
    rw [hp] at h
    simp only at h
    unfold buildGraph at h
    cases hb : (rangeOrder rankW (pw.2.map Prod.fst)).foldlM
        (addWaiter rankG pw.1 pw.2) (NewGraph, 0) with
    | error f => rw [hb] at h; cases h
    | ok st =>
      rw [hb] at h
      cases h
      refine foldlM_invariant _ (fun st : Graph × Nat => st.1.Reachable) ?_ _ _ _
        Graph.Reachable.newGraph hb
      intro b S b' hb1 hw
      unfold addWaiter at hw
      refine foldlM_invariant _ (fun st : Graph × Nat => st.1.Reachable) ?_ _ _ _ hb1 hw
      intro c lock c' hc hl
      unfold addLock at hl
      cases hcm : conflict_table.lookup lock.mode with
      | none => rw [hcm] at hl; cases hl
      | some cms =>
        rw [hcm] at hl
        cases hl
        refine foldl_invariant _ (fun st : Graph × Nat => st.1.Reachable) ?_ _ _ hc
        intro d cm hd
        unfold addConflictMode
        exact foldl_invariant _ (fun st : Graph × Nat => st.1.Reachable)
          (fun x T hx => Reachable_addEdge S lock cm x T hx) _ _ hd

/-- C18: in every graph state of an analysis run the two adjacency views
agree: an edge is in the outgoing set of a vertex of the session map if and
only if it starts at that vertex and is in the incoming set of the vertex of
the session map it ends at, and the other way round; and `RemoveVert` of a
vertex `s` of the graph removes `s` from the session map and from the sets of
each remaining vertex exactly the edges that end or start at `s`. -/
theorem reachable_adjacency_consistent (g : Graph) (h : g.Reachable) :
    (∀ k v, (k, v) ∈ g.session_map → ∀ e,
      (e ∈ v.edges_out ↔ e.from_ = k ∧ ∃ w, (e.to_, w) ∈ g.session_map ∧ e ∈ w.edges_in) ∧
      (e ∈ v.edges_in ↔ e.to_ = k ∧ ∃ w, (e.from_, w) ∈ g.session_map ∧ e ∈ w.edges_out)) ∧
    (∀ s vert, (s, vert) ∈ g.session_map →
      (∀ k, k ∈ (g.RemoveVert vert).keys ↔ k ∈ g.keys ∧ k ≠ s) ∧
      ∀ k v, (k, v) ∈ g.session_map → k ≠ s →
        ∃ v', (k, v') ∈ (g.RemoveVert vert).session_map ∧
          (∀ e, e ∈ v'.edges_out ↔ e ∈ v.edges_out ∧ e.to_ ≠ s) ∧
          (∀ e, e ∈ v'.edges_in ↔ e ∈ v.edges_in ∧ e.from_ ≠ s)) := by
  have hwf := Reachable_WF g h
  constructor
  · intro k v hv e
    constructor
    · constructor
      · intro he
        exact ⟨hwf.out_from hv he, hwf.out_in hv he⟩
      · rintro ⟨hk, w, hw, hew⟩
        obtain ⟨u, hu, heu⟩ := hwf.in_out hw hew
        rw [hk] at hu
        rw [hwf.unique hv hu]
        exact heu
    · constructor
      · intro he
        exact ⟨hwf.in_to hv he, hwf.in_out hv he⟩
      · rintro ⟨hk, w, hw, hew⟩
        obtain ⟨u, hu, heu⟩ := hwf.out_in hw hew
        rw [hk] at hu
        rw [hwf.unique hv hu]
        exact heu
  · intro s vert hs
    refine ⟨Pruned_keys_RemoveVert hwf hs, ?_⟩
    intro k v hv hk
    refine ⟨stripVert vert k v, ?_, mem_strip_out hwf hs hv, mem_strip_in hwf hs hv⟩
    exact (mem_RemoveVert g vert k _).mpr ⟨by rw [hwf.sessionid hs]; exact hk, v, hv, rfl⟩

theorem reachable_adjacency_consistent_witness :
    firstEdgeGraph.Reachable ∧
    (∀ k v, (k, v) ∈ firstEdgeGraph.session_map → ∀ e,
      (e ∈ v.edges_out ↔ e.from_ = k ∧
        ∃ w, (e.to_, w) ∈ firstEdgeGraph.session_map ∧ e ∈ w.edges_in) ∧
      (e ∈ v.edges_in ↔ e.to_ = k ∧
        ∃ w, (e.from_, w) ∈ firstEdgeGraph.session_map ∧ e ∈ w.edges_out)) ∧
    (∀ s vert, (s, vert) ∈ firstEdgeGraph.session_map →
      (∀ k, k ∈ (firstEdgeGraph.RemoveVert vert).keys ↔ k ∈ firstEdgeGraph.keys ∧ k ≠ s) ∧
      ∀ k v, (k, v) ∈ firstEdgeGraph.session_map → k ≠ s →
        ∃ v', (k, v') ∈ (firstEdgeGraph.RemoveVert vert).session_map ∧
          (∀ e, e ∈ v'.edges_out ↔ e ∈ v.edges_out ∧ e.to_ ≠ s) ∧
          (∀ e, e ∈ v'.edges_in ↔ e ∈ v.edges_in ∧ e.from_ ≠ s)) :=
  ⟨Graph.Reachable.addEdge _ (Graph.Reachable.getOrNewVertex 20
      (Graph.Reachable.getOrNewVertex 10 Graph.Reachable.newGraph)) (by decide) (by decide),
    reachable_adjacency_consistent firstEdgeGraph
      (Graph.Reachable.addEdge _ (Graph.Reachable.getOrNewVertex 20
        (Graph.Reachable.getOrNewVertex 10 Graph.Reachable.newGraph)) (by decide) (by decide))⟩

/-! ## The kill list -/

theorem GetMaxSessionIdVert_some (g : Graph) (h : g.WF) (v : Vertex)
    (hv : g.GetMaxSessionIdVert = some v) :
    (v.mppsessionid, v) ∈ g.session_map ∧ ∀ k ∈ g.keys, k ≤ v.mppsessionid := by
  have hm := lookup_mem g _ v hv
  have hid := h.sessionid hm
  obtain ⟨_, h2, _⟩ := foldl_max_spec g.keys 0
  constructor
  · rw [hid]; exact hm
  · rw [hid]; exact h2

/-- Whatever the kill-set loop returns on a well-formed graph is a strictly
decreasing list of vertices of that graph together with the empty graph, and
the only failure it can stop with is the nil dereference. -/
theorem killLoop_result (scheds : Nat → Nat → Int → Nat) (fuel i : Nat) (g : Graph)
    (ids : List Int) (h : g.WF) (hf : g.keys.length ≤ fuel) :
    (∀ f, killLoop scheds fuel i g ids = .error f → f = .nil_dereference) ∧
    ∀ l g', killLoop scheds fuel i g ids = .ok (l, g') →
      ∃ ids', l = ids ++ ids' ∧ g'.Empty = true ∧ ids'.length ≤ g.keys.length ∧
        (∀ s ∈ ids', s ∈ g.keys) ∧ ids'.Pairwise (fun a b => a > b) := by
  induction fuel generalizing i g ids with
  | zero =>
    have hk : g.keys = [] := List.length_eq_zero.mp (Nat.le_zero.mp hf)
    have he := (Empty_iff_keys g).mpr hk
    unfold killLoop
    rw [if_pos he]
    constructor
    · intro f hx; cases hx
    · intro l g' hx
      cases hx
      exact ⟨[], by simp, he, by simp, by simp, List.Pairwise.nil⟩
  | succ fuel ih =>
    unfold killLoop
    cases he : g.Empty with
    | true =>
      simp only [if_true]
      constructor
      · intro f hx; cases hx
      · intro l g' hx
        cases hx
        exact ⟨[], by simp, he, by simp, by simp, List.Pairwise.nil⟩
    | false =>
      simp only [Bool.false_eq_true, if_false]
      cases hv : g.GetMaxSessionIdVert with
      | none =>
        simp only
        constructor
        · intro f hx; cases hx; rfl
        · intro l g' hx; cases hx
      | some v =>
        simp only
        obtain ⟨hvm, hmax⟩ := GetMaxSessionIdVert_some g h v hv
        have hwf1 := WF_RemoveVert h hvm
        obtain ⟨g1, hr, hP, _⟩ := reduceGraph_spec (scheds i) (g.RemoveVert v) hwf1
        rw [hr]
        simp only
        have hsub : ∀ k, k ∈ g1.keys → k ∈ g.keys ∧ k ≠ v.mppsessionid := by
          intro k hk
          exact (Pruned_keys_RemoveVert h hvm k).mp (hP.2.1 k hk)
        have hlen : g1.keys.length < g.keys.length := by
          have h1 : g1.keys.length ≤ (g.RemoveVert v).keys.length := by
            apply List.Subperm.length_le
            exact List.subperm_of_subset hP.1.1 (fun k hk => hP.2.1 k hk)
          have h2 : (g.RemoveVert v).keys.length < g.keys.length := by
            rw [keys_RemoveVert]
            apply List.length_filter_lt_length_iff_exists.mpr
            exact ⟨v.mppsessionid, mem_keys_of_mem hvm, by simp⟩
          omega
        obtain ⟨a1, a2⟩ := ih (i + 1) g1 (ids ++ [v.mppsessionid]) hP.1 (by omega)
        refine ⟨a1, ?_⟩
        intro l g' hx
        obtain ⟨ids1, hl, hemp, hlen1, hmem, hsorted⟩ := a2 l g' hx
        refine ⟨v.mppsessionid :: ids1, by simp [hl], hemp, ?_, ?_, ?_⟩
        · simp only [List.length_cons]
          omega
        · intro s hs
          rcases List.mem_cons.mp hs with rfl | hs
          · exact mem_keys_of_mem hvm
          · exact (hsub s (hmem s hs)).1
        · rw [List.pairwise_cons]
          refine ⟨?_, hsorted⟩
          intro s hs
          have h1 := hsub s (hmem s hs)
          have h2 := hmax s h1.1
          have h3 := h1.2
          omega

/-- Every list the kill-set loop returns on a well-formed graph is strictly
decreasing in session id, so free of duplicates, and consists of vertices of
the graph the loop started from; the graph returned with it is empty. -/
theorem killSet_ok_strictly_decreasing (scheds : Nat → Nat → Int → Nat) (g : Graph)
    (ids : List Int) (g' : Graph) (h : g.WF) (hr : killSet scheds g = .ok (ids, g')) :
    ids.Pairwise (fun a b => a > b) ∧ ids.Nodup ∧ (∀ s ∈ ids, s ∈ g.keys) ∧
      ids.length ≤ g.keys.length ∧ g'.Empty = true := by
  obtain ⟨ids', hl, hemp, hlen, hmem, hsorted⟩ :=
    (killLoop_result scheds g.session_map.length 0 g [] h (by rw [keys_length])).2 ids g' hr
  simp only [List.nil_append] at hl
  subst hl
  refine ⟨hsorted, ?_, hmem, hlen, hemp⟩
  exact hsorted.imp (fun hab => by omega)

theorem killSet_ok_strictly_decreasing_witness :
    star.WF ∧ killSet (fun _ _ _ => 0) star = .ok ([3, 2], NewGraph) ∧
    ([3, 2] : List Int).Pairwise (fun a b => a > b) ∧ ([3, 2] : List Int).Nodup ∧
      (∀ s ∈ ([3, 2] : List Int), s ∈ star.keys) ∧
      ([3, 2] : List Int).length ≤ star.keys.length ∧ NewGraph.Empty = true :=
  ⟨by decide, rfl,
    killSet_ok_strictly_decreasing (fun _ _ _ => 0) star [3, 2] NewGraph (by decide) rfl⟩

/-- C20, the code at the failing input: the graph -1 ⇄ -2 is well formed,
reduced and not empty, and on it the kill-set loop returns no list at all,
whatever the visiting orders: it stops with a nil dereference. -/
theorem killSet_negPair_no_list :
    negPair.WF ∧ negPair.stable ∧ negPair.Empty = false ∧
    ∀ scheds, (¬ ∃ ids g', killSet scheds negPair = .ok (ids, g')) ∧
      killSet scheds negPair = .error .nil_dereference := by
  refine ⟨by decide, by decide, by decide, ?_⟩
  intro scheds
  have h : killSet scheds negPair = .error .nil_dereference := rfl
  refine ⟨?_, h⟩
  rintro ⟨ids, g', hx⟩
  rw [h] at hx
  cases hx

/-! ## A single simple cycle -/

theorem simpleCycle_stable (g : Graph) (h : g.simpleCycle) : g.stable := by
  intro p hp
  have := h.2.2.1 p hp
  omega

theorem simpleCycle_step_unique (g : Graph) (h : g.simpleCycle) (a b c : Int)
    (hb : g.step a b) (hc : g.step a c) : b = c := by
  obtain ⟨e1, he1, hf1, ht1⟩ := hb
  obtain ⟨e2, he2, hf2, ht2⟩ := hc
  have hwf := h.1
  obtain ⟨v, hv⟩ := exists_mem_of_mem_keys (hwf.hasE_from he1)
  have hv2 : (e2.from_, v) ∈ g.session_map := by rw [hf2, ← hf1]; exact hv
  have m1 := hwf.mem_out_of_hasE he1 hv
  have m2 := hwf.mem_out_of_hasE he2 hv2
  obtain ⟨x, hx⟩ := List.length_eq_one.mp (h.2.2.1 _ hv).2
  rw [hx] at m1 m2
  rw [List.mem_singleton] at m1 m2
  rw [← ht1, ← ht2, m1, m2]

/-- In a single simple cycle every closed walk passes through every vertex. -/
theorem simpleCycle_acyclicWithout (g : Graph) (h : g.simpleCycle) (m : Int) (hm : m ∈ g.keys) :
    g.acyclicWithout [m] := by
  intro s hs
  have hR : ∀ a b, g.stepAvoiding [m] a b → g.step a b := fun a b hab => hab.1
  have hsk : s ∈ g.keys := by
    obtain ⟨b, hsb, _⟩ := Relation.TransGen.head'_iff.mp hs
    obtain ⟨e, he, hf, _⟩ := hsb.1
    rw [← hf]
    exact h.1.hasE_from he
  have key : ∀ x, Relation.ReflTransGen g.step s x →
      Relation.ReflTransGen (g.stepAvoiding [m]) s x ∧
        Relation.ReflTransGen (g.stepAvoiding [m]) x s := by
    intro x hx
    induction hx with
    | refl => exact ⟨Relation.ReflTransGen.refl, Relation.ReflTransGen.refl⟩
    | @tail x y _ hxy ih =>
      obtain ⟨h1, h2⟩ := ih
      have hz : ∃ z, g.stepAvoiding [m] x z ∧ Relation.ReflTransGen (g.stepAvoiding [m]) z s := by
        rcases Relation.ReflTransGen.cases_head h2 with heq | ⟨z, hxz, hzs⟩
        · subst heq
          obtain ⟨z, hxz, hzs⟩ := Relation.TransGen.head'_iff.mp hs
          exact ⟨z, hxz, hzs⟩
        · exact ⟨z, hxz, hzs⟩
      obtain ⟨z, hxz, hzs⟩ := hz
      have hyz : y = z := simpleCycle_step_unique g h x y z hxy hxz.1
      subst hyz
      exact ⟨Relation.ReflTransGen.tail h1 hxz, hzs⟩
  obtain ⟨_, hms⟩ := key m (h.2.2.2 s hsk m hm)
  have hcyc : Relation.TransGen (g.stepAvoiding [m]) m m := by
    rcases Relation.ReflTransGen.cases_head hms with heq | ⟨z, hmz, hzs⟩
    · have hs' := hs
      rw [← heq] at hs'
      exact hs'
    · exact Relation.TransGen.head' hmz (hzs.trans (key m (h.2.2.2 s hsk m hm)).1)
  obtain ⟨z, hmz, _⟩ := Relation.TransGen.head'_iff.mp hcyc
  exact hmz.2.1 (List.mem_singleton.mpr rfl)

theorem killLoop_empty (scheds : Nat → Nat → Int → Nat) (fuel i : Nat) (g : Graph)
    (ids : List Int) (h : g.Empty = true) : killLoop scheds fuel i g ids = .ok (ids, g) := by
  cases fuel with
  | zero => unfold killLoop; rw [if_pos h]
  | succ fuel => unfold killLoop; rw [if_pos h]

/-- On a single simple cycle whose largest session id `m` is not negative,
`reduceGraph` removes nothing and the kill-set loop returns exactly `[m]` and
the empty graph. -/
theorem killSet_simpleCycle_of_nonneg (sched : Nat → Int → Nat)
    (scheds : Nat → Nat → Int → Nat) (g : Graph) (h : g.simpleCycle) (m : Int)
    (hm : m ∈ g.keys) (hmax : ∀ k ∈ g.keys, k ≤ m) (hpos : 0 ≤ m) :
    reduceGraph sched g = .ok g ∧
      ∃ g', killSet scheds g = .ok ([m], g') ∧ g'.Empty = true := by
  refine ⟨reduceGraph_stable sched g (simpleCycle_stable g h), ?_⟩
  have hwf := h.1
  obtain ⟨v, hv, hvm, hvmax⟩ := GetMaxSessionIdVert_of_nonneg g hwf ⟨m, hm, hpos⟩
  have hvid : v.mppsessionid = m :=
    le_antisymm (hmax _ (mem_keys_of_mem hvm)) (hvmax m hm)
  have hwf1 := WF_RemoveVert hwf hvm
  obtain ⟨g1, hr, hP, hst⟩ := reduceGraph_spec (scheds 0) (g.RemoveVert v) hwf1
  have hemp : g1.Empty = true := by
    rw [hP.empty_iff hst]
    intro s hs
    apply simpleCycle_acyclicWithout g h m hm s
    refine Relation.TransGen.mono ?_ hs
    rintro a b ⟨e, he, hf, ht⟩
    obtain ⟨he0, h1, h2⟩ := (hasE_RemoveVert hwf hvm e).mp he
    rw [hvid] at h1 h2
    refine ⟨⟨e, he0, hf, ht⟩, ?_, ?_⟩
    · rw [List.mem_singleton, ← hf]; exact h1
    · rw [List.mem_singleton, ← ht]; exact h2
  refine ⟨g1, ?_, hemp⟩
  have hne : g.Empty = false := by
    rw [Empty_false_iff]
    exact List.ne_nil_of_mem hm
  obtain ⟨n, hn⟩ : ∃ n, g.session_map.length = n + 1 := ⟨g.session_map.length - 1, by
    have := h.2.1
    omega⟩
  unfold killSet
  rw [hn]
  unfold killLoop
  rw [hne]
  simp only [Bool.false_eq_true, if_false]
  rw [hv]
  simp only
  rw [hr]
  simp only
  rw [killLoop_empty scheds n 1 g1 _ hemp, hvid]
  rfl

theorem cycle3_simpleCycle : cycle3.simpleCycle := by
  have h12 : cycle3.step 100 200 :=
    ⟨waitEdge 0 100 200 1, ⟨_, List.mem_cons_self _ _, List.mem_cons_self _ _⟩, rfl, rfl⟩
  have h23 : cycle3.step 200 300 :=
    ⟨waitEdge 1 200 300 2,
      ⟨_, List.mem_cons_of_mem _ (List.mem_cons_self _ _), List.mem_cons_self _ _⟩, rfl, rfl⟩
  have h31 : cycle3.step 300 100 :=
    ⟨waitEdge 2 300 100 3,
      ⟨_, List.mem_cons_of_mem _ (List.mem_cons_of_mem _ (List.mem_cons_self _ _)),
        List.mem_cons_self _ _⟩, rfl, rfl⟩
  refine ⟨by decide, by decide, by decide, ?_⟩
  intro a ha b hb
  have hkeys : ∀ x, x ∈ cycle3.keys → x = 100 ∨ x = 200 ∨ x = 300 := by
    intro x hx
    simpa [cycle3, Graph.keys] using hx
  have r12 := Relation.ReflTransGen.single h12
  have r23 := Relation.ReflTransGen.single h23
  have r31 := Relation.ReflTransGen.single h31
  rcases hkeys a ha with rfl | rfl | rfl <;> rcases hkeys b hb with rfl | rfl | rfl
  · exact Relation.ReflTransGen.refl
  · exact r12
  · exact r12.trans r23
  · exact r23.trans r31
  · exact Relation.ReflTransGen.refl
  · exact r23
  · exact r31
  · exact r31.trans r12
  · exact Relation.ReflTransGen.refl

theorem killSet_simpleCycle_of_nonneg_witness :
    cycle3.simpleCycle ∧ (300 : Int) ∈ cycle3.keys ∧ (∀ k ∈ cycle3.keys, k ≤ 300) ∧
    (0 : Int) ≤ 300 ∧ reduceGraph (fun _ _ => 0) cycle3 = .ok cycle3 ∧
      ∃ g', killSet (fun _ _ _ => 0) cycle3 = .ok ([300], g') ∧ g'.Empty = true :=
  ⟨cycle3_simpleCycle, by decide, by decide, by decide,
    killSet_simpleCycle_of_nonneg (fun _ _ => 0) (fun _ _ _ => 0) cycle3 cycle3_simpleCycle 300
      (by decide) (by decide) (by decide)⟩

/-- C15, the code at the failing input: the graph -1 ⇄ -2 is a single simple
cycle over two sessions, its largest session id is -1, `reduceGraph` removes
nothing from it, and the kill-set loop does not return `[-1]` on it but stops
with a nil dereference, whatever the visiting orders. -/
theorem killSet_simpleCycle_negPair :
    negPair.simpleCycle ∧ (-1 : Int) ∈ negPair.keys ∧ (∀ k ∈ negPair.keys, k ≤ -1) ∧
    (∀ sched, reduceGraph sched negPair = .ok negPair) ∧
    ∀ scheds, killSet scheds negPair = .error .nil_dereference := by
  have h12 : negPair.step (-1) (-2) :=
    ⟨waitEdge 0 (-1) (-2) 600, ⟨_, List.mem_cons_self _ _, List.mem_cons_self _ _⟩, rfl, rfl⟩
  have h21 : negPair.step (-2) (-1) :=
    ⟨waitEdge 1 (-2) (-1) 500,
      ⟨_, List.mem_cons_of_mem _ (List.mem_cons_self _ _), List.mem_cons_self _ _⟩, rfl, rfl⟩
  refine ⟨⟨by decide, by decide, by decide, ?_⟩, by decide, by decide, ?_, fun _ => rfl⟩
  · intro a ha b hb
    have hkeys : ∀ x, x ∈ negPair.keys → x = -1 ∨ x = -2 := by
      intro x hx
      simpa [negPair, Graph.keys] using hx
    rcases hkeys a ha with rfl | rfl <;> rcases hkeys b hb with rfl | rfl
    · exact Relation.ReflTransGen.refl
    · exact Relation.ReflTransGen.single h12
    · exact Relation.ReflTransGen.single h21
    · exact Relation.ReflTransGen.refl
  · intro sched
    exact reduceGraph_stable sched negPair (by decide)

end Deadlock
